import Mathlib

/-!
Raytracer-CPP, the intersection core: a shallow embedding of `intersection.cpp`, `cube.cpp`,
`shapes/sphere.cpp` and `transformers.h`, and the properties of `Intersection::hit`,
`Intersection::prepare_hit`, `Sphere::localIntersection`, `Sphere::localNormalAt`,
`Cube::localIntersection`, `Cube::checkAxis`, `Cube::localNormalAt`, `transformers::equals`
and of the recursion of `World::colourAt`.

Number model.  A C++ `double` is a value of `Dbl K`: either a finite value, taken from an
ordered field `K`, or one of the IEEE-754 special values `+∞`, `-∞`, `NaN`.  The special values
follow the IEEE-754 rules (`0 * ∞ = NaN`, `∞ - ∞ = NaN`, every ordered comparison with `NaN` is
false, `NaN == NaN` is false).  Zero is unsigned.  The operations `Dbl.add`, `Dbl.sub`,
`Dbl.mul` and `Dbl.div` are exact on finite operands: no rounding, overflow or underflow.  The
operations `Dbl.addR`, `Dbl.subR`, `Dbl.mulR` and `Dbl.divR` end with the rounding step of a
double operation, one rounding for each operation (no fused multiply-add, no extended
precision); the rounding is a parameter `rnd`, and `Dbl.binary64` is IEEE-754 binary64 rounding
to nearest, ties to even, with subnormal numbers, underflow to zero and overflow to infinity.
The properties of the arithmetic of `Sphere::localIntersection`, of the dividing branch of
`Cube::checkAxis` and of the dot product of `Intersection::prepare_hit` are stated over the
rounded operations, for the embeddings in the namespace `Rounded`.  All definitions are
computable; at `K = ℚ` they evaluate, at `K = ℝ` they speak about real numbers.

Pointers.  A `shared_ptr` to a shape is the address it holds (`ShapePtr`); the running pointer
of `hit` into the batch is modelled by the element it refers to.

Absent code.  `constmath.h` (`ALMOST_EQUALS`, `absd`, `sqrtd`), the vector library (`Tuple`,
`Colour`, `Ray`), `hit.h`, `shape.cpp` and `world.cpp` are not part of the sources at hand.
`ALMOST_EQUALS` is a parameter of the cube functions, the square root on finite values a
parameter of the sphere function and `Shape::normalAt` a parameter of `prepare_hit`; the other
operations, and the four recursive functions of `World`, are modelled from their description.
-/

namespace raytracer

/-- The values of a C++ `double`: finite ones (in `K`), the two infinities and NaN. -/
inductive Dbl (K : Type) where
  | fin (x : K)
  | pinf
  | ninf
  | nan
  deriving DecidableEq

namespace Dbl

variable {K : Type} [LinearOrderedField K]

/-- The infinity carrying the sign of a finite value `x`, NaN for `x = 0`
(the result of `x * ∞`, and of `x / 0` for an unsigned zero). -/
def signedInf (x : K) : Dbl K :=
  if x = 0 then nan else if 0 < x then pinf else ninf

/-- Unary minus. -/
def neg : Dbl K → Dbl K
  | fin x => fin (-x)
  | pinf => ninf
  | ninf => pinf
  | nan => nan

/-- IEEE addition, exact on finite operands; `Dbl.addR` adds the rounding step. -/
def add : Dbl K → Dbl K → Dbl K
  | fin x, fin y => fin (x + y)
  | fin _, pinf => pinf
  | fin _, ninf => ninf
  | fin _, nan => nan
  | pinf, fin _ => pinf
  | pinf, pinf => pinf
  | pinf, ninf => nan
  | pinf, nan => nan
  | ninf, fin _ => ninf
  | ninf, pinf => nan
  | ninf, ninf => ninf
  | ninf, nan => nan
  | nan, _ => nan

/-- IEEE subtraction, exact on finite operands; `Dbl.subR` adds the rounding step. -/
def sub (a b : Dbl K) : Dbl K := add a (neg b)

/-- IEEE multiplication, exact on finite operands; `0 * ±∞` is NaN.  `Dbl.mulR` adds the
rounding step. -/
def mul : Dbl K → Dbl K → Dbl K
  | fin x, fin y => fin (x * y)
  | fin x, pinf => signedInf x
  | fin x, ninf => signedInf (-x)
  | fin _, nan => nan
  | pinf, fin y => signedInf y
  | pinf, pinf => pinf
  | pinf, ninf => ninf
  | pinf, nan => nan
  | ninf, fin y => signedInf (-y)
  | ninf, pinf => ninf
  | ninf, ninf => pinf
  | ninf, nan => nan
  | nan, _ => nan

/-- IEEE division; `0 / 0` and `∞ / ∞` are NaN, a non-zero finite value over zero is the
infinity with the sign of the numerator. -/
def div : Dbl K → Dbl K → Dbl K
  | fin x, fin y => if y = 0 then signedInf x else fin (x / y)
  | fin _, pinf => fin 0
  | fin _, ninf => fin 0
  | fin _, nan => nan
  | pinf, fin y => if 0 ≤ y then pinf else ninf
  | pinf, pinf => nan
  | pinf, ninf => nan
  | pinf, nan => nan
  | ninf, fin y => if 0 ≤ y then ninf else pinf
  | ninf, pinf => nan
  | ninf, ninf => nan
  | ninf, nan => nan
  | nan, _ => nan

/-- The C++ comparison `a < b`; false as soon as one side is NaN. -/
def lt : Dbl K → Dbl K → Bool
  | fin x, fin y => decide (x < y)
  | fin _, pinf => true
  | fin _, ninf => false
  | fin _, nan => false
  | pinf, _ => false
  | ninf, fin _ => true
  | ninf, pinf => true
  | ninf, ninf => false
  | ninf, nan => false
  | nan, _ => false

/-- The C++ comparison `a <= b`; false as soon as one side is NaN. -/
def le : Dbl K → Dbl K → Bool
  | fin x, fin y => decide (x ≤ y)
  | fin _, pinf => true
  | fin _, ninf => false
  | fin _, nan => false
  | pinf, fin _ => false
  | pinf, pinf => true
  | pinf, ninf => false
  | pinf, nan => false
  | ninf, fin _ => true
  | ninf, pinf => true
  | ninf, ninf => true
  | ninf, nan => false
  | nan, _ => false

/-- The C++ comparison `a > b`. -/
def gt (a b : Dbl K) : Bool := lt b a

/-- The C++ comparison `a == b` on doubles; `NaN == NaN` is false. -/
def eq : Dbl K → Dbl K → Bool
  | fin x, fin y => decide (x = y)
  | pinf, pinf => true
  | ninf, ninf => true
  | _, _ => false

/-- The constant `std::numeric_limits<double>::infinity()`. -/
def infinity : Dbl K := pinf

/-- The function `std::max(a, b)`: `(a < b) ? b : a`. -/
def stdMax (a b : Dbl K) : Dbl K := if lt a b then b else a

/-- The loop of `std::max_element`: keep the first element not less than any later one. -/
def maxElementFrom (largest : Dbl K) : List (Dbl K) → Dbl K
  | [] => largest
  | x :: xs => if lt largest x then maxElementFrom x xs else maxElementFrom largest xs

/-- The loop of `std::min_element`: move to a later element only when it is less. -/
def minElementFrom (smallest : Dbl K) : List (Dbl K) → Dbl K
  | [] => smallest
  | x :: xs => if lt x smallest then minElementFrom x xs else minElementFrom smallest xs

/-- The value `*std::max_element(first, last)` of a non-empty range
(`none` for the empty range, where the dereference is undefined). -/
def maxElement : List (Dbl K) → Option (Dbl K)
  | [] => none
  | x :: xs => some (maxElementFrom x xs)

/-- The value `*std::min_element(first, last)` of a non-empty range. -/
def minElement : List (Dbl K) → Option (Dbl K)
  | [] => none
  | x :: xs => some (minElementFrom x xs)

/-- Modelled from the spec: `absd` of the absent `constmath.h`, the absolute value of a double. -/
def absd : Dbl K → Dbl K
  | fin x => fin |x|
  | pinf => pinf
  | ninf => pinf
  | nan => nan

/-- Modelled from the spec: `sqrtd` of the absent `constmath.h`, the square root of a double.
The root of a finite non-negative value is given by the parameter `sqrtK`; a negative
argument yields NaN. -/
def sqrtd (sqrtK : K → K) : Dbl K → Dbl K
  | fin x => if x < 0 then nan else fin (sqrtK x)
  | pinf => pinf
  | ninf => nan
  | nan => nan

/-- Modelled from the spec: `ALMOST_EQUALS` of the absent `constmath.h`, equality of two
doubles within the fixed epsilon `EPSILON`.  It instantiates the parameter of the cube
functions in the evaluations at concrete rays, which take `EPSILON = 0.0001` and depend only
on 0 being almost-equal to 0 and on 1 and -1 not being so. -/
def almostEquals (EPSILON : K) (x y : Dbl K) : Bool :=
  Dbl.lt (Dbl.absd (Dbl.sub x y)) (Dbl.fin EPSILON)

end Dbl

/-- A shared pointer to a shape, identified by the address it holds. -/
abbrev ShapePtr := Nat

/-- Modelled from the spec: the `Tuple` of the absent vector library, in homogeneous
coordinates: `x`, `y`, `z`, and `w` (1 for a point, 0 for a vector).  The formulas of the spec
involve `x`, `y`, `z` only; `w` contributes 0 to every dot product taken here. -/
structure Tuple (K : Type) where
  x : Dbl K
  y : Dbl K
  z : Dbl K
  w : Dbl K
  deriving DecidableEq

namespace Tuple

variable {K : Type} [LinearOrderedField K]

/-- Modelled from the spec: `make_point(x, y, z)` of the absent vector library. -/
def make_point (x y z : Dbl K) : Tuple K := ⟨x, y, z, Dbl.fin 1⟩

/-- Modelled from the spec: `make_vector(x, y, z)` of the absent vector library. -/
def make_vector (x y z : Dbl K) : Tuple K := ⟨x, y, z, Dbl.fin 0⟩

/-- Modelled from the spec: `predefined_tuples::zero_point`, the origin. -/
def zero_point : Tuple K := make_point (Dbl.fin 0) (Dbl.fin 0) (Dbl.fin 0)

/-- Modelled from the spec: componentwise `operator-` on tuples. -/
def sub (a b : Tuple K) : Tuple K :=
  ⟨Dbl.sub a.x b.x, Dbl.sub a.y b.y, Dbl.sub a.z b.z, Dbl.sub a.w b.w⟩

/-- Modelled from the spec: componentwise `operator+` on tuples. -/
def add (a b : Tuple K) : Tuple K :=
  ⟨Dbl.add a.x b.x, Dbl.add a.y b.y, Dbl.add a.z b.z, Dbl.add a.w b.w⟩

/-- Modelled from the spec: scalar multiple `t * v` of a tuple. -/
def smul (t : Dbl K) (v : Tuple K) : Tuple K :=
  ⟨Dbl.mul t v.x, Dbl.mul t v.y, Dbl.mul t v.z, Dbl.mul t v.w⟩

/-- Modelled from the spec: `dot_product`, the sum of the componentwise products. -/
def dot_product (a b : Tuple K) : Dbl K :=
  Dbl.add (Dbl.add (Dbl.add (Dbl.mul a.x b.x) (Dbl.mul a.y b.y)) (Dbl.mul a.z b.z))
    (Dbl.mul a.w b.w)

/-- Modelled from the spec: `operator[]` of a tuple at the axis indices 0, 1, 2. -/
def axis (a : Tuple K) : Fin 3 → Dbl K
  | 0 => a.x
  | 1 => a.y
  | 2 => a.z

end Tuple

/-- Modelled from the spec: a `Ray` has an origin (a point) and a direction (a vector). -/
structure Ray (K : Type) where
  origin : Tuple K
  direction : Tuple K
  deriving DecidableEq

namespace Ray

variable {K : Type} [LinearOrderedField K]

/-- Modelled from the spec: `position(t) = origin + t·direction`. -/
def position (r : Ray K) (t : Dbl K) : Tuple K :=
  Tuple.add r.origin (Tuple.smul t r.direction)

end Ray

/-- An `Intersection`: the ray parameter `t` and the shape that was hit. -/
structure Intersection (K : Type) where
  t : Dbl K
  object : ShapePtr
  deriving DecidableEq

namespace Intersection

variable {K : Type} [LinearOrderedField K]

/-- One iteration of the loop in `Intersection::hit` (intersection.cpp:21-22); `curr` is the
intersection the running pointer refers to, `none` for `nullptr`. -/
def hitStep (curr : Option (Intersection K)) (i : Intersection K) : Option (Intersection K) :=
  if Dbl.gt i.t (Dbl.fin 0) &&
      (match curr with
       | none => true
       | some c => Dbl.lt i.t c.t) then
    some i
  else
    curr

/-- The function `Intersection::hit` (intersection.cpp:15-28). -/
def hit (ints : List (Intersection K)) : Option (Intersection K) :=
  if ints.isEmpty then
    none
  else
    match ints.foldl hitStep none with
    | none => none
    | some c => if Dbl.lt c.t (Dbl.fin 0) then none else some c

/-- The loop invariant of `hit`: the running pointer is null while no element with `t > 0` was
seen, and otherwise refers to a seen element with `t > 0` that is least among those. -/
def Best (seen : List (Intersection K)) : Option (Intersection K) → Prop
  | none => ∀ j ∈ seen, Dbl.lt (Dbl.fin 0) j.t = false
  | some c => c ∈ seen ∧ Dbl.lt (Dbl.fin 0) c.t = true ∧
      ∀ j ∈ seen, Dbl.lt (Dbl.fin 0) j.t = true → Dbl.le c.t j.t = true

end Intersection

namespace Sphere

variable {K : Type} [LinearOrderedField K]

/-- The local `discriminant` of `Sphere::localIntersection` (sphere.cpp:37-44). -/
def discriminant (r : Ray K) : Dbl K :=
  let sphere_to_ray := Tuple.sub r.origin Tuple.zero_point
  let direction := r.direction
  let a := Tuple.dot_product direction direction
  let b := Dbl.mul (Dbl.fin 2) (Tuple.dot_product direction sphere_to_ray)
  let c := Dbl.sub (Tuple.dot_product sphere_to_ray sphere_to_ray) (Dbl.fin 1)
  Dbl.sub (Dbl.mul b b) (Dbl.mul (Dbl.mul (Dbl.fin 4) a) c)

/-- The function `Sphere::localIntersection` (sphere.cpp:36-52).  `self` is the pointer
returned by `shared_from_this()`; `sqrtK` is the square root on finite values. -/
def localIntersection (sqrtK : K → K) (self : ShapePtr) (r : Ray K) : List (Intersection K) :=
  let sphere_to_ray := Tuple.sub r.origin Tuple.zero_point
  let direction := r.direction
  let a := Tuple.dot_product direction direction
  let b := Dbl.mul (Dbl.fin 2) (Tuple.dot_product direction sphere_to_ray)
  let c := Dbl.sub (Tuple.dot_product sphere_to_ray sphere_to_ray) (Dbl.fin 1)
  let discriminant := Dbl.sub (Dbl.mul b b) (Dbl.mul (Dbl.mul (Dbl.fin 4) a) c)
  if Dbl.lt discriminant (Dbl.fin 0) then
    []
  else
    let t1 := Dbl.div (Dbl.sub (Dbl.neg b) (Dbl.sqrtd sqrtK discriminant)) (Dbl.mul (Dbl.fin 2) a)
    let t2 := Dbl.div (Dbl.add (Dbl.neg b) (Dbl.sqrtd sqrtK discriminant)) (Dbl.mul (Dbl.fin 2) a)
    if Dbl.lt t1 t2 then [⟨t1, self⟩, ⟨t2, self⟩] else [⟨t2, self⟩, ⟨t1, self⟩]

end Sphere

namespace Cube

variable {K : Type} [LinearOrderedField K]

/-- The function `Cube::checkAxis` (cube.cpp:52-64).  `ALMOST_EQUALS` is the comparison of
the absent `constmath.h`, taken as a parameter. -/
def checkAxis (ALMOST_EQUALS : Dbl K → Dbl K → Bool) (origin direction : Dbl K) :
    Dbl K × Dbl K :=
  if ALMOST_EQUALS direction (Dbl.fin 0) then
    (Dbl.mul (Dbl.sub (Dbl.fin (-1)) origin) Dbl.infinity,
     Dbl.mul (Dbl.sub (Dbl.fin 1) origin) Dbl.infinity)
  else
    let tmin := Dbl.div (Dbl.sub (Dbl.fin (-1)) origin) direction
    let tmax := Dbl.div (Dbl.sub (Dbl.fin 1) origin) direction
    if Dbl.gt tmin tmax then (tmax, tmin) else (tmin, tmax)

/-- The vector `mins` filled by the loop of `Cube::localIntersection` (cube.cpp:25-29),
for the axes 0, 1, 2 in this order. -/
def mins (ALMOST_EQUALS : Dbl K → Dbl K → Bool) (ray : Ray K) : List (Dbl K) :=
  [(checkAxis ALMOST_EQUALS ray.origin.x ray.direction.x).1,
   (checkAxis ALMOST_EQUALS ray.origin.y ray.direction.y).1,
   (checkAxis ALMOST_EQUALS ray.origin.z ray.direction.z).1]

/-- The vector `maxs` filled by the loop of `Cube::localIntersection` (cube.cpp:25-29). -/
def maxs (ALMOST_EQUALS : Dbl K → Dbl K → Bool) (ray : Ray K) : List (Dbl K) :=
  [(checkAxis ALMOST_EQUALS ray.origin.x ray.direction.x).2,
   (checkAxis ALMOST_EQUALS ray.origin.y ray.direction.y).2,
   (checkAxis ALMOST_EQUALS ray.origin.z ray.direction.z).2]

/-- The function `Cube::localIntersection` (cube.cpp:20-40).  `ptr` is the pointer returned by
`std::make_shared<const Cube>(*this)`. -/
def localIntersection (ALMOST_EQUALS : Dbl K → Dbl K → Bool) (ptr : ShapePtr) (ray : Ray K) :
    List (Intersection K) :=
  match Dbl.maxElement (mins ALMOST_EQUALS ray), Dbl.minElement (maxs ALMOST_EQUALS ray) with
  | some tmin, some tmax =>
    if Dbl.le tmin tmax then
      [⟨tmin, ptr⟩, ⟨tmax, ptr⟩]
    else
      []
  | _, _ => []

/-- The function `Cube::localNormalAt` (cube.cpp:42-50). -/
def localNormalAt (point : Tuple K) : Tuple K :=
  let maxc := Dbl.stdMax (Dbl.absd point.x) (Dbl.stdMax (Dbl.absd point.y) (Dbl.absd point.z))
  if Dbl.eq maxc (Dbl.absd point.x) then
    Tuple.make_vector point.x (Dbl.fin 0) (Dbl.fin 0)
  else if Dbl.eq maxc (Dbl.absd point.y) then
    Tuple.make_vector (Dbl.fin 0) point.y (Dbl.fin 0)
  else
    Tuple.make_vector (Dbl.fin 0) (Dbl.fin 0) point.z

end Cube

namespace Tuple

variable {K : Type} [LinearOrderedField K]

/-- The unary `operator-` on arrays (transformers.h:105-107): componentwise negation. -/
def neg (a : Tuple K) : Tuple K :=
  ⟨Dbl.neg a.x, Dbl.neg a.y, Dbl.neg a.z, Dbl.neg a.w⟩

end Tuple

namespace Sphere

variable {K : Type} [LinearOrderedField K]

/-- The function `Sphere::localNormalAt` (sphere.cpp:54-56). -/
def localNormalAt (point : Tuple K) : Tuple K :=
  Tuple.sub point Tuple.zero_point

end Sphere

/-- Modelled from the spec: the `Hit` of the absent `hit.h`, the snapshot
`{ intersection, point, eye vector, normal, inside }`. -/
structure Hit (K : Type) where
  intersection : Intersection K
  point : Tuple K
  eyev : Tuple K
  normalv : Tuple K
  inside : Bool
  deriving DecidableEq

namespace Intersection

variable {K : Type} [LinearOrderedField K]

/-- The function `Intersection::prepare_hit` on an intersection (intersection.cpp:41-47).
`normalAt` is `Shape::normalAt` of the absent `shape.cpp`, taken as a parameter: the world-space
normal of the shape `hit.getObject()` at a point. -/
def prepare_hit (normalAt : ShapePtr → Tuple K → Tuple K) (hit : Intersection K) (ray : Ray K) :
    Hit K :=
  let point := Ray.position ray hit.t
  let eyev := Tuple.neg ray.direction
  let normalv := normalAt hit.object point
  let inside := Dbl.lt (Tuple.dot_product normalv eyev) (Dbl.fin 0)
  ⟨hit, point, eyev, Tuple.smul (if inside then Dbl.fin (-1) else Dbl.fin 1) normalv, inside⟩

/-- The overload of `Intersection::prepare_hit` on an optional intersection
(intersection.cpp:34-39). -/
def prepare_hit_optional (normalAt : ShapePtr → Tuple K → Tuple K)
    (hit : Option (Intersection K)) (ray : Ray K) : Option (Hit K) :=
  match hit with
  | none => none
  | some i => some (prepare_hit normalAt i ray)

end Intersection

namespace transformers

/-- The function `details::ReducerAux<T, R, N, k>::result` (transformers.h:18-30), by recursion
on the template parameter `k`; a `std::array<T, N>` is a function on the indices below `N`. -/
def ReducerAux {T R : Type} {N : Nat} (f : T → T → R) (r : R → R → R) (defaultval : R)
    (a b : Fin N → T) : (k : Nat) → k ≤ N → R
  | 0, _ => defaultval
  | k + 1, h => r (f (a ⟨k, h⟩) (b ⟨k, h⟩)) (ReducerAux f r defaultval a b k (Nat.le_of_succ_le h))

/-- The function `Reducer<T, R, N>::result` (transformers.h:50-55). -/
def Reducer.result {T R : Type} {N : Nat} (f : T → T → R) (r : R → R → R) (defaultval : R)
    (a b : Fin N → T) : R :=
  ReducerAux f r defaultval a b N (Nat.le_refl N)

/-- The overload of `equals` for an integral type (transformers.h:114-117): `t1 == t2`. -/
def equalsIntegral (t1 t2 : Int) : Bool :=
  decide (t1 = t2)

/-- The overload of `equals` for arrays (transformers.h:119-124), at an integral element
type. -/
def equals {N : Nat} (t1 t2 : Fin N → Int) : Bool :=
  Reducer.result (fun d1 d2 => equalsIntegral d1 d2) (fun b1 b2 => b1 && b2) true t1 t2

end transformers

/-- Modelled from the spec: a `Colour` of the absent vector library, three doubles. -/
structure Colour (K : Type) where
  r : Dbl K
  g : Dbl K
  b : Dbl K
  deriving DecidableEq

namespace Colour

variable {K : Type} [LinearOrderedField K]

/-- Modelled from the spec: the colour black, the background and the value of an exhausted
secondary contribution. -/
def black : Colour K := ⟨Dbl.fin 0, Dbl.fin 0, Dbl.fin 0⟩

/-- Modelled from the spec: the sum of two colours. -/
def add (c1 c2 : Colour K) : Colour K :=
  ⟨Dbl.add c1.r c2.r, Dbl.add c1.g c2.g, Dbl.add c1.b c2.b⟩

/-- Modelled from the spec: a colour scaled by a factor. -/
def scale (s : Dbl K) (c : Colour K) : Colour K :=
  ⟨Dbl.mul s c.r, Dbl.mul s c.g, Dbl.mul s c.b⟩

end Colour

/-- Modelled from the spec: the `World` of the absent `world.cpp` together with its external
collaborators, as the operations that the recursion of `colourAt` consumes: the scene
intersection, the world-space normal and the material of a shape, the comparison
`ALMOST_EQUALS`, the local shading formula, the shadow test, the mirror-reflected ray, the
refracted ray (absent on total internal reflection) and the Schlick reflectance. -/
structure World (K : Type) where
  intersect : Ray K → Bool → List (Intersection K)
  normalAt : ShapePtr → Tuple K → Tuple K
  reflectivity : ShapePtr → Dbl K
  transparency : ShapePtr → Dbl K
  ALMOST_EQUALS : Dbl K → Dbl K → Bool
  lighting : Hit K → Bool → Colour K
  isShadowed : Tuple K → Bool
  reflectedRay : Hit K → Ray K
  refractedRay : Hit K → Option (Ray K)
  schlick : Hit K → Dbl K

namespace World

variable {K : Type} [LinearOrderedField K]

/-- The constant `World::MAX_RECURSIONS` (world.h:70). -/
def MAX_RECURSIONS : Int := 5

mutual

/-- Modelled from the spec: `World::colourAt(ray, remaining)` of the absent `world.cpp`: intersect
the world, resolve the hit, prepare the shading inputs, delegate to `shadeHit`; black if there is
no hit. -/
def colourAt (w : World K) (ray : Ray K) (remaining : Int) : Colour K :=
  match shadeHit w
      (Intersection.prepare_hit_optional w.normalAt (Intersection.hit (w.intersect ray false))
        ray) remaining with
  | some c => c
  | none => Colour.black
termination_by (remaining.toNat, 2)

/-- Modelled from the spec: `World::shadeHit(hit, remaining)` of the absent `world.cpp`: empty on
an empty hit; the local colour alone for a material that is neither reflective nor transparent;
otherwise the local colour plus the reflected and the refracted colour, these two weighted by the
Schlick reflectance when the material is both reflective and transparent. -/
def shadeHit (w : World K) (hit : Option (Hit K)) (remaining : Int) : Option (Colour K) :=
  match hit with
  | none => none
  | some h =>
    let surface := w.lighting h (w.isShadowed h.point)
    if w.ALMOST_EQUALS (w.reflectivity h.intersection.object) (Dbl.fin 0) &&
        w.ALMOST_EQUALS (w.transparency h.intersection.object) (Dbl.fin 0) then
      some surface
    else
      let reflected := reflectedColour w h remaining
      let refracted := refractedColour w h remaining
      if !w.ALMOST_EQUALS (w.reflectivity h.intersection.object) (Dbl.fin 0) &&
          !w.ALMOST_EQUALS (w.transparency h.intersection.object) (Dbl.fin 0) then
        some (Colour.add surface
          (Colour.add (Colour.scale (w.schlick h) reflected)
            (Colour.scale (Dbl.sub (Dbl.fin 1) (w.schlick h)) refracted)))
      else
        some (Colour.add surface (Colour.add reflected refracted))
termination_by (remaining.toNat, 1)

/-- Modelled from the spec: `World::reflectedColour(hit, remaining)` of the absent `world.cpp`:
black if `remaining <= 0` or the reflectivity is almost zero; otherwise the colour of the
reflected ray at `remaining - 1`, scaled by the reflectivity. -/
def reflectedColour (w : World K) (h : Hit K) (remaining : Int) : Colour K :=
  if hrem : remaining ≤ 0 then
    Colour.black
  else if w.ALMOST_EQUALS (w.reflectivity h.intersection.object) (Dbl.fin 0) then
    Colour.black
  else
    Colour.scale (w.reflectivity h.intersection.object)
      (colourAt w (w.reflectedRay h) (remaining - 1))
termination_by (remaining.toNat, 0)
decreasing_by
  simp_wf
  left
  omega

/-- Modelled from the spec: `World::refractedColour(hit, remaining)` of the absent `world.cpp`:
black if `remaining <= 0` or the transparency is almost zero, black on total internal reflection;
otherwise the colour of the refracted ray at `remaining - 1`, scaled by the transparency. -/
def refractedColour (w : World K) (h : Hit K) (remaining : Int) : Colour K :=
  if hrem : remaining ≤ 0 then
    Colour.black
  else if w.ALMOST_EQUALS (w.transparency h.intersection.object) (Dbl.fin 0) then
    Colour.black
  else
    match w.refractedRay h with
    | none => Colour.black
    | some ray => Colour.scale (w.transparency h.intersection.object)
        (colourAt w ray (remaining - 1))
termination_by (remaining.toNat, 0)
decreasing_by
  simp_wf
  left
  omega

end

end World

namespace World

variable {K : Type} [LinearOrderedField K]

mutual

/-- Modelled from the spec: `World::colourAt` of the absent `world.cpp`, instrumented: the colour
together with the number of nested `colourAt` calls made below this one. -/
def colourAtTraced (w : World K) (ray : Ray K) (remaining : Int) : Colour K × Nat :=
  match shadeHitTraced w
      (Intersection.prepare_hit_optional w.normalAt (Intersection.hit (w.intersect ray false))
        ray) remaining with
  | (some c, depth) => (c, depth)
  | (none, depth) => (Colour.black, depth)
termination_by (remaining.toNat, 2)

/-- Modelled from the spec: `World::shadeHit` of the absent `world.cpp`, instrumented: the
optional colour together with the larger of the depths of its two secondary contributions. -/
def shadeHitTraced (w : World K) (hit : Option (Hit K)) (remaining : Int) :
    Option (Colour K) × Nat :=
  match hit with
  | none => (none, 0)
  | some h =>
    let surface := w.lighting h (w.isShadowed h.point)
    if w.ALMOST_EQUALS (w.reflectivity h.intersection.object) (Dbl.fin 0) &&
        w.ALMOST_EQUALS (w.transparency h.intersection.object) (Dbl.fin 0) then
      (some surface, 0)
    else
      let reflected := reflectedColourTraced w h remaining
      let refracted := refractedColourTraced w h remaining
      if !w.ALMOST_EQUALS (w.reflectivity h.intersection.object) (Dbl.fin 0) &&
          !w.ALMOST_EQUALS (w.transparency h.intersection.object) (Dbl.fin 0) then
        (some (Colour.add surface
          (Colour.add (Colour.scale (w.schlick h) reflected.1)
            (Colour.scale (Dbl.sub (Dbl.fin 1) (w.schlick h)) refracted.1))),
         max reflected.2 refracted.2)
      else
        (some (Colour.add surface (Colour.add reflected.1 refracted.1)),
         max reflected.2 refracted.2)
termination_by (remaining.toNat, 1)

/-- Modelled from the spec: `World::reflectedColour` of the absent `world.cpp`, instrumented:
depth 0 when no recursive call is made, otherwise one more than the depth of the call of
`colourAt`. -/
def reflectedColourTraced (w : World K) (h : Hit K) (remaining : Int) : Colour K × Nat :=
  if hrem : remaining ≤ 0 then
    (Colour.black, 0)
  else if w.ALMOST_EQUALS (w.reflectivity h.intersection.object) (Dbl.fin 0) then
    (Colour.black, 0)
  else
    (Colour.scale (w.reflectivity h.intersection.object)
      (colourAtTraced w (w.reflectedRay h) (remaining - 1)).1,
     (colourAtTraced w (w.reflectedRay h) (remaining - 1)).2 + 1)
termination_by (remaining.toNat, 0)
decreasing_by
  all_goals simp_wf
  all_goals left
  all_goals omega

/-- Modelled from the spec: `World::refractedColour` of the absent `world.cpp`, instrumented in the
same way. -/
def refractedColourTraced (w : World K) (h : Hit K) (remaining : Int) : Colour K × Nat :=
  if hrem : remaining ≤ 0 then
    (Colour.black, 0)
  else if w.ALMOST_EQUALS (w.transparency h.intersection.object) (Dbl.fin 0) then
    (Colour.black, 0)
  else
    match w.refractedRay h with
    | none => (Colour.black, 0)
    | some ray =>
      (Colour.scale (w.transparency h.intersection.object)
        (colourAtTraced w ray (remaining - 1)).1,
       (colourAtTraced w ray (remaining - 1)).2 + 1)
termination_by (remaining.toNat, 0)
decreasing_by
  all_goals simp_wf
  all_goals left
  all_goals omega

end

end World

namespace World

/-- A test scene: every ray hits a perfect mirror at `t = 1` (reflectivity 1, transparency 0,
epsilon 0.0001), as between two parallel mirrors. -/
def hallOfMirrors : World ℚ where
  intersect := fun _ _ => [⟨Dbl.fin 1, 0⟩]
  normalAt := fun _ _ => Tuple.make_vector (Dbl.fin 0) (Dbl.fin 0) (Dbl.fin (-1))
  reflectivity := fun _ => Dbl.fin 1
  transparency := fun _ => Dbl.fin 0
  ALMOST_EQUALS := Dbl.almostEquals (1 / 10000)
  lighting := fun _ _ => ⟨Dbl.fin 1, Dbl.fin 1, Dbl.fin 1⟩
  isShadowed := fun _ => false
  reflectedRay := fun h => ⟨h.point, h.normalv⟩
  refractedRay := fun _ => none
  schlick := fun _ => Dbl.fin 0

end World

/-! ## Rounded arithmetic

The operations `Dbl.add`, `Dbl.sub`, `Dbl.mul` and `Dbl.div` above return the exact result on
finite operands.  They describe the arithmetic of the code wherever that arithmetic is exact on
doubles (negation, a product with `1` or `-1`, a difference with `0`, the special values).  In
general an operation on doubles ends with a rounding step: the exact result is replaced by the
nearest double, by an infinity when it overflows, by zero when it underflows.  The definitions
below add this step.  The rounding itself is a parameter `rnd`, so that what is proved for every
`rnd` holds for the doubles of the code; `Dbl.binary64` is the rounding of IEEE-754 binary64
(to nearest, ties to even), used for the evaluations at concrete rays. -/

namespace Dbl

variable {K : Type} [LinearOrderedField K]

/-- The rounding step that ends an arithmetic operation on doubles: a finite exact result `x`
becomes the double `rnd x` (finite, or an infinity on overflow); the special values stay as
they are. -/
def roundWith (rnd : K → Dbl K) : Dbl K → Dbl K
  | fin x => rnd x
  | pinf => pinf
  | ninf => ninf
  | nan => nan

/-- The sum `a + b` of two doubles: the exact sum, rounded. -/
def addR (rnd : K → Dbl K) (a b : Dbl K) : Dbl K := roundWith rnd (add a b)

/-- The difference `a - b` of two doubles: the exact difference, rounded. -/
def subR (rnd : K → Dbl K) (a b : Dbl K) : Dbl K := roundWith rnd (sub a b)

/-- The product `a * b` of two doubles: the exact product, rounded. -/
def mulR (rnd : K → Dbl K) (a b : Dbl K) : Dbl K := roundWith rnd (mul a b)

/-- The quotient `a / b` of two doubles: the exact quotient, rounded. -/
def divR (rnd : K → Dbl K) (a b : Dbl K) : Dbl K := roundWith rnd (div a b)

end Dbl

namespace Dbl

variable {K : Type} [LinearOrderedField K] [FloorRing K]

/-- Rounding of a number to the nearest integer, a tie going to the even neighbour. -/
def roundHalfEven (q : K) : Int :=
  if q - (⌊q⌋ : Int) < 1 / 2 then ⌊q⌋
  else if 1 / 2 < q - (⌊q⌋ : Int) then ⌊q⌋ + 1
  else if ⌊q⌋ % 2 = 0 then ⌊q⌋ else ⌊q⌋ + 1

/-- The unit in the last place of binary64 at `x`: `2 ^ (e - 52)` for a value of the binade
`2 ^ e ≤ |x| < 2 ^ (e + 1)` (53 significant bits), the exponent being held at `-1022` below
the normal range (subnormal numbers are the multiples of `2 ^ (-1074)`). -/
def ulp64 (x : K) : K := (2 : K) ^ (max (Int.log 2 |x|) (-1022) - 52)

/-- The multiple of the unit in the last place nearest to `x`, ties to the even multiple:
the binary64 rounding of `x` for an unbounded exponent range. -/
def nearest64 (x : K) : K := (roundHalfEven (x / ulp64 x) : K) * ulp64 x

/-- The rounding of IEEE-754 binary64, to nearest with ties to even: the nearest multiple of
the unit in the last place, replaced by the infinity of the same sign when its magnitude is
`2 ^ 1024` or more (overflow); values below half of `2 ^ (-1074)` round to zero (underflow). -/
def binary64 (x : K) : Dbl K :=
  if x = 0 then fin 0
  else if (2 : K) ^ (1024 : Int) ≤ |nearest64 x| then signedInf x else fin (nearest64 x)

end Dbl

namespace Tuple

variable {K : Type} [LinearOrderedField K]

/-- Componentwise rounding of a tuple; a tuple of doubles is left unchanged. -/
def roundWith (rnd : K → Dbl K) (a : Tuple K) : Tuple K :=
  ⟨Dbl.roundWith rnd a.x, Dbl.roundWith rnd a.y, Dbl.roundWith rnd a.z, Dbl.roundWith rnd a.w⟩

/-- Modelled from the spec: componentwise `operator-` on tuples, in doubles. -/
def subR (rnd : K → Dbl K) (a b : Tuple K) : Tuple K :=
  ⟨Dbl.subR rnd a.x b.x, Dbl.subR rnd a.y b.y, Dbl.subR rnd a.z b.z, Dbl.subR rnd a.w b.w⟩

/-- Modelled from the spec: componentwise `operator+` on tuples, in doubles. -/
def addR (rnd : K → Dbl K) (a b : Tuple K) : Tuple K :=
  ⟨Dbl.addR rnd a.x b.x, Dbl.addR rnd a.y b.y, Dbl.addR rnd a.z b.z, Dbl.addR rnd a.w b.w⟩

/-- Modelled from the spec: scalar multiple `t * v` of a tuple, in doubles. -/
def smulR (rnd : K → Dbl K) (t : Dbl K) (v : Tuple K) : Tuple K :=
  ⟨Dbl.mulR rnd t v.x, Dbl.mulR rnd t v.y, Dbl.mulR rnd t v.z, Dbl.mulR rnd t v.w⟩

/-- Modelled from the spec: `dot_product` in doubles, the sum of the componentwise products,
each product and each partial sum rounded. -/
def dot_productR (rnd : K → Dbl K) (a b : Tuple K) : Dbl K :=
  Dbl.addR rnd
    (Dbl.addR rnd (Dbl.addR rnd (Dbl.mulR rnd a.x b.x) (Dbl.mulR rnd a.y b.y))
      (Dbl.mulR rnd a.z b.z))
    (Dbl.mulR rnd a.w b.w)

end Tuple

namespace Ray

variable {K : Type} [LinearOrderedField K]

/-- Modelled from the spec: `position(t) = origin + t·direction`, in doubles. -/
def positionR (rnd : K → Dbl K) (r : Ray K) (t : Dbl K) : Tuple K :=
  Tuple.addR rnd r.origin (Tuple.smulR rnd t r.direction)

end Ray

namespace Rounded

namespace Sphere

variable {K : Type} [LinearOrderedField K]

/-- The local `a` of `Sphere::localIntersection` (sphere.cpp:40), in doubles. -/
def coeffA (rnd : K → Dbl K) (r : Ray K) : Dbl K :=
  Tuple.dot_productR rnd r.direction r.direction

/-- The local `b` of `Sphere::localIntersection` (sphere.cpp:41), in doubles. -/
def coeffB (rnd : K → Dbl K) (r : Ray K) : Dbl K :=
  Dbl.mulR rnd (Dbl.fin 2)
    (Tuple.dot_productR rnd r.direction (Tuple.subR rnd r.origin Tuple.zero_point))

/-- The local `c` of `Sphere::localIntersection` (sphere.cpp:42), in doubles. -/
def coeffC (rnd : K → Dbl K) (r : Ray K) : Dbl K :=
  Dbl.subR rnd
    (Tuple.dot_productR rnd (Tuple.subR rnd r.origin Tuple.zero_point)
      (Tuple.subR rnd r.origin Tuple.zero_point))
    (Dbl.fin 1)

/-- The local `discriminant` of `Sphere::localIntersection` (sphere.cpp:44), in doubles. -/
def discriminant (rnd : K → Dbl K) (r : Ray K) : Dbl K :=
  Dbl.subR rnd (Dbl.mulR rnd (coeffB rnd r) (coeffB rnd r))
    (Dbl.mulR rnd (Dbl.mulR rnd (Dbl.fin 4) (coeffA rnd r)) (coeffC rnd r))

/-- The function `Sphere::localIntersection` (sphere.cpp:36-52) in doubles: every arithmetic
operation is followed by the rounding `rnd`.  `self` is the pointer returned by
`shared_from_this()`; `sqrtK` is `sqrtd` on finite values. -/
def localIntersection (rnd : K → Dbl K) (sqrtK : K → K) (self : ShapePtr) (r : Ray K) :
    List (Intersection K) :=
  let sphere_to_ray := Tuple.subR rnd r.origin Tuple.zero_point
  let direction := r.direction
  let a := Tuple.dot_productR rnd direction direction
  let b := Dbl.mulR rnd (Dbl.fin 2) (Tuple.dot_productR rnd direction sphere_to_ray)
  let c := Dbl.subR rnd (Tuple.dot_productR rnd sphere_to_ray sphere_to_ray) (Dbl.fin 1)
  let discriminant := Dbl.subR rnd (Dbl.mulR rnd b b) (Dbl.mulR rnd (Dbl.mulR rnd (Dbl.fin 4) a) c)
  if Dbl.lt discriminant (Dbl.fin 0) then
    []
  else
    let t1 := Dbl.divR rnd (Dbl.subR rnd (Dbl.neg b) (Dbl.sqrtd sqrtK discriminant))
      (Dbl.mulR rnd (Dbl.fin 2) a)
    let t2 := Dbl.divR rnd (Dbl.addR rnd (Dbl.neg b) (Dbl.sqrtd sqrtK discriminant))
      (Dbl.mulR rnd (Dbl.fin 2) a)
    if Dbl.lt t1 t2 then [⟨t1, self⟩, ⟨t2, self⟩] else [⟨t2, self⟩, ⟨t1, self⟩]

end Sphere

namespace Cube

variable {K : Type} [LinearOrderedField K]

/-- The function `Cube::checkAxis` (cube.cpp:52-64) in doubles: every arithmetic operation is
followed by the rounding `rnd`.  `ALMOST_EQUALS` is the comparison of the absent
`constmath.h`, taken as a parameter. -/
def checkAxis (rnd : K → Dbl K) (ALMOST_EQUALS : Dbl K → Dbl K → Bool)
    (origin direction : Dbl K) : Dbl K × Dbl K :=
  if ALMOST_EQUALS direction (Dbl.fin 0) then
    (Dbl.mulR rnd (Dbl.subR rnd (Dbl.fin (-1)) origin) Dbl.infinity,
     Dbl.mulR rnd (Dbl.subR rnd (Dbl.fin 1) origin) Dbl.infinity)
  else
    let tmin := Dbl.divR rnd (Dbl.subR rnd (Dbl.fin (-1)) origin) direction
    let tmax := Dbl.divR rnd (Dbl.subR rnd (Dbl.fin 1) origin) direction
    if Dbl.gt tmin tmax then (tmax, tmin) else (tmin, tmax)

/-- The vector `mins` filled by the loop of `Cube::localIntersection` (cube.cpp:25-29),
for the axes 0, 1, 2 in this order, in doubles. -/
def mins (rnd : K → Dbl K) (ALMOST_EQUALS : Dbl K → Dbl K → Bool) (ray : Ray K) :
    List (Dbl K) :=
  [(checkAxis rnd ALMOST_EQUALS ray.origin.x ray.direction.x).1,
   (checkAxis rnd ALMOST_EQUALS ray.origin.y ray.direction.y).1,
   (checkAxis rnd ALMOST_EQUALS ray.origin.z ray.direction.z).1]

/-- The vector `maxs` filled by the loop of `Cube::localIntersection` (cube.cpp:25-29), in
doubles. -/
def maxs (rnd : K → Dbl K) (ALMOST_EQUALS : Dbl K → Dbl K → Bool) (ray : Ray K) :
    List (Dbl K) :=
  [(checkAxis rnd ALMOST_EQUALS ray.origin.x ray.direction.x).2,
   (checkAxis rnd ALMOST_EQUALS ray.origin.y ray.direction.y).2,
   (checkAxis rnd ALMOST_EQUALS ray.origin.z ray.direction.z).2]

/-- The function `Cube::localIntersection` (cube.cpp:20-40) in doubles.  `ptr` is the pointer
returned by `std::make_shared<const Cube>(*this)`. -/
def localIntersection (rnd : K → Dbl K) (ALMOST_EQUALS : Dbl K → Dbl K → Bool) (ptr : ShapePtr)
    (ray : Ray K) : List (Intersection K) :=
  match Dbl.maxElement (mins rnd ALMOST_EQUALS ray),
      Dbl.minElement (maxs rnd ALMOST_EQUALS ray) with
  | some tmin, some tmax =>
    if Dbl.le tmin tmax then
      [⟨tmin, ptr⟩, ⟨tmax, ptr⟩]
    else
      []
  | _, _ => []

end Cube

namespace Intersection

variable {K : Type} [LinearOrderedField K]

/-- The function `Intersection::prepare_hit` on an intersection (intersection.cpp:41-47) in
doubles: the position, the dot product and the product with `-1` or `1` are followed by the
rounding `rnd`.  `normalAt` is `Shape::normalAt` of the absent `shape.cpp`, taken as a
parameter. -/
def prepare_hit (rnd : K → Dbl K) (normalAt : ShapePtr → Tuple K → Tuple K)
    (hit : raytracer.Intersection K) (ray : Ray K) : Hit K :=
  let point := Ray.positionR rnd ray hit.t
  let eyev := Tuple.neg ray.direction
  let normalv := normalAt hit.object point
  let inside := Dbl.lt (Tuple.dot_productR rnd normalv eyev) (Dbl.fin 0)
  ⟨hit, point, eyev, Tuple.smulR rnd (if inside then Dbl.fin (-1) else Dbl.fin 1) normalv, inside⟩

end Intersection

end Rounded

/-! ## Order facts about doubles -/

namespace Dbl

variable {K : Type} [LinearOrderedField K]

theorem lt_le_trans {a b c : Dbl K} (h1 : Dbl.lt a b = true) (h2 : Dbl.le b c = true) :
    Dbl.le a c = true := by
  cases a <;> cases b <;> cases c <;> simp_all [Dbl.lt, Dbl.le]
  exact le_of_lt (lt_of_lt_of_le h1 h2)

theorem lt_irrefl_zero {a : Dbl K} (h : Dbl.lt (Dbl.fin 0) a = true) :
    Dbl.lt a (Dbl.fin 0) = false := by
  cases a <;> simp_all [Dbl.lt]
  exact le_of_lt h

theorem le_of_not_lt_pos {a b : Dbl K} (ha : Dbl.lt (Dbl.fin 0) a = true)
    (hb : Dbl.lt (Dbl.fin 0) b = true) (h : Dbl.lt a b = false) : Dbl.le b a = true := by
  cases a <;> cases b <;> simp_all [Dbl.lt, Dbl.le]

theorem le_refl_pos {a : Dbl K} (ha : Dbl.lt (Dbl.fin 0) a = true) : Dbl.le a a = true := by
  cases a <;> simp_all [Dbl.lt, Dbl.le]

theorem not_pos_of_neg {a : Dbl K} (h : Dbl.lt a (Dbl.fin 0) = true) :
    Dbl.gt a (Dbl.fin 0) = false := by
  cases a <;> simp_all [Dbl.lt, Dbl.gt]
  exact le_of_lt h

theorem not_pos_of_le_zero {a : Dbl K} (h : Dbl.le a (Dbl.fin 0) = true) :
    Dbl.gt a (Dbl.fin 0) = false := by
  cases a <;> simp_all [Dbl.lt, Dbl.le, Dbl.gt]

theorem not_eq_zero_of_pos {a : Dbl K} (h : Dbl.gt a (Dbl.fin 0) = true) :
    Dbl.eq a (Dbl.fin 0) = false := by
  cases a <;> simp_all [Dbl.lt, Dbl.eq, Dbl.gt]
  exact ne_of_gt h

theorem nonneg_of_pos {a : Dbl K} (h : Dbl.gt a (Dbl.fin 0) = true) :
    Dbl.le (Dbl.fin 0) a = true := by
  cases a <;> simp_all [Dbl.lt, Dbl.le, Dbl.gt]
  exact le_of_lt h

theorem le_refl_of_ne_nan {a : Dbl K} (ha : a ≠ Dbl.nan) : Dbl.le a a = true := by
  cases a <;> simp_all [Dbl.le]

theorem le_chain {a b c : Dbl K} (h1 : Dbl.le a b = true) (h2 : Dbl.le b c = true) :
    Dbl.le a c = true := by
  cases a <;> cases b <;> cases c <;> simp_all [Dbl.le]
  exact h1.trans h2

theorem le_of_lt_true {a b : Dbl K} (h : Dbl.lt a b = true) : Dbl.le a b = true := by
  cases a <;> cases b <;> simp_all [Dbl.lt, Dbl.le]
  exact h.le

theorem ne_nan_of_lt_left {a b : Dbl K} (h : Dbl.lt a b = true) : a ≠ Dbl.nan := by
  cases a <;> simp_all [Dbl.lt]

theorem ne_nan_of_lt_right {a b : Dbl K} (h : Dbl.lt a b = true) : b ≠ Dbl.nan := by
  cases a <;> cases b <;> simp_all [Dbl.lt]

theorem le_of_not_lt {a b : Dbl K} (ha : a ≠ Dbl.nan) (hb : b ≠ Dbl.nan)
    (h : Dbl.lt a b = false) : Dbl.le b a = true := by
  cases a <;> cases b <;> simp_all [Dbl.lt, Dbl.le]

theorem not_le_of_lt {a b : Dbl K} (h : Dbl.lt b a = true) : Dbl.le a b = false := by
  cases a <;> cases b <;> simp_all [Dbl.lt, Dbl.le]

theorem le_nan_right (a : Dbl K) : Dbl.le a Dbl.nan = false := by
  cases a <;> rfl

theorem le_nan_left (a : Dbl K) : Dbl.le Dbl.nan a = false := rfl

end Dbl

/-! ## Arithmetic on finite values -/

namespace Dbl

variable {K : Type} [LinearOrderedField K]

@[simp] theorem neg_fin (a : K) : Dbl.neg (Dbl.fin a) = Dbl.fin (-a) := rfl

@[simp] theorem add_fin (a b : K) : Dbl.add (Dbl.fin a) (Dbl.fin b) = Dbl.fin (a + b) := rfl

@[simp] theorem sub_fin (a b : K) : Dbl.sub (Dbl.fin a) (Dbl.fin b) = Dbl.fin (a - b) := by
  simp [Dbl.sub, sub_eq_add_neg]

@[simp] theorem mul_fin (a b : K) : Dbl.mul (Dbl.fin a) (Dbl.fin b) = Dbl.fin (a * b) := rfl

theorem div_fin (a : K) {b : K} (hb : b ≠ 0) :
    Dbl.div (Dbl.fin a) (Dbl.fin b) = Dbl.fin (a / b) := by
  simp [Dbl.div, hb]

@[simp] theorem lt_fin (a b : K) : Dbl.lt (Dbl.fin a) (Dbl.fin b) = decide (a < b) := rfl

@[simp] theorem le_fin (a b : K) : Dbl.le (Dbl.fin a) (Dbl.fin b) = decide (a ≤ b) := rfl

@[simp] theorem gt_fin (a b : K) : Dbl.gt (Dbl.fin a) (Dbl.fin b) = decide (b < a) := rfl

@[simp] theorem eq_fin (a b : K) : Dbl.eq (Dbl.fin a) (Dbl.fin b) = decide (a = b) := rfl

@[simp] theorem absd_fin (a : K) : Dbl.absd (Dbl.fin a) = Dbl.fin |a| := rfl

/-- Evaluation of the epsilon comparison on finite values. -/
theorem almostEquals_fin (e a b : K) :
    Dbl.almostEquals e (Dbl.fin a) (Dbl.fin b) = decide (|a - b| < e) := by
  simp [Dbl.almostEquals]

/-- On finite values `std::max` is the maximum. -/
theorem stdMax_fin (a b : K) : Dbl.stdMax (Dbl.fin a) (Dbl.fin b) = Dbl.fin (max a b) := by
  simp only [Dbl.stdMax, Dbl.lt_fin, decide_eq_true_eq]
  split_ifs with h
  · rw [max_eq_right (le_of_lt h)]
  · rw [max_eq_left (not_lt.1 h)]

end Dbl

/-! ## The scans of `std::min_element` and `std::max_element` -/

namespace Dbl

variable {K : Type} [LinearOrderedField K]

/-- The scan of `std::min_element` started at a non-NaN value ends at a non-NaN value that is
`<=` the start and `<=` every non-NaN element scanned. -/
theorem minElementFrom_le (xs : List (Dbl K)) :
    ∀ s : Dbl K, s ≠ Dbl.nan →
      Dbl.minElementFrom s xs ≠ Dbl.nan ∧ Dbl.le (Dbl.minElementFrom s xs) s = true ∧
        ∀ x ∈ xs, x ≠ Dbl.nan → Dbl.le (Dbl.minElementFrom s xs) x = true := by
  induction xs with
  | nil =>
    intro s hs
    exact ⟨hs, Dbl.le_refl_of_ne_nan hs, fun x hx => absurd hx (by simp)⟩
  | cons y ys ih =>
    intro s hs
    by_cases hlt : Dbl.lt y s = true
    · have hy := Dbl.ne_nan_of_lt_left hlt
      obtain ⟨h1, h2, h3⟩ := ih y hy
      simp only [Dbl.minElementFrom, hlt, if_true]
      refine ⟨h1, Dbl.le_chain h2 (Dbl.le_of_lt_true hlt), ?_⟩
      intro x hx hxn
      rcases List.mem_cons.1 hx with rfl | hx
      · exact h2
      · exact h3 x hx hxn
    · have hlt0 : Dbl.lt y s = false := by simpa using hlt
      obtain ⟨h1, h2, h3⟩ := ih s hs
      simp only [Dbl.minElementFrom, hlt0, Bool.false_eq_true, if_false]
      refine ⟨h1, h2, ?_⟩
      intro x hx hxn
      rcases List.mem_cons.1 hx with rfl | hx
      · exact Dbl.le_chain h2 (Dbl.le_of_not_lt hxn hs hlt0)
      · exact h3 x hx hxn

/-- The scan of `std::max_element` started at a non-NaN value ends at a non-NaN value that is
`>=` the start and `>=` every non-NaN element scanned. -/
theorem maxElementFrom_ge (xs : List (Dbl K)) :
    ∀ s : Dbl K, s ≠ Dbl.nan →
      Dbl.maxElementFrom s xs ≠ Dbl.nan ∧ Dbl.le s (Dbl.maxElementFrom s xs) = true ∧
        ∀ x ∈ xs, x ≠ Dbl.nan → Dbl.le x (Dbl.maxElementFrom s xs) = true := by
  induction xs with
  | nil =>
    intro s hs
    exact ⟨hs, Dbl.le_refl_of_ne_nan hs, fun x hx => absurd hx (by simp)⟩
  | cons y ys ih =>
    intro s hs
    by_cases hlt : Dbl.lt s y = true
    · have hy := Dbl.ne_nan_of_lt_right hlt
      obtain ⟨h1, h2, h3⟩ := ih y hy
      simp only [Dbl.maxElementFrom, hlt, if_true]
      refine ⟨h1, Dbl.le_chain (Dbl.le_of_lt_true hlt) h2, ?_⟩
      intro x hx hxn
      rcases List.mem_cons.1 hx with rfl | hx
      · exact h2
      · exact h3 x hx hxn
    · have hlt0 : Dbl.lt s y = false := by simpa using hlt
      obtain ⟨h1, h2, h3⟩ := ih s hs
      simp only [Dbl.maxElementFrom, hlt0, Bool.false_eq_true, if_false]
      refine ⟨h1, h2, ?_⟩
      intro x hx hxn
      rcases List.mem_cons.1 hx with rfl | hx
      · exact Dbl.le_chain (Dbl.le_of_not_lt hs hxn hlt0) h2
      · exact h3 x hx hxn

/-- A scan of `std::min_element` started at NaN stays at NaN. -/
theorem minElementFrom_nan (xs : List (Dbl K)) :
    Dbl.minElementFrom Dbl.nan xs = Dbl.nan := by
  induction xs with
  | nil => rfl
  | cons y ys ih =>
    have : Dbl.lt y Dbl.nan = false := by cases y <;> rfl
    simp [Dbl.minElementFrom, this, ih]

/-- A scan of `std::max_element` started at NaN stays at NaN. -/
theorem maxElementFrom_nan (xs : List (Dbl K)) :
    Dbl.maxElementFrom Dbl.nan xs = Dbl.nan := by
  induction xs with
  | nil => rfl
  | cons y ys ih =>
    have : Dbl.lt Dbl.nan y = false := rfl
    simp [Dbl.maxElementFrom, this, ih]

/-- If some scanned lower bound `a` lies strictly above some scanned upper bound `b`, the test
`tmin <= tmax` on the results of the two scans fails. -/
theorem scan_separated (s1 s2 : Dbl K) (xs1 xs2 : List (Dbl K)) (a b : Dbl K)
    (ha : a ∈ s1 :: xs1) (hb : b ∈ s2 :: xs2) (hab : Dbl.lt b a = true) :
    Dbl.le (Dbl.maxElementFrom s1 xs1) (Dbl.minElementFrom s2 xs2) = false := by
  have han := Dbl.ne_nan_of_lt_right hab
  have hbn := Dbl.ne_nan_of_lt_left hab
  by_cases h1 : s1 = Dbl.nan
  · rw [h1, Dbl.maxElementFrom_nan]
    rfl
  by_cases h2 : s2 = Dbl.nan
  · rw [h2, Dbl.minElementFrom_nan]
    exact Dbl.le_nan_right _
  obtain ⟨-, m2, m3⟩ := Dbl.maxElementFrom_ge xs1 s1 h1
  obtain ⟨-, n2, n3⟩ := Dbl.minElementFrom_le xs2 s2 h2
  have hale : Dbl.le a (Dbl.maxElementFrom s1 xs1) = true := by
    rcases List.mem_cons.1 ha with rfl | ha
    · exact m2
    · exact m3 a ha han
  have hble : Dbl.le (Dbl.minElementFrom s2 xs2) b = true := by
    rcases List.mem_cons.1 hb with rfl | hb
    · exact n2
    · exact n3 b hb hbn
  cases hle : Dbl.le (Dbl.maxElementFrom s1 xs1) (Dbl.minElementFrom s2 xs2) with
  | false => rfl
  | true =>
    have := Dbl.le_chain (Dbl.le_chain hale hle) hble
    rw [Dbl.not_le_of_lt hab] at this
    exact absurd this (by simp)

end Dbl

/-! ## `Intersection::hit` (C1, C2, C3) -/

namespace Intersection

variable {K : Type} [LinearOrderedField K]

theorem best_step (seen : List (Intersection K)) (curr : Option (Intersection K))
    (i : Intersection K) (h : Best seen curr) : Best (seen ++ [i]) (hitStep curr i) := by
  cases curr with
  | none =>
    by_cases hi : Dbl.lt (Dbl.fin 0) i.t = true
    · have hs : hitStep none i = some i := by simp [hitStep, Dbl.gt, hi]
      rw [hs]
      refine ⟨by simp, hi, ?_⟩
      intro j hj hjpos
      rcases List.mem_append.1 hj with hj | hj
      · have := h j hj
        rw [this] at hjpos
        exact absurd hjpos (by simp)
      · have : j = i := by simpa using hj
        subst this
        exact Dbl.le_refl_pos hi
    · have hi0 : Dbl.lt (Dbl.fin 0) i.t = false := by simpa using hi
      have hs : hitStep none i = none := by simp [hitStep, Dbl.gt, hi0]
      rw [hs]
      intro j hj
      rcases List.mem_append.1 hj with hj | hj
      · exact h j hj
      · have : j = i := by simpa using hj
        subst this
        exact hi0
  | some c =>
    obtain ⟨hc, hcpos, hmin⟩ := h
    by_cases hi : Dbl.lt (Dbl.fin 0) i.t = true
    · by_cases hlt : Dbl.lt i.t c.t = true
      · have hs : hitStep (some c) i = some i := by simp [hitStep, Dbl.gt, hi, hlt]
        rw [hs]
        refine ⟨by simp, hi, ?_⟩
        intro j hj hjpos
        rcases List.mem_append.1 hj with hj | hj
        · exact Dbl.lt_le_trans hlt (hmin j hj hjpos)
        · have : j = i := by simpa using hj
          subst this
          exact Dbl.le_refl_pos hi
      · have hlt0 : Dbl.lt i.t c.t = false := by simpa using hlt
        have hs : hitStep (some c) i = some c := by simp [hitStep, Dbl.gt, hi, hlt0]
        rw [hs]
        refine ⟨List.mem_append_left _ hc, hcpos, ?_⟩
        intro j hj hjpos
        rcases List.mem_append.1 hj with hj | hj
        · exact hmin j hj hjpos
        · have : j = i := by simpa using hj
          subst this
          exact Dbl.le_of_not_lt_pos hjpos hcpos hlt0
    · have hi0 : Dbl.lt (Dbl.fin 0) i.t = false := by simpa using hi
      have hs : hitStep (some c) i = some c := by simp [hitStep, Dbl.gt, hi0]
      rw [hs]
      refine ⟨List.mem_append_left _ hc, hcpos, ?_⟩
      intro j hj hjpos
      rcases List.mem_append.1 hj with hj | hj
      · exact hmin j hj hjpos
      · have : j = i := by simpa using hj
        subst this
        rw [hi0] at hjpos
        exact absurd hjpos (by simp)

theorem best_foldl (rest : List (Intersection K)) :
    ∀ (seen : List (Intersection K)) (curr : Option (Intersection K)),
      Best seen curr → Best (seen ++ rest) (rest.foldl hitStep curr) := by
  induction rest with
  | nil => intro seen curr h; simpa using h
  | cons i rest ih =>
    intro seen curr h
    have := ih (seen ++ [i]) (hitStep curr i) (best_step seen curr i h)
    simpa using this

theorem best_scan (ints : List (Intersection K)) : Best ints (ints.foldl hitStep none) := by
  have := best_foldl ints [] none (by intro j hj; simp at hj)
  simpa using this

/-- The value of `hit` in terms of the scan: the final test `curr->getT() < 0` never fires. -/
theorem hit_eq_scan (ints : List (Intersection K)) : hit ints = ints.foldl hitStep none := by
  unfold hit
  cases ints with
  | nil => simp
  | cons i rest =>
    have hb := best_scan (i :: rest)
    simp only [List.isEmpty_cons, Bool.false_eq_true, if_false]
    cases hscan : List.foldl hitStep none (i :: rest) with
    | none => rfl
    | some c =>
      rw [hscan] at hb
      simp [Dbl.lt_irrefl_zero hb.2.1]

theorem hit_best (ints : List (Intersection K)) : Best ints (hit ints) := by
  rw [hit_eq_scan]
  exact best_scan ints

theorem hit_of_exists_pos (ints : List (Intersection K))
    (h : ∃ i ∈ ints, Dbl.gt i.t (Dbl.fin 0) = true) :
    ∃ r, hit ints = some r ∧ r ∈ ints ∧ Dbl.gt r.t (Dbl.fin 0) = true ∧
      ∀ j ∈ ints, Dbl.gt j.t (Dbl.fin 0) = true → Dbl.le r.t j.t = true := by
  have hb := hit_best ints
  cases hh : hit ints with
  | none =>
    rw [hh] at hb
    obtain ⟨i, hi, hpos⟩ := h
    have := hb i hi
    simp only [Dbl.gt] at hpos
    rw [this] at hpos
    exact absurd hpos (by simp)
  | some r =>
    rw [hh] at hb
    exact ⟨r, rfl, hb.1, hb.2.1, hb.2.2⟩

theorem hit_eq_none_iff (ints : List (Intersection K)) :
    hit ints = none ↔ ∀ i ∈ ints, Dbl.gt i.t (Dbl.fin 0) = false := by
  constructor
  · intro hh
    have hb := hit_best ints
    rw [hh] at hb
    exact hb
  · intro hall
    cases hh : hit ints with
    | none => rfl
    | some r =>
      have hb := hit_best ints
      rw [hh] at hb
      have := hall r hb.1
      simp only [Dbl.gt] at this
      have hpos := hb.2.1
      rw [this] at hpos
      exact absurd hpos (by simp)

/-- C1: for every batch that contains an intersection with `t > 0`, `hit` returns an
intersection that is an element of the batch, has `t > 0`, and whose `t` is less than or equal
to the `t` of every batch element with `t > 0`. -/
theorem hit_returns_least_positive (ints : List (Intersection K))
    (h : ∃ i ∈ ints, Dbl.gt i.t (Dbl.fin 0) = true) :
    ∃ r, hit ints = some r ∧ r ∈ ints ∧ Dbl.gt r.t (Dbl.fin 0) = true ∧
      ∀ j ∈ ints, Dbl.gt j.t (Dbl.fin 0) = true → Dbl.le r.t j.t = true := by
  have hb := hit_best ints
  cases hh : hit ints with
  | none =>
    rw [hh] at hb
    obtain ⟨i, hi, hpos⟩ := h
    have hnot := hb i hi
    simp only [Dbl.gt] at hpos
    rw [hnot] at hpos
    exact absurd hpos (by simp)
  | some r =>
    rw [hh] at hb
    exact ⟨r, rfl, hb.1, hb.2.1, hb.2.2⟩

/-- Witness for C1: the batch with `t` = 5, 7, -3, 2 mixes negative and positive values; `hit`
returns the intersection with `t = 2`. -/
theorem hit_returns_least_positive_witness :
    hit ([⟨Dbl.fin 5, 1⟩, ⟨Dbl.fin 7, 2⟩, ⟨Dbl.fin (-3), 3⟩, ⟨Dbl.fin 2, 4⟩] :
        List (Intersection ℚ)) = some ⟨Dbl.fin 2, 4⟩ ∧
    ∃ r, hit ([⟨Dbl.fin 5, 1⟩, ⟨Dbl.fin 7, 2⟩, ⟨Dbl.fin (-3), 3⟩, ⟨Dbl.fin 2, 4⟩] :
        List (Intersection ℚ)) = some r ∧
      r ∈ ([⟨Dbl.fin 5, 1⟩, ⟨Dbl.fin 7, 2⟩, ⟨Dbl.fin (-3), 3⟩, ⟨Dbl.fin 2, 4⟩] :
        List (Intersection ℚ)) ∧
      Dbl.gt r.t (Dbl.fin 0) = true ∧
      ∀ j ∈ ([⟨Dbl.fin 5, 1⟩, ⟨Dbl.fin 7, 2⟩, ⟨Dbl.fin (-3), 3⟩, ⟨Dbl.fin 2, 4⟩] :
        List (Intersection ℚ)), Dbl.gt j.t (Dbl.fin 0) = true → Dbl.le r.t j.t = true :=
  ⟨by decide,
   hit_returns_least_positive _ ⟨⟨Dbl.fin 5, 1⟩, by simp, by decide⟩⟩

/-- C2: `hit` returns the empty optional if and only if the batch contains no intersection with
`t > 0`; in particular it is empty for the empty batch, for a batch whose `t` values are all
negative, and for a batch whose `t` values are all non-positive. -/
theorem hit_empty_iff_no_positive (ints : List (Intersection K)) :
    (hit ints = none ↔ ∀ i ∈ ints, Dbl.gt i.t (Dbl.fin 0) = false) ∧
    hit ([] : List (Intersection K)) = none ∧
    ((∀ i ∈ ints, Dbl.lt i.t (Dbl.fin 0) = true) → hit ints = none) ∧
    ((∀ i ∈ ints, Dbl.le i.t (Dbl.fin 0) = true) → hit ints = none) := by
  refine ⟨hit_eq_none_iff ints, rfl, ?_, ?_⟩
  · intro h
    exact (hit_eq_none_iff ints).2 (fun i hi => Dbl.not_pos_of_neg (h i hi))
  · intro h
    exact (hit_eq_none_iff ints).2 (fun i hi => Dbl.not_pos_of_le_zero (h i hi))

/-- Witness for C2: the batches with `t` = -2, -1 (all negative) and `t` = -1, 0 (all
non-positive) have no hit. -/
theorem hit_empty_iff_no_positive_witness :
    hit ([⟨Dbl.fin (-2), 1⟩, ⟨Dbl.fin (-1), 2⟩] : List (Intersection ℚ)) = none ∧
    hit ([⟨Dbl.fin (-1), 1⟩, ⟨Dbl.fin 0, 2⟩] : List (Intersection ℚ)) = none :=
  ⟨(hit_empty_iff_no_positive _).2.2.1 (by decide),
   (hit_empty_iff_no_positive _).2.2.2 (by decide)⟩

/-- C3, as stated, fails: the batch whose only intersection has `t = 0` contains a
non-negative `t`, yet `hit` returns nothing; and in the batch with `t` = 0, 3 the smallest
non-negative `t` is 0, yet `hit` returns the intersection with `t = 3`. -/
theorem hit_ignores_zero_counterexample :
    (∃ i ∈ ([⟨Dbl.fin 0, 1⟩] : List (Intersection ℚ)), Dbl.le (Dbl.fin 0) i.t = true) ∧
    hit ([⟨Dbl.fin 0, 1⟩] : List (Intersection ℚ)) = none ∧
    hit ([⟨Dbl.fin 0, 1⟩, ⟨Dbl.fin 3, 2⟩] : List (Intersection ℚ)) = some ⟨Dbl.fin 3, 2⟩ ∧
    ¬ ((∃ i ∈ ([⟨Dbl.fin 0, 1⟩] : List (Intersection ℚ)), Dbl.le (Dbl.fin 0) i.t = true) →
        ∃ r, hit ([⟨Dbl.fin 0, 1⟩] : List (Intersection ℚ)) = some r ∧
          Dbl.le (Dbl.fin 0) r.t = true ∧
          ∀ j ∈ ([⟨Dbl.fin 0, 1⟩] : List (Intersection ℚ)),
            Dbl.le (Dbl.fin 0) j.t = true → Dbl.le r.t j.t = true) := by
  refine ⟨⟨⟨Dbl.fin 0, 1⟩, by simp, by decide⟩, by decide, by decide, ?_⟩
  intro h
  obtain ⟨r, hr, -⟩ := h ⟨⟨Dbl.fin 0, 1⟩, by simp, by decide⟩
  have hnone : hit ([⟨Dbl.fin 0, 1⟩] : List (Intersection ℚ)) = none := by decide
  rw [hnone] at hr
  exact absurd hr (by simp)

/-- C3 (amended): for every batch that contains an intersection with `t > 0`, `hit` returns an
intersection whose `t` occurs in the batch, is strictly positive, and is the smallest strictly
positive `t` of the batch; an intersection with `t = 0` is never returned, and a batch whose
non-negative `t` values are all exactly 0 yields the empty optional. -/
theorem hit_smallest_strictly_positive (ints : List (Intersection K)) :
    ((∃ i ∈ ints, Dbl.gt i.t (Dbl.fin 0) = true) →
      ∃ r, hit ints = some r ∧ (∃ i ∈ ints, i.t = r.t) ∧ Dbl.gt r.t (Dbl.fin 0) = true ∧
        Dbl.le (Dbl.fin 0) r.t = true ∧
        ∀ j ∈ ints, Dbl.gt j.t (Dbl.fin 0) = true → Dbl.le r.t j.t = true) ∧
    (∀ r, hit ints = some r → Dbl.eq r.t (Dbl.fin 0) = false) ∧
    ((∀ i ∈ ints, Dbl.le (Dbl.fin 0) i.t = true → Dbl.eq i.t (Dbl.fin 0) = true) →
      hit ints = none) := by
  refine ⟨?_, ?_, ?_⟩
  · intro h
    obtain ⟨r, hr, hmem, hpos, hmin⟩ := hit_of_exists_pos ints h
    exact ⟨r, hr, ⟨r, hmem, rfl⟩, hpos, Dbl.nonneg_of_pos hpos, hmin⟩
  · intro r hr
    have hb := hit_best ints
    rw [hr] at hb
    exact Dbl.not_eq_zero_of_pos hb.2.1
  · intro h
    refine (hit_eq_none_iff ints).2 (fun i hi => ?_)
    cases hg : Dbl.gt i.t (Dbl.fin 0) with
    | false => rfl
    | true =>
      have h0 := h i hi (Dbl.nonneg_of_pos hg)
      rw [Dbl.not_eq_zero_of_pos hg] at h0
      exact absurd h0 (by simp)

/-- Witness for the amended C3: in the batch with `t` = 0, 3, -1, 2 the hit is the
intersection with `t = 2`; the batch with `t` = 0, -1 has no hit. -/
theorem hit_smallest_strictly_positive_witness :
    (∃ r, hit ([⟨Dbl.fin 0, 1⟩, ⟨Dbl.fin 3, 2⟩, ⟨Dbl.fin (-1), 3⟩, ⟨Dbl.fin 2, 4⟩] :
        List (Intersection ℚ)) = some r ∧
      (∃ i ∈ ([⟨Dbl.fin 0, 1⟩, ⟨Dbl.fin 3, 2⟩, ⟨Dbl.fin (-1), 3⟩, ⟨Dbl.fin 2, 4⟩] :
        List (Intersection ℚ)), i.t = r.t) ∧
      Dbl.gt r.t (Dbl.fin 0) = true ∧ Dbl.le (Dbl.fin 0) r.t = true ∧
      ∀ j ∈ ([⟨Dbl.fin 0, 1⟩, ⟨Dbl.fin 3, 2⟩, ⟨Dbl.fin (-1), 3⟩, ⟨Dbl.fin 2, 4⟩] :
        List (Intersection ℚ)), Dbl.gt j.t (Dbl.fin 0) = true → Dbl.le r.t j.t = true) ∧
    hit ([⟨Dbl.fin 0, 1⟩, ⟨Dbl.fin (-1), 2⟩] : List (Intersection ℚ)) = none :=
  ⟨(hit_smallest_strictly_positive _).1 ⟨⟨Dbl.fin 3, 2⟩, by simp, by decide⟩,
   (hit_smallest_strictly_positive _).2.2 (by decide)⟩

end Intersection

/-! ## The formulas of `Sphere::localIntersection` in exact arithmetic -/

namespace Sphere

variable {K : Type} [LinearOrderedField K]

/-- The discriminant of a finite ray, in coordinates. -/
theorem discriminant_fin (ox oy oz dx dy dz a b c : K)
    (ha : a = dx * dx + dy * dy + dz * dz) (hb : b = 2 * (dx * ox + dy * oy + dz * oz))
    (hc : c = ox * ox + oy * oy + oz * oz - 1) :
    discriminant
      ⟨Tuple.make_point (Dbl.fin ox) (Dbl.fin oy) (Dbl.fin oz),
       Tuple.make_vector (Dbl.fin dx) (Dbl.fin dy) (Dbl.fin dz)⟩ =
      Dbl.fin (b * b - 4 * a * c) := by
  subst ha hb hc
  simp [discriminant, Tuple.sub, Tuple.zero_point, Tuple.make_point, Tuple.make_vector,
    Tuple.dot_product]

end Sphere

/-! ## `Cube::localIntersection`, `Cube::checkAxis`, `Cube::localNormalAt` (C7 - C10) -/

namespace Cube

variable {K : Type} [LinearOrderedField K]

/-- In the dividing branch, `checkAxis` returns the two quotients in ascending order. -/
theorem checkAxis_dividing (A : Dbl K → Dbl K → Bool) (o d : K)
    (hA : A (Dbl.fin d) (Dbl.fin 0) = false) (hd : d ≠ 0) :
    checkAxis A (Dbl.fin o) (Dbl.fin d) =
      (Dbl.fin (min ((-1 - o) / d) ((1 - o) / d)), Dbl.fin (max ((-1 - o) / d) ((1 - o) / d))) := by
  simp only [checkAxis, hA, Bool.false_eq_true, if_false, Dbl.sub_fin, Dbl.div_fin _ hd,
    Dbl.gt_fin, decide_eq_true_eq]
  split_ifs with h
  · rw [min_eq_right (le_of_lt h), max_eq_left (le_of_lt h)]
  · rw [min_eq_left (not_lt.1 h), max_eq_right (not_lt.1 h)]

/-- On one axis, `-1 ≤ o + t*d ≤ 1` holds exactly between the two quotients. -/
theorem axis_slab (o d t : K) (hd : d ≠ 0) :
    (-1 ≤ o + t * d ∧ o + t * d ≤ 1) ↔
      (min ((-1 - o) / d) ((1 - o) / d) ≤ t ∧ t ≤ max ((-1 - o) / d) ((1 - o) / d)) := by
  rcases lt_or_gt_of_ne hd with hneg | hpos
  · have h12 : (1 - o) / d ≤ (-1 - o) / d := by
      rw [div_le_div_right_of_neg hneg]; linarith
    rw [min_eq_right h12, max_eq_left h12, div_le_iff_of_neg hneg, le_div_iff_of_neg hneg]
    constructor <;> rintro ⟨h1, h2⟩ <;> constructor <;> linarith
  · have h12 : (-1 - o) / d ≤ (1 - o) / d := by
      rw [div_le_div_iff_of_pos_right hpos]; linarith
    rw [min_eq_left h12, max_eq_right h12, div_le_iff₀ hpos, le_div_iff₀ hpos]
    constructor <;> rintro ⟨h1, h2⟩ <;> constructor <;> linarith

/-- What `localIntersection` does for every ray: it returns the two intersections `tmin`, `tmax`
when the comparison `tmin <= tmax` is true and nothing when it is false. -/
theorem localIntersection_cases (A : Dbl K → Dbl K → Bool) (ptr : ShapePtr) (ray : Ray K) :
    ∃ tmin tmax, Dbl.maxElement (mins A ray) = some tmin ∧
      Dbl.minElement (maxs A ray) = some tmax ∧
      ((Dbl.le tmin tmax = true ∧ localIntersection A ptr ray = [⟨tmin, ptr⟩, ⟨tmax, ptr⟩]) ∨
        (Dbl.le tmin tmax = false ∧ localIntersection A ptr ray = [])) := by
  refine ⟨_, _, rfl, rfl, ?_⟩
  cases h : Dbl.le
      (Dbl.maxElementFrom (checkAxis A ray.origin.x ray.direction.x).1
        [(checkAxis A ray.origin.y ray.direction.y).1,
         (checkAxis A ray.origin.z ray.direction.z).1])
      (Dbl.minElementFrom (checkAxis A ray.origin.x ray.direction.x).2
        [(checkAxis A ray.origin.y ray.direction.y).2,
         (checkAxis A ray.origin.z ray.direction.z).2])
  · right
    simp [localIntersection, mins, maxs, Dbl.maxElement, Dbl.minElement, h]
  · left
    simp [localIntersection, mins, maxs, Dbl.maxElement, Dbl.minElement, h]

/-- Without a NaN bound: when neither `tmin` nor `tmax` is NaN, `localIntersection` returns nothing
if `tmin > tmax` and the two intersections `tmin`, `tmax`, with `tmin <= tmax`, otherwise. -/
theorem localIntersection_without_nan (A : Dbl K → Dbl K → Bool) (ptr : ShapePtr) (ray : Ray K)
    (tmin tmax : Dbl K) (h1 : Dbl.maxElement (mins A ray) = some tmin)
    (h2 : Dbl.minElement (maxs A ray) = some tmax) (hn1 : tmin ≠ Dbl.nan)
    (hn2 : tmax ≠ Dbl.nan) :
    (Dbl.gt tmin tmax = true → localIntersection A ptr ray = []) ∧
    (Dbl.gt tmin tmax = false →
      localIntersection A ptr ray = [⟨tmin, ptr⟩, ⟨tmax, ptr⟩] ∧ Dbl.le tmin tmax = true) := by
  constructor
  · intro hgt
    have hle : Dbl.le tmin tmax = false := Dbl.not_le_of_lt hgt
    simp [localIntersection, h1, h2, hle]
  · intro hgt
    have hle : Dbl.le tmin tmax = true := Dbl.le_of_not_lt hn2 hn1 hgt
    simp [localIntersection, h1, h2, hle]

/-- The parallel branch of `checkAxis` at a finite origin coordinate. -/
theorem checkAxis_parallel (A : Dbl K → Dbl K → Bool) (o : K) (d : Dbl K)
    (hA : A d (Dbl.fin 0) = true) :
    checkAxis A (Dbl.fin o) d = (Dbl.signedInf (-1 - o), Dbl.signedInf (1 - o)) := by
  simp [checkAxis, hA, Dbl.infinity, Dbl.mul]

/-- The values of the parallel branch of `checkAxis`: `(-∞, +∞)` strictly inside the slab,
`(-∞, -∞)` above it, `(+∞, +∞)` below it, and a NaN bound on either face. -/
theorem checkAxis_parallel_values (A : Dbl K → Dbl K → Bool) (o : K) (d : Dbl K)
    (hA : A d (Dbl.fin 0) = true) :
    (-1 < o → o < 1 → checkAxis A (Dbl.fin o) d = (Dbl.ninf, Dbl.pinf)) ∧
    (1 < o → checkAxis A (Dbl.fin o) d = (Dbl.ninf, Dbl.ninf)) ∧
    (o < -1 → checkAxis A (Dbl.fin o) d = (Dbl.pinf, Dbl.pinf)) ∧
    (o = 1 → checkAxis A (Dbl.fin o) d = (Dbl.ninf, Dbl.nan)) ∧
    (o = -1 → checkAxis A (Dbl.fin o) d = (Dbl.nan, Dbl.pinf)) := by
  rw [checkAxis_parallel A o d hA]
  refine ⟨?_, ?_, ?_, ?_, ?_⟩
  · intro h1 h2
    have e1 : ¬ (-1 - o = 0) := by intro h; linarith
    have e2 : ¬ (0 < -1 - o) := by intro h; linarith
    have e3 : ¬ (1 - o = 0) := by intro h; linarith
    have e4 : 0 < 1 - o := by linarith
    simp [Dbl.signedInf, e1, e2, e3, e4]
  · intro h1
    have e1 : ¬ (-1 - o = 0) := by intro h; linarith
    have e2 : ¬ (0 < -1 - o) := by intro h; linarith
    have e3 : ¬ (1 - o = 0) := by intro h; linarith
    have e4 : ¬ (0 < 1 - o) := by intro h; linarith
    simp [Dbl.signedInf, e1, e2, e3, e4]
  · intro h1
    have e1 : ¬ (-1 - o = 0) := by intro h; linarith
    have e2 : 0 < -1 - o := by linarith
    have e3 : ¬ (1 - o = 0) := by intro h; linarith
    have e4 : 0 < 1 - o := by linarith
    simp [Dbl.signedInf, e1, e2, e3, e4]
  · rintro rfl
    norm_num [Dbl.signedInf]
  · rintro rfl
    norm_num [Dbl.signedInf]

/-- C7 at a failing input: for the ray from `(1, 0, -5)` with direction `(0, 0, 1)`, which runs
in the plane of the face `x = 1`, the upper bound of the x axis is `0 * ∞ = NaN`; `tmin` is 4,
`tmax` is NaN, the comparison `tmin > tmax` is false, and yet the result is empty.  The same
ray in the plane of the face `y = 1` yields the intersections at 4 and 6. -/
theorem localIntersection_nan_bound :
    mins (Dbl.almostEquals (1 / 10000 : ℚ))
      ⟨Tuple.make_point (Dbl.fin 1) (Dbl.fin 0) (Dbl.fin (-5)),
       Tuple.make_vector (Dbl.fin 0) (Dbl.fin 0) (Dbl.fin 1)⟩ =
      [Dbl.ninf, Dbl.ninf, Dbl.fin 4] ∧
    maxs (Dbl.almostEquals (1 / 10000 : ℚ))
      ⟨Tuple.make_point (Dbl.fin 1) (Dbl.fin 0) (Dbl.fin (-5)),
       Tuple.make_vector (Dbl.fin 0) (Dbl.fin 0) (Dbl.fin 1)⟩ =
      [Dbl.nan, Dbl.pinf, Dbl.fin 6] ∧
    Dbl.maxElement ([Dbl.ninf, Dbl.ninf, Dbl.fin 4] : List (Dbl ℚ)) = some (Dbl.fin 4) ∧
    Dbl.minElement ([Dbl.nan, Dbl.pinf, Dbl.fin 6] : List (Dbl ℚ)) = some Dbl.nan ∧
    Dbl.gt (Dbl.fin 4 : Dbl ℚ) Dbl.nan = false ∧
    localIntersection (Dbl.almostEquals (1 / 10000 : ℚ)) 7
      ⟨Tuple.make_point (Dbl.fin 1) (Dbl.fin 0) (Dbl.fin (-5)),
       Tuple.make_vector (Dbl.fin 0) (Dbl.fin 0) (Dbl.fin 1)⟩ = [] ∧
    localIntersection (Dbl.almostEquals (1 / 10000 : ℚ)) 7
      ⟨Tuple.make_point (Dbl.fin 0) (Dbl.fin 1) (Dbl.fin (-5)),
       Tuple.make_vector (Dbl.fin 0) (Dbl.fin 0) (Dbl.fin 1)⟩ =
      [⟨Dbl.fin 4, 7⟩, ⟨Dbl.fin 6, 7⟩] := by
  have a0 : Dbl.almostEquals (1 / 10000 : ℚ) (Dbl.fin 0) (Dbl.fin 0) = true := by
    norm_num [Dbl.almostEquals_fin]
  have a1 : Dbl.almostEquals (1 / 10000 : ℚ) (Dbl.fin 1) (Dbl.fin 0) = false := by
    norm_num [Dbl.almostEquals_fin]
  have c1 : checkAxis (Dbl.almostEquals (1 / 10000 : ℚ)) (Dbl.fin 1) (Dbl.fin 0) =
      (Dbl.ninf, Dbl.nan) := (checkAxis_parallel_values _ 1 _ a0).2.2.2.1 rfl
  have c0 : checkAxis (Dbl.almostEquals (1 / 10000 : ℚ)) (Dbl.fin 0) (Dbl.fin 0) =
      (Dbl.ninf, Dbl.pinf) :=
    (checkAxis_parallel_values _ 0 _ a0).1 (by norm_num) (by norm_num)
  have c5 : checkAxis (Dbl.almostEquals (1 / 10000 : ℚ)) (Dbl.fin (-5)) (Dbl.fin 1) =
      (Dbl.fin 4, Dbl.fin 6) := by
    rw [checkAxis_dividing _ _ _ a1 (by norm_num)]
    norm_num
  refine ⟨?_, ?_, by decide, by decide, by decide, ?_, ?_⟩
  · simp only [mins, Tuple.make_point, Tuple.make_vector, c0, c1, c5]
  · simp only [maxs, Tuple.make_point, Tuple.make_vector, c0, c1, c5]
  · simp only [localIntersection, mins, maxs, Tuple.make_point, Tuple.make_vector, c0, c1, c5]
    decide
  · simp only [localIntersection, mins, maxs, Tuple.make_point, Tuple.make_vector, c0, c1, c5]
    decide

theorem mins_mem (A : Dbl K → Dbl K → Bool) (ray : Ray K) (j : Fin 3) :
    (checkAxis A (ray.origin.axis j) (ray.direction.axis j)).1 ∈
      (checkAxis A ray.origin.x ray.direction.x).1 ::
        [(checkAxis A ray.origin.y ray.direction.y).1,
         (checkAxis A ray.origin.z ray.direction.z).1] := by
  fin_cases j <;> simp [Tuple.axis]

theorem maxs_mem (A : Dbl K → Dbl K → Bool) (ray : Ray K) (j : Fin 3) :
    (checkAxis A (ray.origin.axis j) (ray.direction.axis j)).2 ∈
      (checkAxis A ray.origin.x ray.direction.x).2 ::
        [(checkAxis A ray.origin.y ray.direction.y).2,
         (checkAxis A ray.origin.z ray.direction.z).2] := by
  fin_cases j <;> simp [Tuple.axis]

/-- A separating pair of axes: a ray that is parallel on an axis `i` with a finite origin coordinate
outside `[-1,1]` there, and that divides on some axis `k` with finite origin and non-zero
finite direction, has no intersections with the cube, whatever the third axis holds. -/
theorem localIntersection_parallel_outside (A : Dbl K → Dbl K → Bool) (ptr : ShapePtr)
    (ray : Ray K) (i k : Fin 3) (o o2 d2 : K)
    (hoi : ray.origin.axis i = Dbl.fin o)
    (hpar : A (ray.direction.axis i) (Dbl.fin 0) = true) (hout : o < -1 ∨ 1 < o)
    (hok : ray.origin.axis k = Dbl.fin o2) (hdk : ray.direction.axis k = Dbl.fin d2)
    (hdiv : A (Dbl.fin d2) (Dbl.fin 0) = false) (hd2 : d2 ≠ 0) :
    localIntersection A ptr ray = [] := by
  have hmi := mins_mem A ray i
  have hxi := maxs_mem A ray i
  have hmk := mins_mem A ray k
  have hxk := maxs_mem A ray k
  rw [hoi] at hmi hxi
  rw [hok, hdk, checkAxis_dividing A o2 d2 hdiv hd2] at hmk hxk
  have hsep : Dbl.le
      (Dbl.maxElementFrom (checkAxis A ray.origin.x ray.direction.x).1
        [(checkAxis A ray.origin.y ray.direction.y).1,
         (checkAxis A ray.origin.z ray.direction.z).1])
      (Dbl.minElementFrom (checkAxis A ray.origin.x ray.direction.x).2
        [(checkAxis A ray.origin.y ray.direction.y).2,
         (checkAxis A ray.origin.z ray.direction.z).2]) = false := by
    rcases hout with hlow | hhigh
    · rw [(checkAxis_parallel_values A o _ hpar).2.2.1 hlow] at hmi
      exact Dbl.scan_separated _ _ _ _ _ _ hmi hxk rfl
    · rw [(checkAxis_parallel_values A o _ hpar).2.1 hhigh] at hxi
      exact Dbl.scan_separated _ _ _ _ _ _ hmk hxi rfl
  simp [localIntersection, mins, maxs, Dbl.maxElement, Dbl.minElement, hsep]

/-- C8 at a failing input: for origin `(2, 0, 0)` and direction `(0, 0, 0)` every axis is
parallel and the origin lies outside `[-1,1]` on the x axis, yet `localIntersection` returns
two intersections, both at `t = -∞`; from `(-2, 0, 0)` it returns two at `t = +∞`, which `hit`
then selects.  The spec's ray from `(2, 0, 2)` with direction `(0, 0, -1)` yields nothing. -/
theorem localIntersection_all_parallel :
    localIntersection (Dbl.almostEquals (1 / 10000 : ℚ)) 7
      ⟨Tuple.make_point (Dbl.fin 2) (Dbl.fin 0) (Dbl.fin 0),
       Tuple.make_vector (Dbl.fin 0) (Dbl.fin 0) (Dbl.fin 0)⟩ =
      [⟨Dbl.ninf, 7⟩, ⟨Dbl.ninf, 7⟩] ∧
    localIntersection (Dbl.almostEquals (1 / 10000 : ℚ)) 7
      ⟨Tuple.make_point (Dbl.fin (-2)) (Dbl.fin 0) (Dbl.fin 0),
       Tuple.make_vector (Dbl.fin 0) (Dbl.fin 0) (Dbl.fin 0)⟩ =
      [⟨Dbl.pinf, 7⟩, ⟨Dbl.pinf, 7⟩] ∧
    Intersection.hit (localIntersection (Dbl.almostEquals (1 / 10000 : ℚ)) 7
      ⟨Tuple.make_point (Dbl.fin (-2)) (Dbl.fin 0) (Dbl.fin 0),
       Tuple.make_vector (Dbl.fin 0) (Dbl.fin 0) (Dbl.fin 0)⟩) = some ⟨Dbl.pinf, 7⟩ ∧
    localIntersection (Dbl.almostEquals (1 / 10000 : ℚ)) 7
      ⟨Tuple.make_point (Dbl.fin 2) (Dbl.fin 0) (Dbl.fin 2),
       Tuple.make_vector (Dbl.fin 0) (Dbl.fin 0) (Dbl.fin (-1))⟩ = [] := by
  have a0 : Dbl.almostEquals (1 / 10000 : ℚ) (Dbl.fin 0) (Dbl.fin 0) = true := by
    norm_num [Dbl.almostEquals_fin]
  have a1 : Dbl.almostEquals (1 / 10000 : ℚ) (Dbl.fin (-1)) (Dbl.fin 0) = false := by
    norm_num [Dbl.almostEquals_fin]
  have c2 : checkAxis (Dbl.almostEquals (1 / 10000 : ℚ)) (Dbl.fin 2) (Dbl.fin 0) =
      (Dbl.ninf, Dbl.ninf) := (checkAxis_parallel_values _ 2 _ a0).2.1 (by norm_num)
  have cm : checkAxis (Dbl.almostEquals (1 / 10000 : ℚ)) (Dbl.fin (-2)) (Dbl.fin 0) =
      (Dbl.pinf, Dbl.pinf) := (checkAxis_parallel_values _ (-2) _ a0).2.2.1 (by norm_num)
  have c0 : checkAxis (Dbl.almostEquals (1 / 10000 : ℚ)) (Dbl.fin 0) (Dbl.fin 0) =
      (Dbl.ninf, Dbl.pinf) :=
    (checkAxis_parallel_values _ 0 _ a0).1 (by norm_num) (by norm_num)
  have cz : checkAxis (Dbl.almostEquals (1 / 10000 : ℚ)) (Dbl.fin 2) (Dbl.fin (-1)) =
      (Dbl.fin 1, Dbl.fin 3) := by
    rw [checkAxis_dividing _ _ _ a1 (by norm_num)]
    norm_num
  have r1 : localIntersection (Dbl.almostEquals (1 / 10000 : ℚ)) 7
      ⟨Tuple.make_point (Dbl.fin (-2)) (Dbl.fin 0) (Dbl.fin 0),
       Tuple.make_vector (Dbl.fin 0) (Dbl.fin 0) (Dbl.fin 0)⟩ =
      [⟨Dbl.pinf, 7⟩, ⟨Dbl.pinf, 7⟩] := by
    simp only [localIntersection, mins, maxs, Tuple.make_point, Tuple.make_vector, c0, cm]
    decide
  refine ⟨?_, r1, ?_, ?_⟩
  · simp only [localIntersection, mins, maxs, Tuple.make_point, Tuple.make_vector, c0, c2]
    decide
  · rw [r1]
    decide
  · simp only [localIntersection, mins, maxs, Tuple.make_point, Tuple.make_vector, c0, c2, cz]
    decide

/-- C9 at a failing input: with the origin coordinate on a face, `o = 1` or `o = -1`, and a
direction almost-equal to zero, one of the two products of `checkAxis` is `0 * ∞`, which is
NaN; the pair is `(-∞, NaN)` resp. `(NaN, +∞)` although `o` lies inside `[-1,1]`. -/
theorem checkAxis_on_face :
    Dbl.almostEquals (1 / 10000 : ℚ) (Dbl.fin 0) (Dbl.fin 0) = true ∧
    Dbl.mul (Dbl.sub (Dbl.fin 1) (Dbl.fin 1)) (Dbl.infinity : Dbl ℚ) = Dbl.nan ∧
    checkAxis (Dbl.almostEquals (1 / 10000 : ℚ)) (Dbl.fin 1) (Dbl.fin 0) =
      (Dbl.ninf, Dbl.nan) ∧
    checkAxis (Dbl.almostEquals (1 / 10000 : ℚ)) (Dbl.fin (-1)) (Dbl.fin 0) =
      (Dbl.nan, Dbl.pinf) := by
  have a0 : Dbl.almostEquals (1 / 10000 : ℚ) (Dbl.fin 0) (Dbl.fin 0) = true := by
    norm_num [Dbl.almostEquals_fin]
  refine ⟨a0, ?_, ?_, ?_⟩
  · norm_num [Dbl.infinity, Dbl.mul, Dbl.signedInf]
  · exact (checkAxis_parallel_values _ 1 _ a0).2.2.2.1 rfl
  · exact (checkAxis_parallel_values _ (-1) _ a0).2.2.2.2 rfl

/-- The three branches of `localNormalAt` at a finite point. -/
theorem localNormalAt_fin (x y z : K) :
    localNormalAt (Tuple.make_point (Dbl.fin x) (Dbl.fin y) (Dbl.fin z)) =
      if max |x| (max |y| |z|) = |x| then
        Tuple.make_vector (Dbl.fin x) (Dbl.fin 0) (Dbl.fin 0)
      else if max |x| (max |y| |z|) = |y| then
        Tuple.make_vector (Dbl.fin 0) (Dbl.fin y) (Dbl.fin 0)
      else
        Tuple.make_vector (Dbl.fin 0) (Dbl.fin 0) (Dbl.fin z) := by
  simp only [localNormalAt, Tuple.make_point, Dbl.absd_fin, Dbl.stdMax_fin, Dbl.eq_fin,
    decide_eq_true_eq]

/-- C10: for every object-space point `p`, `Cube::localNormalAt` returns a vector that is zero
on all axes except one axis `k`, where `k` is the first axis in the order x, y, z whose
`|p[k]|` equals `max(|p.x|, |p.y|, |p.z|)`, and whose `k`-component is `p[k]` itself, so that
it has the sign of `p[k]`. -/
theorem localNormalAt_first_max_axis (x y z : K) :
    ∃ k : Fin 3,
      |![x, y, z] k| = max |x| (max |y| |z|) ∧
      (∀ j : Fin 3, j < k → |![x, y, z] j| ≠ max |x| (max |y| |z|)) ∧
      (∀ j : Fin 3, j ≠ k →
        (localNormalAt (Tuple.make_point (Dbl.fin x) (Dbl.fin y) (Dbl.fin z))).axis j =
          Dbl.fin 0) ∧
      (localNormalAt (Tuple.make_point (Dbl.fin x) (Dbl.fin y) (Dbl.fin z))).w = Dbl.fin 0 ∧
      (localNormalAt (Tuple.make_point (Dbl.fin x) (Dbl.fin y) (Dbl.fin z))).axis k =
        Dbl.fin (![x, y, z] k) ∧
      ∃ v : K,
        (localNormalAt (Tuple.make_point (Dbl.fin x) (Dbl.fin y) (Dbl.fin z))).axis k =
          Dbl.fin v ∧
        SignType.sign v = SignType.sign (![x, y, z] k) := by
  rw [localNormalAt_fin]
  by_cases hx : max |x| (max |y| |z|) = |x|
  · rw [if_pos hx]
    refine ⟨0, hx.symm, ?_, ?_, rfl, rfl, x, rfl, rfl⟩
    · intro j hj
      exact absurd hj (by simp)
    · intro j hj
      fin_cases j
      · exact absurd rfl hj
      · rfl
      · rfl
  · by_cases hy : max |x| (max |y| |z|) = |y|
    · rw [if_neg hx, if_pos hy]
      refine ⟨1, hy.symm, ?_, ?_, rfl, rfl, y, rfl, rfl⟩
      · intro j hj
        fin_cases j
        · exact fun h => hx h.symm
        · exact absurd hj (by simp)
        · exact absurd hj (by decide)
      · intro j hj
        fin_cases j
        · rfl
        · exact absurd rfl hj
        · rfl
    · have hz : |z| = max |x| (max |y| |z|) := by
        rcases max_choice |x| (max |y| |z|) with h | h
        · exact absurd h hx
        · rcases max_choice |y| |z| with h2 | h2
          · exact absurd (h.trans h2) hy
          · exact (h.trans h2).symm
      rw [if_neg hx, if_neg hy]
      refine ⟨2, hz, ?_, ?_, rfl, rfl, z, rfl, rfl⟩
      · intro j hj
        fin_cases j
        · exact fun h => hx h.symm
        · exact fun h => hy h.symm
        · exact absurd hj (by simp)
      · intro j hj
        fin_cases j
        · rfl
        · rfl
        · exact absurd rfl hj

/-- Witness for C10: at the corner `(-1, -1, -1)` all three axes tie and the x axis wins; the
normal is `(-1, 0, 0)`.  At `(2/5, 2/5, -1)` the z axis is chosen. -/
theorem localNormalAt_first_max_axis_witness :
    (∃ k : Fin 3,
      |![(-1 : ℚ), -1, -1] k| = max |(-1 : ℚ)| (max |(-1 : ℚ)| |(-1 : ℚ)|) ∧
      (∀ j : Fin 3, j < k →
        |![(-1 : ℚ), -1, -1] j| ≠ max |(-1 : ℚ)| (max |(-1 : ℚ)| |(-1 : ℚ)|)) ∧
      (∀ j : Fin 3, j ≠ k →
        (localNormalAt (Tuple.make_point (Dbl.fin (-1 : ℚ)) (Dbl.fin (-1))
          (Dbl.fin (-1)))).axis j = Dbl.fin 0) ∧
      (localNormalAt (Tuple.make_point (Dbl.fin (-1 : ℚ)) (Dbl.fin (-1))
        (Dbl.fin (-1)))).w = Dbl.fin 0 ∧
      (localNormalAt (Tuple.make_point (Dbl.fin (-1 : ℚ)) (Dbl.fin (-1))
        (Dbl.fin (-1)))).axis k = Dbl.fin (![(-1 : ℚ), -1, -1] k) ∧
      ∃ v : ℚ,
        (localNormalAt (Tuple.make_point (Dbl.fin (-1 : ℚ)) (Dbl.fin (-1))
          (Dbl.fin (-1)))).axis k = Dbl.fin v ∧
        SignType.sign v = SignType.sign (![(-1 : ℚ), -1, -1] k)) ∧
    localNormalAt (Tuple.make_point (Dbl.fin (-1 : ℚ)) (Dbl.fin (-1)) (Dbl.fin (-1))) =
      Tuple.make_vector (Dbl.fin (-1)) (Dbl.fin 0) (Dbl.fin 0) ∧
    localNormalAt (Tuple.make_point (Dbl.fin (2 / 5 : ℚ)) (Dbl.fin (2 / 5)) (Dbl.fin (-1))) =
      Tuple.make_vector (Dbl.fin 0) (Dbl.fin 0) (Dbl.fin (-1)) := by
  refine ⟨localNormalAt_first_max_axis (-1) (-1) (-1), ?_, ?_⟩
  · rw [localNormalAt_fin]
    norm_num
  · rw [localNormalAt_fin]
    norm_num [abs_of_pos]

end Cube

/-! ## Surface normals (C11, C20) -/

namespace Sphere

variable {K : Type} [LinearOrderedField K]

/-- The squared length of the sphere's local normal at a finite point. -/
theorem sphere_normal_sq_length (x y z : K) :
    Tuple.dot_product
        (localNormalAt (Tuple.make_point (Dbl.fin x) (Dbl.fin y) (Dbl.fin z)))
        (localNormalAt (Tuple.make_point (Dbl.fin x) (Dbl.fin y) (Dbl.fin z))) =
      Dbl.fin (x * x + y * y + z * z) := by
  simp [localNormalAt, Tuple.sub, Tuple.zero_point, Tuple.make_point, Tuple.dot_product]

end Sphere

namespace Cube

variable {K : Type} [LinearOrderedField K]

/-- The squared length of the cube's local normal at a finite point: the square of the largest
absolute coordinate. -/
theorem cube_normal_sq_length (x y z : K) :
    Tuple.dot_product
        (localNormalAt (Tuple.make_point (Dbl.fin x) (Dbl.fin y) (Dbl.fin z)))
        (localNormalAt (Tuple.make_point (Dbl.fin x) (Dbl.fin y) (Dbl.fin z))) =
      Dbl.fin (max |x| (max |y| |z|) * max |x| (max |y| |z|)) := by
  rw [localNormalAt_fin]
  by_cases hx : max |x| (max |y| |z|) = |x|
  · rw [if_pos hx, hx]
    simp [Tuple.make_vector, Tuple.dot_product]
  · by_cases hy : max |x| (max |y| |z|) = |y|
    · rw [if_neg hx, if_pos hy, hy]
      simp [Tuple.make_vector, Tuple.dot_product]
    · have hz : max |x| (max |y| |z|) = |z| := by
        rcases max_choice |x| (max |y| |z|) with h | h
        · exact absurd h hx
        · rcases max_choice |y| |z| with h2 | h2
          · exact absurd (h.trans h2) hy
          · exact h.trans h2
      rw [if_neg hx, if_neg hy, hz]
      simp [Tuple.make_vector, Tuple.dot_product]

/-- C11, as stated, fails: at the object-space point `(2, 0, 0)` both `Sphere::localNormalAt`
and `Cube::localNormalAt` return the vector `(2, 0, 0)`, whose squared length is 4, not 1. -/
theorem localNormalAt_not_unit_counterexample :
    Sphere.localNormalAt (Tuple.make_point (Dbl.fin (2 : ℚ)) (Dbl.fin 0) (Dbl.fin 0)) =
      Tuple.make_vector (Dbl.fin 2) (Dbl.fin 0) (Dbl.fin 0) ∧
    Cube.localNormalAt (Tuple.make_point (Dbl.fin (2 : ℚ)) (Dbl.fin 0) (Dbl.fin 0)) =
      Tuple.make_vector (Dbl.fin 2) (Dbl.fin 0) (Dbl.fin 0) ∧
    Tuple.dot_product (Tuple.make_vector (Dbl.fin (2 : ℚ)) (Dbl.fin 0) (Dbl.fin 0))
      (Tuple.make_vector (Dbl.fin 2) (Dbl.fin 0) (Dbl.fin 0)) = Dbl.fin 4 ∧
    Dbl.eq (Tuple.dot_product
      (Sphere.localNormalAt (Tuple.make_point (Dbl.fin (2 : ℚ)) (Dbl.fin 0) (Dbl.fin 0)))
      (Sphere.localNormalAt (Tuple.make_point (Dbl.fin (2 : ℚ)) (Dbl.fin 0) (Dbl.fin 0))))
      (Dbl.fin 1) = false ∧
    Dbl.eq (Tuple.dot_product
      (Cube.localNormalAt (Tuple.make_point (Dbl.fin (2 : ℚ)) (Dbl.fin 0) (Dbl.fin 0)))
      (Cube.localNormalAt (Tuple.make_point (Dbl.fin (2 : ℚ)) (Dbl.fin 0) (Dbl.fin 0))))
      (Dbl.fin 1) = false := by
  refine ⟨?_, ?_, ?_, ?_, ?_⟩
  · simp [Sphere.localNormalAt, Tuple.sub, Tuple.zero_point, Tuple.make_point,
      Tuple.make_vector]
  · rw [localNormalAt_fin]
    norm_num
  · norm_num [Tuple.make_vector, Tuple.dot_product]
  · rw [Sphere.sphere_normal_sq_length]
    norm_num
  · rw [cube_normal_sq_length]
    norm_num

/-- C11 (amended): for every object-space point `p` on the surface of the shape, that is with
`p.x² + p.y² + p.z² = 1` for the sphere and with `max(|p.x|, |p.y|, |p.z|) = 1` for the cube,
`localNormalAt(p)` returns a vector whose squared length is exactly 1; for every point the
squared length is `p.x² + p.y² + p.z²` for the sphere and `max(|p.x|, |p.y|, |p.z|)²` for the
cube: neither function normalises its result. -/
theorem localNormalAt_unit_on_surface (x y z : K) :
    (x * x + y * y + z * z = 1 →
      Tuple.dot_product
          (Sphere.localNormalAt (Tuple.make_point (Dbl.fin x) (Dbl.fin y) (Dbl.fin z)))
          (Sphere.localNormalAt (Tuple.make_point (Dbl.fin x) (Dbl.fin y) (Dbl.fin z))) =
        Dbl.fin 1) ∧
    (max |x| (max |y| |z|) = 1 →
      Tuple.dot_product
          (Cube.localNormalAt (Tuple.make_point (Dbl.fin x) (Dbl.fin y) (Dbl.fin z)))
          (Cube.localNormalAt (Tuple.make_point (Dbl.fin x) (Dbl.fin y) (Dbl.fin z))) =
        Dbl.fin 1) ∧
    Tuple.dot_product
        (Sphere.localNormalAt (Tuple.make_point (Dbl.fin x) (Dbl.fin y) (Dbl.fin z)))
        (Sphere.localNormalAt (Tuple.make_point (Dbl.fin x) (Dbl.fin y) (Dbl.fin z))) =
      Dbl.fin (x * x + y * y + z * z) ∧
    Tuple.dot_product
        (Cube.localNormalAt (Tuple.make_point (Dbl.fin x) (Dbl.fin y) (Dbl.fin z)))
        (Cube.localNormalAt (Tuple.make_point (Dbl.fin x) (Dbl.fin y) (Dbl.fin z))) =
      Dbl.fin (max |x| (max |y| |z|) * max |x| (max |y| |z|)) := by
  refine ⟨?_, ?_, Sphere.sphere_normal_sq_length x y z, cube_normal_sq_length x y z⟩
  · intro h
    rw [Sphere.sphere_normal_sq_length, h]
  · intro h
    rw [cube_normal_sq_length, h, mul_one]

/-- Witness for the amended C11: the point `(3/5, 4/5, 0)` lies on the unit sphere and the point
`(1, 1/2, -4/5)` on the surface of the cube; both normals have squared length 1. -/
theorem localNormalAt_unit_on_surface_witness :
    Tuple.dot_product
        (Sphere.localNormalAt
          (Tuple.make_point (Dbl.fin (3 / 5 : ℚ)) (Dbl.fin (4 / 5)) (Dbl.fin 0)))
        (Sphere.localNormalAt
          (Tuple.make_point (Dbl.fin (3 / 5 : ℚ)) (Dbl.fin (4 / 5)) (Dbl.fin 0))) =
      Dbl.fin 1 ∧
    Tuple.dot_product
        (Cube.localNormalAt
          (Tuple.make_point (Dbl.fin (1 : ℚ)) (Dbl.fin (1 / 2)) (Dbl.fin (-4 / 5))))
        (Cube.localNormalAt
          (Tuple.make_point (Dbl.fin (1 : ℚ)) (Dbl.fin (1 / 2)) (Dbl.fin (-4 / 5)))) =
      Dbl.fin 1 :=
  ⟨(localNormalAt_unit_on_surface (3 / 5 : ℚ) (4 / 5) 0).1 (by norm_num),
   (localNormalAt_unit_on_surface (1 : ℚ) (1 / 2) (-4 / 5)).2.1
     (by norm_num [abs_of_pos, abs_of_neg, max_def])⟩

end Cube

namespace Cube

variable {K : Type} [LinearOrderedField K]

/-- The cube's local normal at a finite point has the point's own coordinate on an axis of
largest absolute coordinate and 0 elsewhere. -/
theorem localNormalAt_axis (x y z : K) :
    ∃ k : Fin 3,
      |![x, y, z] k| = max |x| (max |y| |z|) ∧
      (localNormalAt (Tuple.make_point (Dbl.fin x) (Dbl.fin y) (Dbl.fin z))).axis k =
        Dbl.fin (![x, y, z] k) ∧
      (∀ j : Fin 3, j ≠ k →
        (localNormalAt (Tuple.make_point (Dbl.fin x) (Dbl.fin y) (Dbl.fin z))).axis j =
          Dbl.fin 0) ∧
      (localNormalAt (Tuple.make_point (Dbl.fin x) (Dbl.fin y) (Dbl.fin z))).w = Dbl.fin 0 := by
  rw [localNormalAt_fin]
  by_cases hx : max |x| (max |y| |z|) = |x|
  · rw [if_pos hx]
    refine ⟨0, hx.symm, rfl, ?_, rfl⟩
    intro j hj
    fin_cases j
    · exact absurd rfl hj
    · rfl
    · rfl
  · by_cases hy : max |x| (max |y| |z|) = |y|
    · rw [if_neg hx, if_pos hy]
      refine ⟨1, hy.symm, rfl, ?_, rfl⟩
      intro j hj
      fin_cases j
      · rfl
      · exact absurd rfl hj
      · rfl
    · have hz : |z| = max |x| (max |y| |z|) := by
        rcases max_choice |x| (max |y| |z|) with h | h
        · exact absurd h hx
        · rcases max_choice |y| |z| with h2 | h2
          · exact absurd (h.trans h2) hy
          · exact (h.trans h2).symm
      rw [if_neg hx, if_neg hy]
      refine ⟨2, hz, rfl, ?_, rfl⟩
      intro j hj
      fin_cases j
      · rfl
      · rfl
      · exact absurd rfl hj

/-- C20: for every object-space point `p` with `max(|p.x|, |p.y|, |p.z|)` exactly 1,
`Cube::localNormalAt(p)` returns a vector with exactly one non-zero component, and that
component is +1 or -1; for every point, on the surface or off it, the component on the chosen
axis is the point's own coordinate there, not rescaled, and all other components are 0. -/
theorem localNormalAt_signed_axis_unit (x y z : K) :
    ∃ k : Fin 3,
      (localNormalAt (Tuple.make_point (Dbl.fin x) (Dbl.fin y) (Dbl.fin z))).axis k =
        Dbl.fin (![x, y, z] k) ∧
      (∀ j : Fin 3, j ≠ k →
        (localNormalAt (Tuple.make_point (Dbl.fin x) (Dbl.fin y) (Dbl.fin z))).axis j =
          Dbl.fin 0) ∧
      (localNormalAt (Tuple.make_point (Dbl.fin x) (Dbl.fin y) (Dbl.fin z))).w = Dbl.fin 0 ∧
      |![x, y, z] k| = max |x| (max |y| |z|) ∧
      (max |x| (max |y| |z|) = 1 →
        ((localNormalAt (Tuple.make_point (Dbl.fin x) (Dbl.fin y) (Dbl.fin z))).axis k =
            Dbl.fin 1 ∨
          (localNormalAt (Tuple.make_point (Dbl.fin x) (Dbl.fin y) (Dbl.fin z))).axis k =
            Dbl.fin (-1)) ∧
        (localNormalAt (Tuple.make_point (Dbl.fin x) (Dbl.fin y) (Dbl.fin z))).axis k ≠
          Dbl.fin 0) := by
  obtain ⟨k, hk, hax, hrest, hw⟩ := localNormalAt_axis x y z
  refine ⟨k, hax, hrest, hw, hk, ?_⟩
  intro hone
  rw [hone] at hk
  rw [hax]
  rcases (abs_eq (zero_le_one' K)).1 hk with h | h
  · rw [h]
    exact ⟨Or.inl rfl, by simp⟩
  · rw [h]
    exact ⟨Or.inr rfl, by simp⟩

/-- Witness for C20: the point `(-1, 1/2, 1/3)` lies on the face `x = -1`; the normal is
`(-1, 0, 0)`.  At the point `(3, 1, 2)`, off the surface, the normal is `(3, 0, 0)`. -/
theorem localNormalAt_signed_axis_unit_witness :
    (∃ k : Fin 3,
      (localNormalAt (Tuple.make_point (Dbl.fin (-1 : ℚ)) (Dbl.fin (1 / 2))
        (Dbl.fin (1 / 3)))).axis k = Dbl.fin (![(-1 : ℚ), 1 / 2, 1 / 3] k) ∧
      (∀ j : Fin 3, j ≠ k →
        (localNormalAt (Tuple.make_point (Dbl.fin (-1 : ℚ)) (Dbl.fin (1 / 2))
          (Dbl.fin (1 / 3)))).axis j = Dbl.fin 0) ∧
      (localNormalAt (Tuple.make_point (Dbl.fin (-1 : ℚ)) (Dbl.fin (1 / 2))
        (Dbl.fin (1 / 3)))).w = Dbl.fin 0 ∧
      |![(-1 : ℚ), 1 / 2, 1 / 3] k| = max |(-1 : ℚ)| (max |(1 / 2 : ℚ)| |(1 / 3 : ℚ)|) ∧
      (max |(-1 : ℚ)| (max |(1 / 2 : ℚ)| |(1 / 3 : ℚ)|) = 1 →
        ((localNormalAt (Tuple.make_point (Dbl.fin (-1 : ℚ)) (Dbl.fin (1 / 2))
            (Dbl.fin (1 / 3)))).axis k = Dbl.fin 1 ∨
          (localNormalAt (Tuple.make_point (Dbl.fin (-1 : ℚ)) (Dbl.fin (1 / 2))
            (Dbl.fin (1 / 3)))).axis k = Dbl.fin (-1)) ∧
        (localNormalAt (Tuple.make_point (Dbl.fin (-1 : ℚ)) (Dbl.fin (1 / 2))
          (Dbl.fin (1 / 3)))).axis k ≠ Dbl.fin 0)) ∧
    max |(-1 : ℚ)| (max |(1 / 2 : ℚ)| |(1 / 3 : ℚ)|) = 1 ∧
    localNormalAt (Tuple.make_point (Dbl.fin (-1 : ℚ)) (Dbl.fin (1 / 2)) (Dbl.fin (1 / 3))) =
      Tuple.make_vector (Dbl.fin (-1)) (Dbl.fin 0) (Dbl.fin 0) ∧
    localNormalAt (Tuple.make_point (Dbl.fin (3 : ℚ)) (Dbl.fin 1) (Dbl.fin 2)) =
      Tuple.make_vector (Dbl.fin 3) (Dbl.fin 0) (Dbl.fin 0) := by
  have hmax : max |(-1 : ℚ)| (max |(1 / 2 : ℚ)| |(1 / 3 : ℚ)|) = 1 := by
    norm_num [abs_of_pos, max_def]
  refine ⟨localNormalAt_signed_axis_unit (-1 : ℚ) (1 / 2) (1 / 3), hmax, ?_, ?_⟩
  · rw [localNormalAt_fin, if_pos (by rw [hmax]; norm_num)]
  · rw [localNormalAt_fin]
    norm_num [max_def]

end Cube

/-! ## `Intersection::prepare_hit` (C12, C14) and order independence of `hit` (C15) -/

namespace Dbl

variable {K : Type} [LinearOrderedField K]

/-- Multiplying a double by 1 leaves it unchanged. -/
theorem mul_one_left (a : Dbl K) : Dbl.mul (Dbl.fin 1) a = a := by
  cases a <;> simp [Dbl.mul, Dbl.signedInf]

/-- Multiplying a double by -1 negates it. -/
theorem mul_neg_one_left (a : Dbl K) : Dbl.mul (Dbl.fin (-1)) a = Dbl.neg a := by
  cases a <;> simp [Dbl.mul, Dbl.signedInf, Dbl.neg]

end Dbl

namespace Tuple

variable {K : Type} [LinearOrderedField K]

end Tuple

namespace Intersection

variable {K : Type} [LinearOrderedField K]

end Intersection

namespace Intersection

variable {K : Type} [LinearOrderedField K]

end Intersection

namespace Dbl

variable {K : Type} [LinearOrderedField K]

/-- Two doubles that are `<=` each other are the same value. -/
theorem eq_of_le_of_ge {a b : Dbl K} (h1 : Dbl.le a b = true) (h2 : Dbl.le b a = true) :
    a = b := by
  cases a <;> cases b <;> simp_all [Dbl.le]
  exact le_antisymm h1 h2

end Dbl

namespace Intersection

variable {K : Type} [LinearOrderedField K]

/-- C14: the optional overload of `prepare_hit` returns the empty optional when given the empty
optional, and for a present intersection `i` returns the present Hit `prepare_hit(i, ray)` of
the other overload; composed with `hit`, `prepare_hit(hit(batch), ray)` is empty exactly when
the batch has no intersection with `t > 0`. -/
theorem prepare_hit_optional_propagates (normalAt : ShapePtr → Tuple K → Tuple K)
    (ray : Ray K) (batch : List (Intersection K)) :
    prepare_hit_optional normalAt none ray = none ∧
    (∀ i : Intersection K,
      prepare_hit_optional normalAt (some i) ray = some (prepare_hit normalAt i ray)) ∧
    (prepare_hit_optional normalAt (hit batch) ray = none ↔
      ∀ i ∈ batch, Dbl.gt i.t (Dbl.fin 0) = false) := by
  refine ⟨rfl, fun _ => rfl, ?_⟩
  rw [← hit_eq_none_iff]
  cases hit batch with
  | none => simp [prepare_hit_optional]
  | some c => simp [prepare_hit_optional]

/-- Witness for C14: for the batch with `t` = -2, -1 the composition is empty; for the batch
with `t` = 5, 2 it is the Hit prepared from the intersection with `t = 2`. -/
theorem prepare_hit_optional_propagates_witness :
    prepare_hit_optional (fun _ p => Sphere.localNormalAt p)
      (hit ([⟨Dbl.fin (-2), 1⟩, ⟨Dbl.fin (-1), 2⟩] : List (Intersection ℚ)))
      ⟨Tuple.make_point (Dbl.fin 0) (Dbl.fin 0) (Dbl.fin (-5)),
       Tuple.make_vector (Dbl.fin 0) (Dbl.fin 0) (Dbl.fin 1)⟩ = none ∧
    prepare_hit_optional (fun _ p => Sphere.localNormalAt p)
      (hit ([⟨Dbl.fin 5, 1⟩, ⟨Dbl.fin 2, 2⟩] : List (Intersection ℚ)))
      ⟨Tuple.make_point (Dbl.fin 0) (Dbl.fin 0) (Dbl.fin (-5)),
       Tuple.make_vector (Dbl.fin 0) (Dbl.fin 0) (Dbl.fin 1)⟩ =
    some (prepare_hit (fun _ p => Sphere.localNormalAt p) ⟨Dbl.fin 2, 2⟩
      ⟨Tuple.make_point (Dbl.fin 0) (Dbl.fin 0) (Dbl.fin (-5)),
       Tuple.make_vector (Dbl.fin 0) (Dbl.fin 0) (Dbl.fin 1)⟩) := by
  refine ⟨(prepare_hit_optional_propagates _ _ _).2.2.2 (by decide), ?_⟩
  have h : hit ([⟨Dbl.fin 5, 1⟩, ⟨Dbl.fin 2, 2⟩] : List (Intersection ℚ)) =
      some ⟨Dbl.fin 2, 2⟩ := by decide
  rw [h]
  exact (prepare_hit_optional_propagates _ _ []).2.1 _

/-- C15: `hit` is order-independent in its `t` value: for every batch and every permutation of
it, `hit` is empty on both or present on both, and when present the two returned intersections
have the same `t`. -/
theorem hit_perm_same_t (l1 l2 : List (Intersection K)) (hperm : l1.Perm l2) :
    (hit l1 = none ↔ hit l2 = none) ∧
    (∀ r1 r2, hit l1 = some r1 → hit l2 = some r2 → r1.t = r2.t) ∧
    (hit l1).map (fun i => i.t) = (hit l2).map (fun i => i.t) := by
  have hnone : hit l1 = none ↔ hit l2 = none := by
    rw [hit_eq_none_iff, hit_eq_none_iff]
    constructor
    · intro h i hi
      exact h i (hperm.mem_iff.2 hi)
    · intro h i hi
      exact h i (hperm.mem_iff.1 hi)
  have hsame : ∀ r1 r2, hit l1 = some r1 → hit l2 = some r2 → r1.t = r2.t := by
    intro r1 r2 h1 h2
    have b1 := hit_best l1
    have b2 := hit_best l2
    rw [h1] at b1
    rw [h2] at b2
    obtain ⟨m1, p1, min1⟩ := b1
    obtain ⟨m2, p2, min2⟩ := b2
    exact Dbl.eq_of_le_of_ge (min1 r2 (hperm.mem_iff.2 m2) p2) (min2 r1 (hperm.mem_iff.1 m1) p1)
  refine ⟨hnone, hsame, ?_⟩
  cases h1 : hit l1 with
  | none =>
    rw [hnone.1 h1]
  | some r1 =>
    cases h2 : hit l2 with
    | none =>
      rw [hnone.2 h2] at h1
      exact absurd h1 (by simp)
    | some r2 =>
      simp [hsame r1 r2 h1 h2]

/-- Witness for C15: the batch with `t` = 5, 7, -3, 2 and the same batch reversed both have the
hit `t = 2`. -/
theorem hit_perm_same_t_witness :
    (hit ([⟨Dbl.fin 5, 1⟩, ⟨Dbl.fin 7, 2⟩, ⟨Dbl.fin (-3), 3⟩, ⟨Dbl.fin 2, 4⟩] :
        List (Intersection ℚ))).map (fun i => i.t) =
      (hit ([⟨Dbl.fin 2, 4⟩, ⟨Dbl.fin (-3), 3⟩, ⟨Dbl.fin 7, 2⟩, ⟨Dbl.fin 5, 1⟩] :
        List (Intersection ℚ))).map (fun i => i.t) ∧
    (hit ([⟨Dbl.fin 2, 4⟩, ⟨Dbl.fin (-3), 3⟩, ⟨Dbl.fin 7, 2⟩, ⟨Dbl.fin 5, 1⟩] :
        List (Intersection ℚ))).map (fun i => i.t) = some (Dbl.fin 2) :=
  ⟨(hit_perm_same_t _ _
      (List.reverse_perm
        ([⟨Dbl.fin 2, 4⟩, ⟨Dbl.fin (-3), 3⟩, ⟨Dbl.fin 7, 2⟩, ⟨Dbl.fin 5, 1⟩] :
          List (Intersection ℚ)))).2.2,
   by decide⟩

end Intersection

/-! ## `transformers::equals` on arrays (C18) -/

namespace transformers

/-- The fold over the first `k` indices is true exactly when the arrays agree there. -/
theorem ReducerAux_equals_iff {N : Nat} (a b : Fin N → Int) :
    ∀ (k : Nat) (h : k ≤ N),
      ReducerAux (fun d1 d2 => equalsIntegral d1 d2) (fun b1 b2 => b1 && b2) true a b k h =
          true ↔
        ∀ i : Fin N, i.val < k → a i = b i := by
  intro k
  induction k with
  | zero =>
    intro h
    simp [ReducerAux]
  | succ k ih =>
    intro h
    have hstep : ReducerAux (fun d1 d2 => equalsIntegral d1 d2) (fun b1 b2 => b1 && b2) true
        a b (k + 1) h =
        (equalsIntegral (a ⟨k, h⟩) (b ⟨k, h⟩) &&
          ReducerAux (fun d1 d2 => equalsIntegral d1 d2) (fun b1 b2 => b1 && b2) true a b k
            (Nat.le_of_succ_le h)) := rfl
    rw [hstep, Bool.and_eq_true, ih (Nat.le_of_succ_le h)]
    simp only [equalsIntegral, decide_eq_true_eq]
    constructor
    · rintro ⟨hk, hrest⟩ i hi
      rcases Nat.lt_succ_iff_lt_or_eq.1 hi with hlt | heq
      · exact hrest i hlt
      · have : i = ⟨k, h⟩ := Fin.ext heq
        rw [this]
        exact hk
    · intro hall
      exact ⟨hall ⟨k, h⟩ (Nat.lt_succ_self k), fun i hi => hall i (Nat.lt_succ_of_lt hi)⟩

/-- C18: for every pair of equal-length arrays of an integral element type,
`transformers::equals` returns true if and only if the two arrays hold equal elements at every
index; it is `Reducer::result` folding the per-index equality with logical AND from the default
value true, so for length 0 it returns true. -/
theorem equals_iff_elementwise {N : Nat} (t1 t2 : Fin N → Int) :
    (equals t1 t2 = true ↔ ∀ i : Fin N, t1 i = t2 i) ∧
    equals t1 t2 =
      Reducer.result (fun d1 d2 => decide (d1 = d2)) (fun b1 b2 => b1 && b2) true t1 t2 ∧
    ∀ u1 u2 : Fin 0 → Int, equals u1 u2 = true := by
  refine ⟨?_, rfl, fun u1 u2 => rfl⟩
  unfold equals Reducer.result
  rw [ReducerAux_equals_iff t1 t2 N (Nat.le_refl N)]
  constructor
  · intro h i
    exact h i i.isLt
  · intro h i _
    exact h i

/-- Witness for C18: the arrays `{1, 2, 3}` and `{1, 2, 3}` are equal, the arrays `{1, 2, 3}`
and `{1, 2, 4}` are not. -/
theorem equals_iff_elementwise_witness :
    equals (![1, 2, 3] : Fin 3 → Int) ![1, 2, 3] = true ∧
    equals (![1, 2, 3] : Fin 3 → Int) ![1, 2, 4] = false ∧
    (equals (![1, 2, 3] : Fin 3 → Int) ![1, 2, 3] = true ↔
      ∀ i : Fin 3, (![1, 2, 3] : Fin 3 → Int) i = (![1, 2, 3] : Fin 3 → Int) i) :=
  ⟨by decide, by decide, (equals_iff_elementwise _ _).1⟩

end transformers

/-! ## The recursion of `World::colourAt` (C16) -/

namespace World

variable {K : Type} [LinearOrderedField K]

/-- The guard of `reflectedColour`: black, without a recursive call, when `remaining <= 0`. -/
theorem reflectedColour_exhausted (w : World K) (h : Hit K) (remaining : Int)
    (hrem : remaining ≤ 0) :
    reflectedColour w h remaining = Colour.black ∧
      reflectedColourTraced w h remaining = (Colour.black, 0) := by
  constructor
  · rw [reflectedColour, dif_pos hrem]
  · rw [reflectedColourTraced, dif_pos hrem]

/-- The guard of `refractedColour`: black, without a recursive call, when `remaining <= 0`. -/
theorem refractedColour_exhausted (w : World K) (h : Hit K) (remaining : Int)
    (hrem : remaining ≤ 0) :
    refractedColour w h remaining = Colour.black ∧
      refractedColourTraced w h remaining = (Colour.black, 0) := by
  constructor
  · rw [refractedColour, dif_pos hrem]
  · rw [refractedColourTraced, dif_pos hrem]

/-- The recursive call of `reflectedColour` passes `remaining - 1`. -/
theorem reflectedColour_recurses (w : World K) (h : Hit K) (remaining : Int)
    (hrem : 0 < remaining)
    (hrefl : w.ALMOST_EQUALS (w.reflectivity h.intersection.object) (Dbl.fin 0) = false) :
    reflectedColour w h remaining =
      Colour.scale (w.reflectivity h.intersection.object)
        (colourAt w (w.reflectedRay h) (remaining - 1)) := by
  rw [reflectedColour, dif_neg (not_le.2 hrem), hrefl]
  rfl

/-- The recursive call of `refractedColour` passes `remaining - 1`. -/
theorem refractedColour_recurses (w : World K) (h : Hit K) (remaining : Int) (ray : Ray K)
    (hrem : 0 < remaining)
    (htr : w.ALMOST_EQUALS (w.transparency h.intersection.object) (Dbl.fin 0) = false)
    (hray : w.refractedRay h = some ray) :
    refractedColour w h remaining =
      Colour.scale (w.transparency h.intersection.object) (colourAt w ray (remaining - 1)) := by
  rw [refractedColour, dif_neg (not_le.2 hrem), htr, hray]
  rfl

/-- One level of the recursion: if the instrumented `colourAt` agrees with `colourAt` and has
depth at most `remaining - 1` at the budget `remaining - 1`, then the four instrumented
functions agree with the four functions and have depth at most `remaining` at the budget
`remaining`. -/
theorem traced_level (w : World K) (remaining : Int)
    (hrec : 0 < remaining → ∀ ray : Ray K,
      (colourAtTraced w ray (remaining - 1)).1 = colourAt w ray (remaining - 1) ∧
        (colourAtTraced w ray (remaining - 1)).2 ≤ (remaining - 1).toNat) :
    (∀ h : Hit K, (reflectedColourTraced w h remaining).1 = reflectedColour w h remaining ∧
      (reflectedColourTraced w h remaining).2 ≤ remaining.toNat) ∧
    (∀ h : Hit K, (refractedColourTraced w h remaining).1 = refractedColour w h remaining ∧
      (refractedColourTraced w h remaining).2 ≤ remaining.toNat) ∧
    (∀ hit : Option (Hit K), (shadeHitTraced w hit remaining).1 = shadeHit w hit remaining ∧
      (shadeHitTraced w hit remaining).2 ≤ remaining.toNat) ∧
    (∀ ray : Ray K, (colourAtTraced w ray remaining).1 = colourAt w ray remaining ∧
      (colourAtTraced w ray remaining).2 ≤ remaining.toNat) := by
  have hrefl : ∀ h : Hit K,
      (reflectedColourTraced w h remaining).1 = reflectedColour w h remaining ∧
        (reflectedColourTraced w h remaining).2 ≤ remaining.toNat := by
    intro h
    by_cases hrem : remaining ≤ 0
    · rw [(reflectedColour_exhausted w h remaining hrem).1,
        (reflectedColour_exhausted w h remaining hrem).2]
      exact ⟨rfl, Nat.zero_le _⟩
    · rw [reflectedColour, reflectedColourTraced, dif_neg hrem, dif_neg hrem]
      by_cases ha : w.ALMOST_EQUALS (w.reflectivity h.intersection.object) (Dbl.fin 0) = true
      · rw [if_pos ha, if_pos ha]
        exact ⟨rfl, Nat.zero_le _⟩
      · rw [if_neg ha, if_neg ha]
        obtain ⟨h1, h2⟩ := hrec (not_le.1 hrem) (w.reflectedRay h)
        refine ⟨by rw [h1], ?_⟩
        show (colourAtTraced w (w.reflectedRay h) (remaining - 1)).2 + 1 ≤ remaining.toNat
        omega
  have hrefr : ∀ h : Hit K,
      (refractedColourTraced w h remaining).1 = refractedColour w h remaining ∧
        (refractedColourTraced w h remaining).2 ≤ remaining.toNat := by
    intro h
    by_cases hrem : remaining ≤ 0
    · rw [(refractedColour_exhausted w h remaining hrem).1,
        (refractedColour_exhausted w h remaining hrem).2]
      exact ⟨rfl, Nat.zero_le _⟩
    · rw [refractedColour, refractedColourTraced, dif_neg hrem, dif_neg hrem]
      by_cases ha : w.ALMOST_EQUALS (w.transparency h.intersection.object) (Dbl.fin 0) = true
      · rw [if_pos ha, if_pos ha]
        exact ⟨rfl, Nat.zero_le _⟩
      · rw [if_neg ha, if_neg ha]
        cases w.refractedRay h with
        | none => exact ⟨rfl, Nat.zero_le _⟩
        | some ray =>
          obtain ⟨h1, h2⟩ := hrec (not_le.1 hrem) ray
          refine ⟨?_, ?_⟩
          · show Colour.scale _ (colourAtTraced w ray (remaining - 1)).1 = _
            rw [h1]
          · show (colourAtTraced w ray (remaining - 1)).2 + 1 ≤ remaining.toNat
            omega
  have hshade : ∀ hit : Option (Hit K),
      (shadeHitTraced w hit remaining).1 = shadeHit w hit remaining ∧
        (shadeHitTraced w hit remaining).2 ≤ remaining.toNat := by
    intro hit
    cases hit with
    | none =>
      rw [shadeHit, shadeHitTraced]
      exact ⟨rfl, Nat.zero_le _⟩
    | some h =>
      rw [shadeHit, shadeHitTraced]
      obtain ⟨r1, r2⟩ := hrefl h
      obtain ⟨s1, s2⟩ := hrefr h
      dsimp only
      split_ifs
      · exact ⟨rfl, Nat.zero_le _⟩
      · exact ⟨by rw [r1, s1], max_le r2 s2⟩
      · exact ⟨by rw [r1, s1], max_le r2 s2⟩
  refine ⟨hrefl, hrefr, hshade, ?_⟩
  intro ray
  rw [colourAt, colourAtTraced]
  obtain ⟨h1, h2⟩ := hshade
    (Intersection.prepare_hit_optional w.normalAt (Intersection.hit (w.intersect ray false)) ray)
  rw [← h1]
  rcases hst : shadeHitTraced w
    (Intersection.prepare_hit_optional w.normalAt (Intersection.hit (w.intersect ray false)) ray)
    remaining with ⟨c, d⟩
  rw [hst] at h2
  cases c with
  | none => exact ⟨rfl, h2⟩
  | some c => exact ⟨rfl, h2⟩

/-- The instrumented functions compute the colours of the four functions, and the depth of the
nested `colourAt` calls is at most `remaining`. -/
theorem traced_agrees (w : World K) :
    ∀ (n : Nat) (remaining : Int), remaining.toNat = n →
      (∀ h : Hit K, (reflectedColourTraced w h remaining).1 = reflectedColour w h remaining ∧
        (reflectedColourTraced w h remaining).2 ≤ remaining.toNat) ∧
      (∀ h : Hit K, (refractedColourTraced w h remaining).1 = refractedColour w h remaining ∧
        (refractedColourTraced w h remaining).2 ≤ remaining.toNat) ∧
      (∀ hit : Option (Hit K), (shadeHitTraced w hit remaining).1 = shadeHit w hit remaining ∧
        (shadeHitTraced w hit remaining).2 ≤ remaining.toNat) ∧
      (∀ ray : Ray K, (colourAtTraced w ray remaining).1 = colourAt w ray remaining ∧
        (colourAtTraced w ray remaining).2 ≤ remaining.toNat) := by
  intro n
  induction n with
  | zero =>
    intro remaining hn
    apply traced_level
    intro hpos
    omega
  | succ n ih =>
    intro remaining hn
    apply traced_level
    intro _ ray
    exact (ih (remaining - 1) (by omega)).2.2.2 ray

end World

namespace World

variable {K : Type} [LinearOrderedField K]

/-- C16: for every world, ray and recursion budget `remaining`, `World::colourAt` terminates:
the recursion `colourAt -> shadeHit -> reflectedColour/refractedColour -> colourAt` passes
`remaining - 1` at each level and makes no recursive call when `remaining <= 0`, returning
black for the secondary contribution, so its depth is at most `remaining`, which defaults to
`MAX_RECURSIONS = 5`.  Termination is the totality of `colourAt`; the depth is the second
component of the instrumented `colourAtTraced`, whose first component is `colourAt`. -/
theorem colourAt_depth_at_most_remaining (w : World K) (ray : Ray K) (remaining : Int) :
    (colourAtTraced w ray remaining).1 = colourAt w ray remaining ∧
    (colourAtTraced w ray remaining).2 ≤ remaining.toNat ∧
    (∀ h : Hit K, remaining ≤ 0 →
      reflectedColour w h remaining = Colour.black ∧
      refractedColour w h remaining = Colour.black ∧
      (reflectedColourTraced w h remaining).2 = 0 ∧
      (refractedColourTraced w h remaining).2 = 0) ∧
    (∀ h : Hit K, 0 < remaining →
      w.ALMOST_EQUALS (w.reflectivity h.intersection.object) (Dbl.fin 0) = false →
      reflectedColour w h remaining =
        Colour.scale (w.reflectivity h.intersection.object)
          (colourAt w (w.reflectedRay h) (remaining - 1))) ∧
    (∀ (h : Hit K) (refracted : Ray K), 0 < remaining →
      w.ALMOST_EQUALS (w.transparency h.intersection.object) (Dbl.fin 0) = false →
      w.refractedRay h = some refracted →
      refractedColour w h remaining =
        Colour.scale (w.transparency h.intersection.object)
          (colourAt w refracted (remaining - 1))) ∧
    MAX_RECURSIONS = 5 ∧
    (colourAtTraced w ray MAX_RECURSIONS).2 ≤ 5 := by
  refine ⟨((traced_agrees w _ remaining rfl).2.2.2 ray).1,
    ((traced_agrees w _ remaining rfl).2.2.2 ray).2, ?_, ?_, ?_, rfl, ?_⟩
  · intro h hrem
    refine ⟨(reflectedColour_exhausted w h remaining hrem).1,
      (refractedColour_exhausted w h remaining hrem).1, ?_, ?_⟩
    · rw [(reflectedColour_exhausted w h remaining hrem).2]
    · rw [(refractedColour_exhausted w h remaining hrem).2]
  · intro h hrem hrefl
    exact reflectedColour_recurses w h remaining hrem hrefl
  · intro h refracted hrem htr hray
    exact refractedColour_recurses w h remaining refracted hrem htr hray
  · exact ((traced_agrees w _ MAX_RECURSIONS rfl).2.2.2 ray).2

/-- In the hall of mirrors the recursion goes one level deeper for each unit of the budget. -/
theorem hallOfMirrors_depth_step (ray : Ray ℚ) (remaining : Int) (hrem : 0 < remaining) :
    (colourAtTraced hallOfMirrors ray remaining).2 =
      (colourAtTraced hallOfMirrors
        (hallOfMirrors.reflectedRay
          (Intersection.prepare_hit hallOfMirrors.normalAt ⟨Dbl.fin 1, 0⟩ ray))
        (remaining - 1)).2 + 1 := by
  have hhit : Intersection.hit (hallOfMirrors.intersect ray false) = some ⟨Dbl.fin 1, 0⟩ := by
    show Intersection.hit ([⟨Dbl.fin 1, 0⟩] : List (Intersection ℚ)) = some ⟨Dbl.fin 1, 0⟩
    decide
  have hr : ∀ o : ShapePtr,
      hallOfMirrors.ALMOST_EQUALS (hallOfMirrors.reflectivity o) (Dbl.fin 0) = false := by
    intro o
    show Dbl.almostEquals (1 / 10000 : ℚ) (Dbl.fin 1) (Dbl.fin 0) = false
    norm_num [Dbl.almostEquals_fin]
  have ht : ∀ o : ShapePtr,
      hallOfMirrors.ALMOST_EQUALS (hallOfMirrors.transparency o) (Dbl.fin 0) = true := by
    intro o
    show Dbl.almostEquals (1 / 10000 : ℚ) (Dbl.fin 0) (Dbl.fin 0) = true
    norm_num [Dbl.almostEquals_fin]
  have hnot : ¬ remaining ≤ 0 := not_le.2 hrem
  rw [colourAtTraced, hhit]
  simp only [Intersection.prepare_hit_optional]
  rw [shadeHitTraced]
  simp only [hr, ht, Bool.false_and, Bool.false_eq_true, if_false, Bool.not_false,
    Bool.not_true, Bool.and_false]
  rw [reflectedColourTraced, refractedColourTraced, dif_neg hnot, dif_neg hnot]
  simp only [hr, ht, Bool.false_eq_true, if_false, if_true]
  simp

/-- In the hall of mirrors the depth of the recursion is exactly `remaining`: the bound of C16
is attained. -/
theorem hallOfMirrors_depth (n : Nat) :
    ∀ (remaining : Int) (ray : Ray ℚ), remaining.toNat = n →
      (colourAtTraced hallOfMirrors ray remaining).2 = n := by
  induction n with
  | zero =>
    intro remaining ray hn
    have hle := ((traced_agrees hallOfMirrors _ remaining rfl).2.2.2 ray).2
    omega
  | succ n ih =>
    intro remaining ray hn
    rw [hallOfMirrors_depth_step ray remaining (by omega), ih (remaining - 1) _ (by omega)]

/-- Witness for C16: in the hall of mirrors, with the default budget `MAX_RECURSIONS`, the
depth of the recursion is at most 5, and it is exactly 5. -/
theorem colourAt_depth_at_most_remaining_witness :
    (colourAtTraced hallOfMirrors
        ⟨Tuple.make_point (Dbl.fin 0) (Dbl.fin 0) (Dbl.fin (-5)),
         Tuple.make_vector (Dbl.fin 0) (Dbl.fin 0) (Dbl.fin 1)⟩ MAX_RECURSIONS).2 ≤ 5 ∧
    (colourAtTraced hallOfMirrors
        ⟨Tuple.make_point (Dbl.fin 0) (Dbl.fin 0) (Dbl.fin (-5)),
         Tuple.make_vector (Dbl.fin 0) (Dbl.fin 0) (Dbl.fin 1)⟩ MAX_RECURSIONS).2 = 5 :=
  ⟨(colourAt_depth_at_most_remaining hallOfMirrors _ 0).2.2.2.2.2.2,
   hallOfMirrors_depth 5 MAX_RECURSIONS _ rfl⟩

end World

/-! ## Rounded operations -/

namespace Dbl

/-- The rounding step on a finite value. -/
theorem roundWith_fin {K : Type} (rnd : K → Dbl K) (x : K) :
    Dbl.roundWith rnd (Dbl.fin x) = rnd x :=
  Eq.trans rfl rfl

/-- The rounding step keeps a value that is not NaN away from NaN, for a rounding that never
yields NaN. -/
theorem roundWith_ne_nan {K : Type} {rnd : K → Dbl K} (hnan : ∀ x, rnd x ≠ Dbl.nan) {a : Dbl K}
    (ha : a ≠ Dbl.nan) : Dbl.roundWith rnd a ≠ Dbl.nan := by
  cases a <;> simp_all [Dbl.roundWith]

end Dbl

namespace Dbl

variable {K : Type} [LinearOrderedField K]

theorem ne_nan_of_le_right {a b : Dbl K} (h : Dbl.le a b = true) : b ≠ Dbl.nan := by
  cases a <;> cases b <;> simp_all [Dbl.le]

theorem signedInf_neg (x : K) : signedInf (-x) = neg (signedInf x) := by
  unfold signedInf
  by_cases hx : x = 0
  · subst hx; simp [neg]
  · have h1 : -x ≠ 0 := neg_ne_zero.mpr hx
    rw [if_neg hx, if_neg h1]
    rcases lt_or_gt_of_ne hx with h | h
    · have h2 : 0 < -x := by linarith
      have h3 : ¬ (0 < x) := by intro hc; linarith
      rw [if_pos h2, if_neg h3]; rfl
    · have h2 : ¬ (0 < -x) := by intro hc; linarith
      rw [if_neg h2, if_pos h]; rfl

theorem signedInf_ne_nan {x : K} (hx : x ≠ 0) : signedInf x ≠ nan := by
  unfold signedInf
  rw [if_neg hx]
  split_ifs <;> simp

theorem signedInf_pos {x : K} (hx : 0 < x) : signedInf x = pinf := by
  unfold signedInf
  rw [if_neg (ne_of_gt hx), if_pos hx]

theorem signedInf_of_neg {x : K} (hx : x < 0) : signedInf x = ninf := by
  unfold signedInf
  rw [if_neg (ne_of_lt hx), if_neg (not_lt.2 hx.le)]

theorem neg_neg_eq (a : Dbl K) : Dbl.neg (Dbl.neg a) = a := by
  cases a <;> simp [Dbl.neg]

theorem roundWith_neg {rnd : K → Dbl K} (hsym : ∀ x, rnd (-x) = Dbl.neg (rnd x)) (a : Dbl K) :
    Dbl.roundWith rnd (Dbl.neg a) = Dbl.neg (Dbl.roundWith rnd a) := by
  cases a <;> simp [Dbl.roundWith, Dbl.neg, hsym]

theorem neg_pinf : Dbl.neg (Dbl.pinf : Dbl K) = Dbl.ninf := rfl

theorem neg_ninf : Dbl.neg (Dbl.ninf : Dbl K) = Dbl.pinf := rfl

theorem neg_nan : Dbl.neg (Dbl.nan : Dbl K) = Dbl.nan := rfl

theorem mul_neg_left (a b : Dbl K) : Dbl.mul (Dbl.neg a) b = Dbl.neg (Dbl.mul a b) := by
  cases a <;> cases b <;>
    simp [Dbl.mul, Dbl.neg_fin, neg_pinf, neg_ninf, neg_nan, signedInf_neg, neg_neg_eq]

theorem add_neg_neg (a b : Dbl K) :
    Dbl.add (Dbl.neg a) (Dbl.neg b) = Dbl.neg (Dbl.add a b) := by
  cases a <;> cases b <;> simp [Dbl.add, Dbl.neg]
  ring

theorem mulR_neg_left {rnd : K → Dbl K} (hsym : ∀ x, rnd (-x) = Dbl.neg (rnd x)) (a b : Dbl K) :
    Dbl.mulR rnd (Dbl.neg a) b = Dbl.neg (Dbl.mulR rnd a b) := by
  rw [Dbl.mulR, Dbl.mulR, mul_neg_left, roundWith_neg hsym]

theorem addR_neg_neg {rnd : K → Dbl K} (hsym : ∀ x, rnd (-x) = Dbl.neg (rnd x)) (a b : Dbl K) :
    Dbl.addR rnd (Dbl.neg a) (Dbl.neg b) = Dbl.neg (Dbl.addR rnd a b) := by
  rw [Dbl.addR, Dbl.addR, add_neg_neg, roundWith_neg hsym]

/-- The product with `1` is the rounding of the other factor. -/
theorem mulR_one_left (rnd : K → Dbl K) (a : Dbl K) :
    Dbl.mulR rnd (Dbl.fin 1) a = Dbl.roundWith rnd a := by
  rw [Dbl.mulR, Dbl.mul_one_left]

/-- The product with `-1` is the rounding of the negated factor. -/
theorem mulR_neg_one_left (rnd : K → Dbl K) (a : Dbl K) :
    Dbl.mulR rnd (Dbl.fin (-1)) a = Dbl.roundWith rnd (Dbl.neg a) := by
  rw [Dbl.mulR, Dbl.mul_neg_one_left]

theorem lt_zero_neg {a : Dbl K} (h : Dbl.lt a (Dbl.fin 0) = true) :
    Dbl.lt (Dbl.neg a) (Dbl.fin 0) = false := by
  cases a <;> simp_all [Dbl.lt, Dbl.neg]
  exact h.le

end Dbl

namespace Tuple

variable {K : Type} [LinearOrderedField K]

/-- For a symmetric rounding, negating the first vector negates the computed dot product. -/
theorem dot_productR_neg_left {rnd : K → Dbl K} (hsym : ∀ x, rnd (-x) = Dbl.neg (rnd x))
    (a b : Tuple K) :
    Tuple.dot_productR rnd (Tuple.neg a) b = Dbl.neg (Tuple.dot_productR rnd a b) := by
  simp only [Tuple.dot_productR, Tuple.neg, Dbl.mulR_neg_left hsym, Dbl.addR_neg_neg hsym]

theorem smulR_one_left (rnd : K → Dbl K) (v : Tuple K) :
    Tuple.smulR rnd (Dbl.fin 1) v = Tuple.roundWith rnd v := by
  simp [Tuple.smulR, Tuple.roundWith, Dbl.mulR_one_left]

theorem smulR_neg_one_left {rnd : K → Dbl K} (hsym : ∀ x, rnd (-x) = Dbl.neg (rnd x))
    (v : Tuple K) :
    Tuple.smulR rnd (Dbl.fin (-1)) v = Tuple.neg (Tuple.roundWith rnd v) := by
  simp [Tuple.smulR, Tuple.roundWith, Tuple.neg, Dbl.mulR_neg_one_left, Dbl.roundWith_neg hsym]

end Tuple

/-! ## Monotone rounding -/

namespace Dbl

variable {K : Type} [LinearOrderedField K]

end Dbl

/-! ## Rounding to binary64 -/

namespace Dbl

variable {K : Type} [LinearOrderedField K]

/-- A power of two with a non-negative exponent is an integer. -/
theorem two_zpow_intCast {k : Int} (hk : 0 ≤ k) :
    (2 : K) ^ k = (((2 : Int) ^ k.toNat : Int) : K) := by
  obtain ⟨m, rfl⟩ := Int.eq_ofNat_of_zero_le hk
  rw [zpow_natCast]
  simp

end Dbl

namespace Dbl

variable {K : Type} [LinearOrderedField K] [FloorRing K]

/-- An integer within one half of `q` is the rounding of `q`. -/
theorem roundHalfEven_of_near (q : K) (n : Int) (h1 : (n : K) - 1 / 2 < q)
    (h2 : q < (n : K) + 1 / 2) : roundHalfEven q = n := by
  have hfl : (⌊q⌋ : Int) = n ∨ (⌊q⌋ : Int) = n - 1 := by
    have h3 : n - 1 ≤ ⌊q⌋ := by
      rw [Int.le_floor]; push_cast; linarith
    have h4 : ⌊q⌋ < n + 1 := by
      rw [Int.floor_lt]; push_cast; linarith
    omega
  unfold roundHalfEven
  rcases hfl with hf | hf
  · have hq : q - ((⌊q⌋ : Int) : K) < 1 / 2 := by rw [hf]; linarith
    rw [if_pos hq, hf]
  · have hq1 : ¬ (q - ((⌊q⌋ : Int) : K) < 1 / 2) := by
      rw [hf]; push_cast; intro hc
      linarith
    have hq2 : (1 : K) / 2 < q - ((⌊q⌋ : Int) : K) := by
      rw [hf]; push_cast; linarith
    rw [if_neg hq1, if_pos hq2, hf]; omega

theorem roundHalfEven_intCast (n : Int) : roundHalfEven (n : K) = n :=
  roundHalfEven_of_near _ n (by linarith) (by linarith)

/-- The rounding of `q` is within one half of `q`. -/
theorem roundHalfEven_near (q : K) :
    ((roundHalfEven q : Int) : K) - 1 / 2 ≤ q ∧ q ≤ ((roundHalfEven q : Int) : K) + 1 / 2 := by
  have hlt : ((⌊q⌋ : Int) : K) ≤ q := Int.floor_le q
  have hlt2 : q < ((⌊q⌋ : Int) : K) + 1 := Int.lt_floor_add_one q
  unfold roundHalfEven
  split_ifs with h1 h2 h3
  · constructor <;> linarith
  · push_cast; constructor <;> linarith
  · constructor <;> linarith
  · push_cast; constructor <;> linarith

/-- Rounding to the nearest integer is monotone. -/
theorem roundHalfEven_mono {q1 q2 : K} (h : q1 ≤ q2) : roundHalfEven q1 ≤ roundHalfEven q2 := by
  by_contra hc
  push_neg at hc
  have h1 := (roundHalfEven_near q1).1
  have h2 := (roundHalfEven_near q2).2
  have h3 : ((roundHalfEven q2 : Int) : K) + 1 ≤ ((roundHalfEven q1 : Int) : K) := by
    have : roundHalfEven q2 + 1 ≤ roundHalfEven q1 := by omega
    exact_mod_cast this
  have heq : q1 = q2 := by linarith
  rw [heq] at hc
  exact lt_irrefl _ hc

theorem roundHalfEven_neg (q : K) : roundHalfEven (-q) = -roundHalfEven q := by
  by_cases hint : ((⌊q⌋ : Int) : K) = q
  · have h1 : roundHalfEven q = ⌊q⌋ :=
      roundHalfEven_of_near q ⌊q⌋ (by rw [hint]; linarith) (by rw [hint]; linarith)
    have h2 : roundHalfEven (-q) = -⌊q⌋ :=
      roundHalfEven_of_near (-q) (-⌊q⌋) (by push_cast; rw [hint]; linarith)
        (by push_cast; rw [hint]; linarith)
    rw [h1, h2]
  · have hlt : ((⌊q⌋ : Int) : K) < q := lt_of_le_of_ne (Int.floor_le q) hint
    have hlt2 : q < ((⌊q⌋ : Int) : K) + 1 := Int.lt_floor_add_one q
    have hfn : ⌊-q⌋ = -⌊q⌋ - 1 := by
      rw [Int.floor_eq_iff]; push_cast; constructor <;> linarith
    unfold roundHalfEven
    rw [hfn]
    push_cast
    by_cases ha : q - ((⌊q⌋ : Int) : K) < 1 / 2
    · have hb : ¬ (-q - (-((⌊q⌋ : Int) : K) - 1) < 1 / 2) := by intro hc; linarith
      have hc : (1 : K) / 2 < -q - (-((⌊q⌋ : Int) : K) - 1) := by linarith
      rw [if_pos ha, if_neg hb, if_pos hc]; omega
    · by_cases hb : (1 : K) / 2 < q - ((⌊q⌋ : Int) : K)
      · have hc : -q - (-((⌊q⌋ : Int) : K) - 1) < 1 / 2 := by linarith
        rw [if_neg ha, if_pos hb, if_pos hc]; omega
      · have hc : ¬ (-q - (-((⌊q⌋ : Int) : K) - 1) < 1 / 2) := by intro hc; linarith
        have hd : ¬ ((1 : K) / 2 < -q - (-((⌊q⌋ : Int) : K) - 1)) := by intro hd; linarith
        rw [if_neg ha, if_neg hb, if_neg hc, if_neg hd]
        by_cases he : ⌊q⌋ % 2 = 0
        · have hf : ¬ ((-⌊q⌋ - 1) % 2 = 0) := by omega
          rw [if_pos he, if_neg hf]; omega
        · have hf : (-⌊q⌋ - 1) % 2 = 0 := by omega
          rw [if_neg he, if_pos hf]; omega

theorem ulp64_pos (x : K) : 0 < ulp64 x := by
  unfold ulp64; positivity

theorem ulp64_neg (x : K) : ulp64 (-x) = ulp64 x := by
  unfold ulp64; rw [abs_neg]

theorem nearest64_neg (x : K) : nearest64 (-x) = -nearest64 x := by
  unfold nearest64
  rw [ulp64_neg, neg_div, roundHalfEven_neg]
  push_cast
  ring

theorem nearest64_zero : nearest64 (0 : K) = 0 := by
  unfold nearest64
  rw [zero_div]
  have h : roundHalfEven (0 : K) = 0 := by
    have := roundHalfEven_intCast (K := K) 0
    simpa using this
  rw [h]; simp

theorem nearest64_nonneg {x : K} (hx : 0 ≤ x) : 0 ≤ nearest64 x := by
  unfold nearest64
  have hq : (0 : K) ≤ x / ulp64 x := div_nonneg hx (ulp64_pos x).le
  have h0 : roundHalfEven (0 : K) = 0 := by
    have := roundHalfEven_intCast (K := K) 0
    simpa using this
  have h1 : (0 : Int) ≤ roundHalfEven (x / ulp64 x) := by
    rw [← h0]; exact roundHalfEven_mono hq
  have h2 : (0 : K) ≤ ((roundHalfEven (x / ulp64 x) : Int) : K) := by exact_mod_cast h1
  exact mul_nonneg h2 (ulp64_pos x).le

/-- The rounding to binary64 in one formula, zero included. -/
theorem binary64_eq (x : K) :
    binary64 x =
      if (2 : K) ^ (1024 : Int) ≤ |nearest64 x| then signedInf x else fin (nearest64 x) := by
  unfold binary64
  by_cases hx : x = 0
  · subst hx
    rw [if_pos rfl, nearest64_zero, abs_zero]
    have : ¬ ((2 : K) ^ (1024 : Int) ≤ 0) := not_le.2 (by positivity)
    rw [if_neg this]
  · rw [if_neg hx]

theorem binary64_zero : binary64 (0 : K) = fin 0 := by
  simp [binary64]

/-- Rounding to binary64 never yields NaN. -/
theorem binary64_ne_nan (x : K) : binary64 x ≠ nan := by
  unfold binary64
  by_cases hx : x = 0
  · rw [if_pos hx]; simp
  · rw [if_neg hx]
    split_ifs
    · exact signedInf_ne_nan hx
    · simp

/-- Rounding to binary64 is symmetric: the rounding of `-x` is the negation of that of `x`. -/
theorem binary64_neg (x : K) : binary64 (-x) = neg (binary64 x) := by
  rw [binary64_eq, binary64_eq, nearest64_neg, abs_neg]
  split_ifs
  · exact signedInf_neg x
  · rfl

theorem log_two_eq (x : K) (e : Int) (h1 : (2 : K) ^ e ≤ x) (h2 : x < (2 : K) ^ (e + 1)) :
    Int.log 2 x = e := by
  have hpos : 0 < x := lt_of_lt_of_le (by positivity) h1
  have ha : e ≤ Int.log 2 x := by
    rw [← Int.zpow_le_iff_le_log (by norm_num) hpos]; exact_mod_cast h1
  have hb : Int.log 2 x < e + 1 := by
    rw [← Int.lt_zpow_iff_log_lt (by norm_num) hpos]; exact_mod_cast h2
  omega

/-- Evaluation of the rounding of a positive value `x` of the binade `2 ^ e ≤ x < 2 ^ (e + 1)`:
`n` is the integer within one half of `x` counted in units of the last place. -/
theorem binary64_eval (x : K) (e n : Int) (h1 : (2 : K) ^ e ≤ x) (h2 : x < (2 : K) ^ (e + 1))
    (hq1 : (n : K) - 1 / 2 < x / (2 : K) ^ (max e (-1022) - 52))
    (hq2 : x / (2 : K) ^ (max e (-1022) - 52) < (n : K) + 1 / 2) :
    binary64 x =
      if (2 : K) ^ (1024 : Int) ≤ (n : K) * (2 : K) ^ (max e (-1022) - 52) then pinf
      else fin ((n : K) * (2 : K) ^ (max e (-1022) - 52)) := by
  have hpos : 0 < x := lt_of_lt_of_le (by positivity) h1
  have hx : x ≠ 0 := ne_of_gt hpos
  have habs : |x| = x := abs_of_pos hpos
  have hlog := log_two_eq x e h1 h2
  have hu : ulp64 x = (2 : K) ^ (max e (-1022) - 52) := by
    unfold ulp64; rw [habs, hlog]
  have hn : nearest64 x = (n : K) * (2 : K) ^ (max e (-1022) - 52) := by
    unfold nearest64
    rw [hu, roundHalfEven_of_near _ n hq1 hq2]
  have hnn : (0 : K) ≤ nearest64 x := nearest64_nonneg hpos.le
  rw [binary64_eq, abs_of_nonneg hnn, hn, signedInf_pos hpos]

end Dbl

namespace Dbl

variable {K : Type} [LinearOrderedField K] [FloorRing K]

/-- A value below a power of two, taken in units of the last place of a lower binade, rounds to
at most that power of two. -/
theorem nearest64_le_pow {x : K} {e b : Int} (hu : ulp64 x = (2 : K) ^ (e - 52)) (heb : e ≤ b)
    (hx : x ≤ (2 : K) ^ b) : nearest64 x ≤ (2 : K) ^ b := by
  have hpos : (0 : K) < (2 : K) ^ (e - 52) := by positivity
  have hB : (2 : K) ^ b = (2 : K) ^ (b - e + 52) * (2 : K) ^ (e - 52) := by
    rw [← zpow_add₀ (two_ne_zero)]; congr 1; ring
  have hq : x / (2 : K) ^ (e - 52) ≤ (2 : K) ^ (b - e + 52) := by
    rw [div_le_iff₀ hpos, ← hB]; exact hx
  rw [two_zpow_intCast (by omega : 0 ≤ b - e + 52)] at hq
  have hr := roundHalfEven_mono hq
  rw [roundHalfEven_intCast] at hr
  have hr2 : ((roundHalfEven (x / (2 : K) ^ (e - 52)) : Int) : K) ≤
      (((2 : Int) ^ (b - e + 52).toNat : Int) : K) := by exact_mod_cast hr
  unfold nearest64
  rw [hu, hB, two_zpow_intCast (by omega : 0 ≤ b - e + 52)]
  exact mul_le_mul_of_nonneg_right hr2 hpos.le

/-- A value of at least a power of two of its own binade or below rounds to at least that power
of two. -/
theorem pow_le_nearest64 {x : K} {e b : Int} (hu : ulp64 x = (2 : K) ^ (e - 52)) (heb : e ≤ b)
    (hx : (2 : K) ^ b ≤ x) : (2 : K) ^ b ≤ nearest64 x := by
  have hpos : (0 : K) < (2 : K) ^ (e - 52) := by positivity
  have hB : (2 : K) ^ b = (2 : K) ^ (b - e + 52) * (2 : K) ^ (e - 52) := by
    rw [← zpow_add₀ (two_ne_zero)]; congr 1; ring
  have hq : (2 : K) ^ (b - e + 52) ≤ x / (2 : K) ^ (e - 52) := by
    rw [le_div_iff₀ hpos, ← hB]; exact hx
  rw [two_zpow_intCast (by omega : 0 ≤ b - e + 52)] at hq
  have hr := roundHalfEven_mono hq
  rw [roundHalfEven_intCast] at hr
  have hr2 : (((2 : Int) ^ (b - e + 52).toNat : Int) : K) ≤
      ((roundHalfEven (x / (2 : K) ^ (e - 52)) : Int) : K) := by exact_mod_cast hr
  unfold nearest64
  rw [hu, hB, two_zpow_intCast (by omega : 0 ≤ b - e + 52)]
  exact mul_le_mul_of_nonneg_right hr2 hpos.le

theorem nearest64_mono_pos {x y : K} (hx : 0 < x) (hxy : x ≤ y) : nearest64 x ≤ nearest64 y := by
  have hy : 0 < y := lt_of_lt_of_le hx hxy
  have hlog : Int.log 2 x ≤ Int.log 2 y := Int.log_mono_right hx hxy
  have hux : ulp64 x = (2 : K) ^ (max (Int.log 2 x) (-1022) - 52) := by
    unfold ulp64; rw [abs_of_pos hx]
  have huy : ulp64 y = (2 : K) ^ (max (Int.log 2 y) (-1022) - 52) := by
    unfold ulp64; rw [abs_of_pos hy]
  by_cases he : max (Int.log 2 x) (-1022) = max (Int.log 2 y) (-1022)
  · have hu : ulp64 x = ulp64 y := by rw [hux, huy, he]
    unfold nearest64
    rw [hu]
    have hq : x / ulp64 y ≤ y / ulp64 y := div_le_div_of_nonneg_right hxy (ulp64_pos y).le
    have hr := roundHalfEven_mono hq
    have hr2 : ((roundHalfEven (x / ulp64 y) : Int) : K) ≤
        ((roundHalfEven (y / ulp64 y) : Int) : K) := by exact_mod_cast hr
    exact mul_le_mul_of_nonneg_right hr2 (ulp64_pos y).le
  · have hlt : max (Int.log 2 x) (-1022) < max (Int.log 2 y) (-1022) := by
      rcases lt_or_gt_of_ne he with h | h
      · exact h
      · exfalso
        have := max_le_max hlog (le_refl (-1022 : Int))
        omega
    have hey : max (Int.log 2 y) (-1022) = Int.log 2 y := by
      apply max_eq_left
      by_contra hc
      push_neg at hc
      rw [max_eq_right hc.le] at hlt
      have := le_max_right (Int.log 2 x) (-1022)
      omega
    have h1 : x < (2 : K) ^ (Int.log 2 x + 1) := by
      have := Int.lt_zpow_succ_log_self (by norm_num : 1 < 2) x
      exact_mod_cast this
    have h2 : (2 : K) ^ (Int.log 2 y) ≤ y := by
      have := Int.zpow_log_le_self (by norm_num : 1 < 2) hy
      exact_mod_cast this
    have h3 : (2 : K) ^ (Int.log 2 x + 1) ≤ (2 : K) ^ (Int.log 2 y) := by
      apply zpow_le_zpow_right₀ (by norm_num)
      have := le_max_left (Int.log 2 x) (-1022)
      omega
    have hxB : x ≤ (2 : K) ^ (Int.log 2 y) := (h1.trans_le h3).le
    have ha := nearest64_le_pow hux (by omega : max (Int.log 2 x) (-1022) ≤ Int.log 2 y) hxB
    have hb := pow_le_nearest64 huy (by omega : max (Int.log 2 y) (-1022) ≤ Int.log 2 y) h2
    exact ha.trans hb

/-- The nearest multiple of the unit in the last place is monotone in `x`. -/
theorem nearest64_mono {x y : K} (hxy : x ≤ y) : nearest64 x ≤ nearest64 y := by
  by_cases hx : 0 < x
  · exact nearest64_mono_pos hx hxy
  · push_neg at hx
    have h1 : nearest64 x ≤ 0 := by
      have := nearest64_nonneg (neg_nonneg.2 hx)
      rw [nearest64_neg] at this
      linarith
    by_cases hy : 0 ≤ y
    · exact h1.trans (nearest64_nonneg hy)
    · push_neg at hy
      have h2 := nearest64_mono_pos (neg_pos.2 hy) (neg_le_neg hxy)
      rw [nearest64_neg, nearest64_neg] at h2
      linarith

/-- Rounding to binary64 is monotone. -/
theorem binary64_mono {x y : K} (hxy : x ≤ y) : Dbl.le (binary64 x) (binary64 y) = true := by
  have hm := nearest64_mono hxy
  have hP : (0 : K) < (2 : K) ^ (1024 : Int) := by positivity
  rw [binary64_eq, binary64_eq]
  by_cases hox : (2 : K) ^ (1024 : Int) ≤ |nearest64 x|
  · rw [if_pos hox]
    by_cases hx : 0 < x
    · have hnx : 0 ≤ nearest64 x := nearest64_nonneg hx.le
      rw [abs_of_nonneg hnx] at hox
      have hy : 0 < y := lt_of_lt_of_le hx hxy
      have hny : 0 ≤ nearest64 y := nearest64_nonneg hy.le
      have hoy : (2 : K) ^ (1024 : Int) ≤ |nearest64 y| := by
        rw [abs_of_nonneg hny]; exact hox.trans hm
      rw [if_pos hoy, signedInf_pos hx, signedInf_pos hy]; rfl
    · push_neg at hx
      have hx0 : x ≠ 0 := by
        intro h0
        rw [h0, nearest64_zero, abs_zero] at hox
        exact absurd hox (not_le.2 hP)
      have hxneg : x < 0 := lt_of_le_of_ne hx hx0
      rw [signedInf_of_neg hxneg]
      have hne : (if (2 : K) ^ (1024 : Int) ≤ |nearest64 y| then signedInf y
          else fin (nearest64 y)) ≠ nan := by
        rw [← binary64_eq]; exact binary64_ne_nan y
      generalize (if (2 : K) ^ (1024 : Int) ≤ |nearest64 y| then signedInf y
          else fin (nearest64 y)) = v at hne
      cases v <;> simp_all [Dbl.le]
  · rw [if_neg hox]
    push_neg at hox
    by_cases hoy : (2 : K) ^ (1024 : Int) ≤ |nearest64 y|
    · rw [if_pos hoy]
      by_cases hy : 0 < y
      · rw [signedInf_pos hy]; rfl
      · push_neg at hy
        exfalso
        have hny : nearest64 y ≤ 0 := by
          have := nearest64_nonneg (neg_nonneg.2 hy)
          rw [nearest64_neg] at this
          linarith
        rw [abs_of_nonpos hny] at hoy
        have hnx : nearest64 x ≤ 0 := hm.trans hny
        rw [abs_of_nonpos hnx] at hox
        linarith
    · rw [if_neg hoy]
      simp [Dbl.le, hm]

/-- Rounding to binary64 keeps the sign: a non-negative value is not rounded below zero. -/
theorem binary64_nonneg {x : K} (hx : 0 ≤ x) : Dbl.le (fin 0) (binary64 x) = true := by
  have := binary64_mono hx
  rwa [binary64_zero] at this

end Dbl

namespace Dbl

variable {K : Type} [LinearOrderedField K] [FloorRing K]

/-- Every multiple `n * 2 ^ k` of a power of two with `|n| < 2 ^ 53`, a unit `2 ^ k` not
below `2 ^ (-1074)` and a magnitude below `2 ^ 1024` is a double: the rounding leaves it
unchanged. -/
theorem binary64_dyadic (n k : Int) (hn : |n| < 2 ^ 53) (hk : -1074 ≤ k)
    (hfin : |(n : K) * (2 : K) ^ k| < (2 : K) ^ (1024 : Int)) :
    binary64 ((n : K) * (2 : K) ^ k) = fin ((n : K) * (2 : K) ^ k) := by
  have key : ∀ m : Int, 0 < m → m < 2 ^ 53 →
      (m : K) * (2 : K) ^ k < (2 : K) ^ (1024 : Int) →
      binary64 ((m : K) * (2 : K) ^ k) = fin ((m : K) * (2 : K) ^ k) := by
    intro m hm0 hm hlt
    have hpk : (0 : K) < (2 : K) ^ k := by positivity
    have hmK : (0 : K) < (m : K) := by exact_mod_cast hm0
    have hx : (0 : K) < (m : K) * (2 : K) ^ k := mul_pos hmK hpk
    have hlo : (2 : K) ^ (Int.log 2 ((m : K) * (2 : K) ^ k)) ≤ (m : K) * (2 : K) ^ k := by
      have := Int.zpow_log_le_self (by norm_num : 1 < 2) hx
      exact_mod_cast this
    have hhi : (m : K) * (2 : K) ^ k < (2 : K) ^ (Int.log 2 ((m : K) * (2 : K) ^ k) + 1) := by
      have := Int.lt_zpow_succ_log_self (by norm_num : 1 < 2) ((m : K) * (2 : K) ^ k)
      exact_mod_cast this
    have hm53 : (m : K) < (2 : K) ^ (53 : Int) := by
      have h : (m : K) < (((2 : Int) ^ 53 : Int) : K) := by exact_mod_cast hm
      have e : (((2 : Int) ^ 53 : Int) : K) = (2 : K) ^ (53 : Int) := by norm_num
      rw [e] at h
      exact h
    have hle : Int.log 2 ((m : K) * (2 : K) ^ k) < 53 + k := by
      rw [← Int.lt_zpow_iff_log_lt (by norm_num) hx]
      push_cast
      rw [zpow_add₀ (two_ne_zero)]
      exact mul_lt_mul_of_pos_right hm53 hpk
    have hu : (0 : K) < (2 : K) ^ (max (Int.log 2 ((m : K) * (2 : K) ^ k)) (-1022) - 52) := by
      positivity
    have hexp : 0 ≤ k - (max (Int.log 2 ((m : K) * (2 : K) ^ k)) (-1022) - 52) := by
      have := max_le (a := Int.log 2 ((m : K) * (2 : K) ^ k)) (b := -1022) (c := 52 + k)
        (by omega) (by omega)
      omega
    obtain ⟨N, hq⟩ : ∃ N : Int, (m : K) * (2 : K) ^ k /
        (2 : K) ^ (max (Int.log 2 ((m : K) * (2 : K) ^ k)) (-1022) - 52) = (N : K) := by
      refine ⟨m * 2 ^ (k - (max (Int.log 2 ((m : K) * (2 : K) ^ k)) (-1022) - 52)).toNat, ?_⟩
      rw [mul_div_assoc, ← zpow_sub₀ (two_ne_zero), two_zpow_intCast hexp]
      push_cast
      rfl
    rw [binary64_eval _ _ N hlo hhi (by rw [hq]; linarith) (by rw [hq]; linarith)]
    have hback : (N : K) * (2 : K) ^ (max (Int.log 2 ((m : K) * (2 : K) ^ k)) (-1022) - 52) =
        (m : K) * (2 : K) ^ k := by
      rw [← hq]
      field_simp
    rw [hback, if_neg (not_le.2 hlt)]
  rcases lt_trichotomy n 0 with hneg | hz | hpos
  · have h1 := key (-n) (by omega) (by rw [abs_of_neg hneg] at hn; exact hn) (by
      have : |(n : K) * (2 : K) ^ k| = ((-n : Int) : K) * (2 : K) ^ k := by
        have hpk : (0 : K) < (2 : K) ^ k := by positivity
        have hnK : (n : K) < 0 := by exact_mod_cast hneg
        rw [abs_of_neg (mul_neg_of_neg_of_pos hnK hpk)]
        push_cast
        ring
      rw [← this]; exact hfin)
    have h2 : (n : K) * (2 : K) ^ k = -(((-n : Int) : K) * (2 : K) ^ k) := by
      push_cast; ring
    rw [h2, binary64_neg, h1]
    rfl
  · subst hz
    simp [binary64_zero]
  · exact key n hpos (by rw [abs_of_pos hpos] at hn; exact hn) (by
      have hpk : (0 : K) < (2 : K) ^ k := by positivity
      have hnK : (0 : K) < (n : K) := by exact_mod_cast hpos
      rw [abs_of_pos (mul_pos hnK hpk)] at hfin
      exact hfin)

/-- Every integer of magnitude below `2 ^ 53` is a double. -/
theorem binary64_int (n : Int) (hn : |n| < 2 ^ 53) : binary64 (n : K) = fin (n : K) := by
  have h := binary64_dyadic (K := K) n 0 hn (by norm_num) (by
    rw [zpow_zero, mul_one]
    have h1 : |(n : K)| < ((2 ^ 53 : Int) : K) := by
      rw [← Int.cast_abs]; exact_mod_cast hn
    have h2 : (((2 : Int) ^ 53 : Int) : K) < (2 : K) ^ (1024 : Int) := by
      push_cast
      norm_num
    exact h1.trans h2)
  simpa using h

end Dbl

namespace Dbl

/-! The doubles met in the evaluations below. -/

theorem binary64_one {K : Type} [LinearOrderedField K] [FloorRing K] :
    binary64 (1 : K) = fin 1 := by
  simpa using binary64_int (K := K) 1 (by norm_num)

theorem binary64_neg_one {K : Type} [LinearOrderedField K] [FloorRing K] :
    binary64 (-1 : K) = fin (-1) := by
  simpa using binary64_int (K := K) (-1) (by norm_num)

/-- The squares of `2 ^ 700` and of `2 ^ 701` overflow. -/
theorem binary64_huge_square : binary64 ((2 : ℚ) ^ 700 * (2 : ℚ) ^ 700) = pinf := by
  rw [binary64_eval _ 1400 (2 ^ 52) (by norm_num) (by norm_num) (by norm_num) (by norm_num)]
  norm_num

end Dbl

/-! ## `Sphere::localIntersection` in doubles (C4, C5, C19) -/

namespace Rounded

namespace Sphere

variable {K : Type} [LinearOrderedField K]

end Sphere

end Rounded

namespace Rounded

namespace Sphere

variable {K : Type} [LinearOrderedField K]

end Sphere

end Rounded

namespace Rounded

namespace Sphere

variable {K : Type} [LinearOrderedField K]

end Sphere

end Rounded

namespace Dbl

end Dbl

namespace Rounded

namespace Sphere

end Sphere

end Rounded

/-! ## `Cube::checkAxis` and `Cube::localIntersection` in doubles (C6, C17) -/

namespace Rounded

namespace Cube

variable {K : Type} [LinearOrderedField K]

/-- The dividing branch of `checkAxis`: the two computed quotients, swapped when the first is
greater than the second. -/
theorem checkAxis_dividing_computed (rnd : K → Dbl K) (A : Dbl K → Dbl K → Bool)
    (origin direction : Dbl K) (hA : A direction (Dbl.fin 0) = false) :
    checkAxis rnd A origin direction =
      (if Dbl.gt (Dbl.divR rnd (Dbl.subR rnd (Dbl.fin (-1)) origin) direction)
            (Dbl.divR rnd (Dbl.subR rnd (Dbl.fin 1) origin) direction) then
          Dbl.divR rnd (Dbl.subR rnd (Dbl.fin 1) origin) direction
        else Dbl.divR rnd (Dbl.subR rnd (Dbl.fin (-1)) origin) direction,
       if Dbl.gt (Dbl.divR rnd (Dbl.subR rnd (Dbl.fin (-1)) origin) direction)
            (Dbl.divR rnd (Dbl.subR rnd (Dbl.fin 1) origin) direction) then
          Dbl.divR rnd (Dbl.subR rnd (Dbl.fin (-1)) origin) direction
        else Dbl.divR rnd (Dbl.subR rnd (Dbl.fin 1) origin) direction) := by
  simp only [checkAxis, hA, Bool.false_eq_true, if_false]
  split_ifs <;> rfl

/-- A quotient of the dividing branch is not NaN: the divisor is finite and not zero. -/
theorem quotient_ne_nan (rnd : K → Dbl K) (hnan : ∀ x, rnd x ≠ Dbl.nan) (c o d : K)
    (hd : d ≠ 0) :
    Dbl.divR rnd (Dbl.subR rnd (Dbl.fin c) (Dbl.fin o)) (Dbl.fin d) ≠ Dbl.nan := by
  simp only [Dbl.subR, Dbl.sub_fin, Dbl.roundWith, Dbl.divR]
  have h := hnan (c - o)
  cases hr : rnd (c - o) with
  | nan => exact absurd hr h
  | pinf =>
    simp only [Dbl.div]
    split_ifs <;> simp [Dbl.roundWith]
  | ninf =>
    simp only [Dbl.div]
    split_ifs <;> simp [Dbl.roundWith]
  | fin x =>
    simp only [Dbl.div, hd, if_false, Dbl.roundWith]
    exact hnan _

/-- C17 (amended): for every finite origin coordinate `o` and every finite direction coordinate
`d` that is not almost-equal to zero, `Cube::checkAxis` returns the pair
`(min(q1, q2), max(q1, q2))` of the two quotients computed in doubles, `q1` the rounding of
`(-1 - o)/d` and `q2` the rounding of `(1 - o)/d`, neither of them NaN; its first component is
`<=` its second; and a real `t` satisfies `-1 <= o + t*d <= 1` exactly when it lies between the
two components inclusive whenever the two computed quotients are the exact ones. -/
theorem checkAxis_sorted_computed_quotients (rnd : K → Dbl K)
    (hnan : ∀ x, rnd x ≠ Dbl.nan) (A : Dbl K → Dbl K → Bool) (o d : K)
    (h0 : A (Dbl.fin 0) (Dbl.fin 0) = true) (hA : A (Dbl.fin d) (Dbl.fin 0) = false) :
    ∃ q1 q2 : Dbl K,
      q1 = Dbl.divR rnd (Dbl.subR rnd (Dbl.fin (-1)) (Dbl.fin o)) (Dbl.fin d) ∧
      q2 = Dbl.divR rnd (Dbl.subR rnd (Dbl.fin 1) (Dbl.fin o)) (Dbl.fin d) ∧
      q1 ≠ Dbl.nan ∧ q2 ≠ Dbl.nan ∧
      checkAxis rnd A (Dbl.fin o) (Dbl.fin d) =
        (if Dbl.gt q1 q2 then q2 else q1, if Dbl.gt q1 q2 then q1 else q2) ∧
      Dbl.le (checkAxis rnd A (Dbl.fin o) (Dbl.fin d)).1
        (checkAxis rnd A (Dbl.fin o) (Dbl.fin d)).2 = true ∧
      Dbl.le (checkAxis rnd A (Dbl.fin o) (Dbl.fin d)).1 q1 = true ∧
      Dbl.le (checkAxis rnd A (Dbl.fin o) (Dbl.fin d)).1 q2 = true ∧
      Dbl.le q1 (checkAxis rnd A (Dbl.fin o) (Dbl.fin d)).2 = true ∧
      Dbl.le q2 (checkAxis rnd A (Dbl.fin o) (Dbl.fin d)).2 = true ∧
      (q1 = Dbl.fin ((-1 - o) / d) → q2 = Dbl.fin ((1 - o) / d) →
        ∀ t : K, (-1 ≤ o + t * d ∧ o + t * d ≤ 1) ↔
          (Dbl.le (checkAxis rnd A (Dbl.fin o) (Dbl.fin d)).1 (Dbl.fin t) = true ∧
            Dbl.le (Dbl.fin t) (checkAxis rnd A (Dbl.fin o) (Dbl.fin d)).2 = true)) := by
  have hd : d ≠ 0 := by
    rintro rfl
    rw [h0] at hA
    exact absurd hA (by simp)
  have hq1 := quotient_ne_nan rnd hnan (-1) o d hd
  have hq2 := quotient_ne_nan rnd hnan 1 o d hd
  refine ⟨_, _, rfl, rfl, hq1, hq2, checkAxis_dividing_computed rnd A _ _ hA, ?_⟩
  rw [checkAxis_dividing_computed rnd A _ _ hA]
  generalize Dbl.divR rnd (Dbl.subR rnd (Dbl.fin (-1)) (Dbl.fin o)) (Dbl.fin d) = q1 at hq1
  generalize Dbl.divR rnd (Dbl.subR rnd (Dbl.fin 1) (Dbl.fin o)) (Dbl.fin d) = q2 at hq2
  by_cases hgt : Dbl.gt q1 q2 = true
  · simp only [hgt, if_true]
    have hlt : Dbl.lt q2 q1 = true := hgt
    refine ⟨Dbl.le_of_lt_true hlt, Dbl.le_of_lt_true hlt, Dbl.le_refl_of_ne_nan hq2,
      Dbl.le_refl_of_ne_nan hq1, Dbl.le_of_lt_true hlt, ?_⟩
    intro e1 e2 t
    subst e1 e2
    have hba : (1 - o) / d < (-1 - o) / d := by simpa [Dbl.lt] using hlt
    simp only [Dbl.le_fin, decide_eq_true_eq]
    rw [raytracer.Cube.axis_slab o d t hd, min_eq_right hba.le, max_eq_left hba.le]
  · have hgt0 : Dbl.gt q1 q2 = false := by simpa using hgt
    simp only [hgt0, Bool.false_eq_true, if_false]
    have hle : Dbl.le q1 q2 = true := Dbl.le_of_not_lt hq2 hq1 hgt0
    refine ⟨hle, Dbl.le_refl_of_ne_nan hq1, hle, hle, Dbl.le_refl_of_ne_nan hq2, ?_⟩
    intro e1 e2 t
    subst e1 e2
    have hab : (-1 - o) / d ≤ (1 - o) / d := by simpa [Dbl.le] using hle
    simp only [Dbl.le_fin, decide_eq_true_eq]
    rw [raytracer.Cube.axis_slab o d t hd, min_eq_left hab, max_eq_right hab]

end Cube

end Rounded

namespace Rounded

namespace Cube

variable {K : Type} [LinearOrderedField K]

/-- Evaluation of one quotient of the dividing branch: `n` is the rounded numerator, `q` the
rounded quotient. -/
theorem quotient_eval (rnd : K → Dbl K) (c o d n q : K) (hn : rnd (c - o) = Dbl.fin n)
    (hd : d ≠ 0) (hq : rnd (n / d) = Dbl.fin q) :
    Dbl.divR rnd (Dbl.subR rnd (Dbl.fin c) (Dbl.fin o)) (Dbl.fin d) = Dbl.fin q := by
  simp only [Dbl.subR, Dbl.sub_fin, Dbl.roundWith, hn, Dbl.divR, Dbl.div, hd, if_false, hq]

/-- Evaluation of the dividing branch of `checkAxis` from its two rounded quotients. -/
theorem checkAxis_eval (rnd : K → Dbl K) (A : Dbl K → Dbl K → Bool) (o d n1 n2 q1 q2 : K)
    (hA : A (Dbl.fin d) (Dbl.fin 0) = false) (hd : d ≠ 0)
    (hn1 : rnd (-1 - o) = Dbl.fin n1) (hq1 : rnd (n1 / d) = Dbl.fin q1)
    (hn2 : rnd (1 - o) = Dbl.fin n2) (hq2 : rnd (n2 / d) = Dbl.fin q2) :
    checkAxis rnd A (Dbl.fin o) (Dbl.fin d) = (Dbl.fin (min q1 q2), Dbl.fin (max q1 q2)) := by
  rw [checkAxis_dividing_computed rnd A _ _ hA, quotient_eval rnd (-1) o d n1 q1 hn1 hd hq1,
    quotient_eval rnd 1 o d n2 q2 hn2 hd hq2]
  simp only [Dbl.gt_fin, decide_eq_true_eq]
  split_ifs with h
  · rw [min_eq_right h.le, max_eq_left h.le]
  · rw [min_eq_left (not_lt.1 h), max_eq_right (not_lt.1 h)]

end Cube

end Rounded

namespace Dbl

/-- The quotient `1 / 10` is not a double; it rounds up to `0.1000000000000000055...`. -/
theorem binary64_tenth :
    binary64 (1 / 10 : ℚ) = fin (3602879701896397 / 36028797018963968) := by
  rw [binary64_eval (1 / 10) (-4) 7205759403792794 (by norm_num) (by norm_num) (by norm_num)
    (by norm_num)]
  norm_num

theorem binary64_neg_tenth :
    binary64 (-1 / 10 : ℚ) = fin (-(3602879701896397 / 36028797018963968)) := by
  rw [show (-1 / 10 : ℚ) = -(1 / 10) by norm_num, binary64_neg, binary64_tenth]
  rfl

end Dbl

namespace Rounded

namespace Cube

/-- The axis with origin coordinate 0 and direction coordinate 10 in binary64. -/
theorem checkAxis_ten :
    checkAxis Dbl.binary64 (Dbl.almostEquals (1 / 10000 : ℚ)) (Dbl.fin 0) (Dbl.fin 10) =
      (Dbl.fin (-(3602879701896397 / 36028797018963968)),
       Dbl.fin (3602879701896397 / 36028797018963968)) := by
  rw [checkAxis_eval Dbl.binary64 _ 0 10 (-1) 1 (-(3602879701896397 / 36028797018963968))
    (3602879701896397 / 36028797018963968) (by norm_num [Dbl.almostEquals_fin]) (by norm_num)
    (by rw [show (-1 - 0 : ℚ) = -1 by norm_num]; exact Dbl.binary64_neg_one)
    Dbl.binary64_neg_tenth
    (by rw [show (1 - 0 : ℚ) = 1 by norm_num]; exact Dbl.binary64_one)
    Dbl.binary64_tenth]
  norm_num

/-- Counterexample to C17 as stated: in doubles, for `o = 0` and `d = 10` (not almost-equal
to zero) `checkAxis` returns `(-fl(1/10), fl(1/10))` with `fl(1/10) > 1/10`, not the pair of
the real quotients `(-1/10, 1/10)`; the real `t = fl(1/10)` lies between the two components,
yet `o + t*d > 1`. -/
theorem checkAxis_rounded_quotient_counterexample :
    Dbl.almostEquals (1 / 10000 : ℚ) (Dbl.fin 10) (Dbl.fin 0) = false ∧
    checkAxis Dbl.binary64 (Dbl.almostEquals (1 / 10000 : ℚ)) (Dbl.fin 0) (Dbl.fin 10) =
      (Dbl.fin (-(3602879701896397 / 36028797018963968)),
       Dbl.fin (3602879701896397 / 36028797018963968)) ∧
    (3602879701896397 / 36028797018963968 : ℚ) ≠ (1 - 0) / 10 ∧
    Dbl.le (Dbl.fin (-(3602879701896397 / 36028797018963968 : ℚ)))
      (Dbl.fin (3602879701896397 / 36028797018963968)) = true ∧
    Dbl.le (Dbl.fin (3602879701896397 / 36028797018963968 : ℚ))
      (Dbl.fin (3602879701896397 / 36028797018963968)) = true ∧
    (1 : ℚ) < 0 + 3602879701896397 / 36028797018963968 * 10 :=
  ⟨by norm_num [Dbl.almostEquals_fin], checkAxis_ten, by norm_num, by norm_num [Dbl.le],
    by norm_num [Dbl.le], by norm_num⟩

end Cube

end Rounded

namespace Rounded

namespace Cube

/-- The axis with origin coordinate 5 and direction coordinate -1 in binary64: every operation
is exact, the pair is `(4, 6)`. -/
theorem checkAxis_five :
    checkAxis Dbl.binary64 (Dbl.almostEquals (1 / 10000 : ℚ)) (Dbl.fin 5) (Dbl.fin (-1)) =
      (Dbl.fin 4, Dbl.fin 6) := by
  rw [checkAxis_eval Dbl.binary64 _ 5 (-1) (-6) (-4) 6 4 (by norm_num [Dbl.almostEquals_fin])
    (by norm_num)
    (by rw [show (-1 - 5 : ℚ) = -6 by norm_num]
        simpa using Dbl.binary64_int (K := ℚ) (-6) (by norm_num))
    (by rw [show (-6 / -1 : ℚ) = 6 by norm_num]
        simpa using Dbl.binary64_int (K := ℚ) 6 (by norm_num))
    (by rw [show (1 - 5 : ℚ) = -4 by norm_num]
        simpa using Dbl.binary64_int (K := ℚ) (-4) (by norm_num))
    (by rw [show (-4 / -1 : ℚ) = 4 by norm_num]
        simpa using Dbl.binary64_int (K := ℚ) 4 (by norm_num))]
  norm_num

/-- Witness for C17 (amended): in binary64 (which never yields NaN), origin coordinate 5 and
direction coordinate -1 (epsilon 0.0001) give the quotients 6 and 4, computed exactly and
returned as the pair `(4, 6)`; so `-1 <= 5 - t <= 1` holds exactly for `t` between the two
components. -/
theorem checkAxis_sorted_computed_quotients_witness :
    checkAxis Dbl.binary64 (Dbl.almostEquals (1 / 10000 : ℚ)) (Dbl.fin 5) (Dbl.fin (-1)) =
      (Dbl.fin 4, Dbl.fin 6) ∧
    Dbl.le
      (checkAxis Dbl.binary64 (Dbl.almostEquals (1 / 10000 : ℚ)) (Dbl.fin 5) (Dbl.fin (-1))).1
      (checkAxis Dbl.binary64 (Dbl.almostEquals (1 / 10000 : ℚ)) (Dbl.fin 5) (Dbl.fin (-1))).2 =
      true ∧
    ∀ t : ℚ, (-1 ≤ 5 + t * (-1) ∧ 5 + t * (-1) ≤ 1) ↔
      (Dbl.le
          (checkAxis Dbl.binary64 (Dbl.almostEquals (1 / 10000 : ℚ)) (Dbl.fin 5)
            (Dbl.fin (-1))).1 (Dbl.fin t) = true ∧
        Dbl.le (Dbl.fin t)
          (checkAxis Dbl.binary64 (Dbl.almostEquals (1 / 10000 : ℚ)) (Dbl.fin 5)
            (Dbl.fin (-1))).2 = true) := by
  obtain ⟨q1, q2, e1, e2, -, -, -, hle, -, -, -, -, hslab⟩ :=
    checkAxis_sorted_computed_quotients Dbl.binary64 Dbl.binary64_ne_nan
      (Dbl.almostEquals (1 / 10000 : ℚ)) 5 (-1) (by norm_num [Dbl.almostEquals_fin])
      (by norm_num [Dbl.almostEquals_fin])
  refine ⟨checkAxis_five, hle, hslab ?_ ?_⟩
  · rw [e1, quotient_eval Dbl.binary64 (-1) 5 (-1) (-6) 6
      (by rw [show (-1 - 5 : ℚ) = -6 by norm_num]
          simpa using Dbl.binary64_int (K := ℚ) (-6) (by norm_num))
      (by norm_num)
      (by rw [show (-6 / -1 : ℚ) = 6 by norm_num]
          simpa using Dbl.binary64_int (K := ℚ) 6 (by norm_num))]
    norm_num
  · rw [e2, quotient_eval Dbl.binary64 1 5 (-1) (-4) 4
      (by rw [show (1 - 5 : ℚ) = -4 by norm_num]
          simpa using Dbl.binary64_int (K := ℚ) (-4) (by norm_num))
      (by norm_num)
      (by rw [show (-4 / -1 : ℚ) = 4 by norm_num]
          simpa using Dbl.binary64_int (K := ℚ) 4 (by norm_num))]
    norm_num

end Cube

end Rounded

namespace Rounded

namespace Cube

end Cube

end Rounded

/-! ## `Intersection::prepare_hit` in doubles (C13) -/

namespace Rounded

namespace Intersection

variable {K : Type} [LinearOrderedField K]

/-- The normal stored by `prepare_hit` for a normal vector of doubles and a symmetric rounding:
`normalAt(point)` when the computed `normalAt(point) · eye` is not less than 0, its negation
otherwise. -/
theorem prepare_hit_normal (rnd : K → Dbl K) (hsym : ∀ x, rnd (-x) = Dbl.neg (rnd x))
    (normalAt : ShapePtr → Tuple K → Tuple K) (i : raytracer.Intersection K) (r : Ray K)
    (hrep : Tuple.roundWith rnd (normalAt i.object (Ray.positionR rnd r i.t)) =
      normalAt i.object (Ray.positionR rnd r i.t)) :
    ((prepare_hit rnd normalAt i r).inside = false →
      (prepare_hit rnd normalAt i r).normalv = normalAt i.object (Ray.positionR rnd r i.t)) ∧
    ((prepare_hit rnd normalAt i r).inside = true →
      (prepare_hit rnd normalAt i r).normalv =
        Tuple.neg (normalAt i.object (Ray.positionR rnd r i.t))) := by
  constructor
  · intro h
    have h2 : Dbl.lt (Tuple.dot_productR rnd (normalAt i.object (Ray.positionR rnd r i.t))
        (Tuple.neg r.direction)) (Dbl.fin 0) = false := h
    simp only [prepare_hit, h2, Bool.false_eq_true, if_false]
    rw [Tuple.smulR_one_left, hrep]
  · intro h
    have h2 : Dbl.lt (Tuple.dot_productR rnd (normalAt i.object (Ray.positionR rnd r i.t))
        (Tuple.neg r.direction)) (Dbl.fin 0) = true := h
    simp only [prepare_hit, h2, if_true]
    rw [Tuple.smulR_neg_one_left hsym, hrep]

/-- C13 (amended): for every intersection, ray and shape normal function returning doubles, the
Hit produced by `Intersection::prepare_hit` satisfies `normal dot eye >= 0` in this sense: the
dot product of the stored normal and the eye vector, computed in doubles, is never negative
(it is `>= 0` or NaN); and the exact dot product of the stored normal and the eye vector is
`>= 0` for finite vectors whenever the test `normalAt(point) · eye < 0` computed in doubles
agrees with the sign of the exact dot product.  The rounding is assumed symmetric,
`rnd (-x) = -(rnd x)`. -/
theorem prepare_hit_computed_dot_not_negative (rnd : K → Dbl K)
    (hsym : ∀ x, rnd (-x) = Dbl.neg (rnd x))
    (normalAt : ShapePtr → Tuple K → Tuple K) (i : raytracer.Intersection K) (r : Ray K)
    (hrep : Tuple.roundWith rnd (normalAt i.object (Ray.positionR rnd r i.t)) =
      normalAt i.object (Ray.positionR rnd r i.t)) :
    Dbl.lt
      (Tuple.dot_productR rnd (prepare_hit rnd normalAt i r).normalv
        (prepare_hit rnd normalAt i r).eyev) (Dbl.fin 0) = false ∧
    (∀ dx dy dz dw nx ny nz nw : K,
      r.direction = ⟨Dbl.fin dx, Dbl.fin dy, Dbl.fin dz, Dbl.fin dw⟩ →
      normalAt i.object (Ray.positionR rnd r i.t) =
        ⟨Dbl.fin nx, Dbl.fin ny, Dbl.fin nz, Dbl.fin nw⟩ →
      Dbl.lt (Tuple.dot_productR rnd (normalAt i.object (Ray.positionR rnd r i.t))
          (Tuple.neg r.direction)) (Dbl.fin 0) =
        Dbl.lt (Tuple.dot_product (normalAt i.object (Ray.positionR rnd r i.t))
          (Tuple.neg r.direction)) (Dbl.fin 0) →
      Dbl.le (Dbl.fin 0)
        (Tuple.dot_product (prepare_hit rnd normalAt i r).normalv
          (prepare_hit rnd normalAt i r).eyev) = true) := by
  obtain ⟨hout, hin⟩ := prepare_hit_normal rnd hsym normalAt i r hrep
  have heye : (prepare_hit rnd normalAt i r).eyev = Tuple.neg r.direction := rfl
  have hins : (prepare_hit rnd normalAt i r).inside =
      Dbl.lt (Tuple.dot_productR rnd (normalAt i.object (Ray.positionR rnd r i.t))
        (Tuple.neg r.direction)) (Dbl.fin 0) := rfl
  constructor
  · rw [heye]
    cases h : (prepare_hit rnd normalAt i r).inside
    · rw [hout h]
      rw [hins] at h
      exact h
    · rw [hin h, Tuple.dot_productR_neg_left hsym]
      rw [hins] at h
      exact Dbl.lt_zero_neg h
  · intro dx dy dz dw nx ny nz nw hd hn hagree
    rw [heye]
    cases h : (prepare_hit rnd normalAt i r).inside
    · rw [hout h]
      rw [hins, hagree] at h
      rw [hn, hd] at h ⊢
      simp only [Tuple.neg, Tuple.dot_product, Dbl.neg_fin, Dbl.mul_fin, Dbl.add_fin,
        Dbl.lt_fin, Dbl.le_fin, decide_eq_false_iff_not, decide_eq_true_eq, not_lt] at h ⊢
      exact h
    · rw [hin h]
      rw [hins, hagree] at h
      rw [hn, hd] at h ⊢
      simp only [Tuple.neg, Tuple.dot_product, Dbl.neg_fin, Dbl.mul_fin, Dbl.add_fin,
        Dbl.lt_fin, Dbl.le_fin, decide_eq_true_eq] at h ⊢
      linarith

/-- A normal `(p, p, 0)` and a direction `(-p, p, 0)` for a double `p` whose square overflows:
the computed dot product with the eye vector is `∞ - ∞ = NaN`, the normal is kept. -/
theorem overflowing_normal (rnd : K → Dbl K) (p : K) (h0 : rnd 0 = Dbl.fin 0)
    (hp : rnd p = Dbl.fin p) (hpp : rnd (p * p) = Dbl.pinf) (hmpp : rnd (-(p * p)) = Dbl.ninf)
    (i : raytracer.Intersection K) (o : Tuple K) :
    (prepare_hit rnd (fun _ _ => ⟨Dbl.fin p, Dbl.fin p, Dbl.fin 0, Dbl.fin 0⟩) i
        ⟨o, Tuple.make_vector (Dbl.fin (-p)) (Dbl.fin p) (Dbl.fin 0)⟩).inside = false ∧
    (prepare_hit rnd (fun _ _ => ⟨Dbl.fin p, Dbl.fin p, Dbl.fin 0, Dbl.fin 0⟩) i
        ⟨o, Tuple.make_vector (Dbl.fin (-p)) (Dbl.fin p) (Dbl.fin 0)⟩).normalv =
      ⟨Dbl.fin p, Dbl.fin p, Dbl.fin 0, Dbl.fin 0⟩ ∧
    Tuple.dot_productR rnd
      (prepare_hit rnd (fun _ _ => ⟨Dbl.fin p, Dbl.fin p, Dbl.fin 0, Dbl.fin 0⟩) i
        ⟨o, Tuple.make_vector (Dbl.fin (-p)) (Dbl.fin p) (Dbl.fin 0)⟩).normalv
      (prepare_hit rnd (fun _ _ => ⟨Dbl.fin p, Dbl.fin p, Dbl.fin 0, Dbl.fin 0⟩) i
        ⟨o, Tuple.make_vector (Dbl.fin (-p)) (Dbl.fin p) (Dbl.fin 0)⟩).eyev = Dbl.nan := by
  have hdot : Tuple.dot_productR rnd ⟨Dbl.fin p, Dbl.fin p, Dbl.fin 0, Dbl.fin 0⟩
      (Tuple.neg (Tuple.make_vector (Dbl.fin (-p)) (Dbl.fin p) (Dbl.fin 0))) = Dbl.nan := by
    simp [Tuple.dot_productR, Tuple.neg, Tuple.make_vector, Dbl.mulR, Dbl.addR,
      Dbl.roundWith_fin, hpp, hmpp, h0, Dbl.add, Dbl.roundWith]
  have hins : (prepare_hit rnd (fun _ _ => ⟨Dbl.fin p, Dbl.fin p, Dbl.fin 0, Dbl.fin 0⟩) i
        ⟨o, Tuple.make_vector (Dbl.fin (-p)) (Dbl.fin p) (Dbl.fin 0)⟩).inside = false := by
    simp only [prepare_hit, hdot]
    rfl
  have hnv : (prepare_hit rnd (fun _ _ => ⟨Dbl.fin p, Dbl.fin p, Dbl.fin 0, Dbl.fin 0⟩) i
        ⟨o, Tuple.make_vector (Dbl.fin (-p)) (Dbl.fin p) (Dbl.fin 0)⟩).normalv =
      ⟨Dbl.fin p, Dbl.fin p, Dbl.fin 0, Dbl.fin 0⟩ := by
    simp only [prepare_hit, hdot]
    simp [Dbl.lt, Tuple.smulR, Dbl.mulR, Dbl.roundWith_fin, hp, h0]
  refine ⟨hins, hnv, ?_⟩
  rw [hnv]
  exact hdot

/-- A normal `(a, b, 0)` and a direction `(-c, 1, 0)` where the product `a * c` rounds to `b`:
the computed dot product with the eye vector `(c, -1, 0)` is `b - b = 0`, so the normal is
kept, while the exact dot product is `a * c - b`. -/
theorem cancelling_normal (rnd : K → Dbl K) (a b c : K) (h0 : rnd 0 = Dbl.fin 0)
    (ha : rnd a = Dbl.fin a) (hb : rnd b = Dbl.fin b) (hac : rnd (a * c) = Dbl.fin b)
    (hmb : rnd (-b) = Dbl.fin (-b)) (i : raytracer.Intersection K) (o : Tuple K) :
    (prepare_hit rnd (fun _ _ => ⟨Dbl.fin a, Dbl.fin b, Dbl.fin 0, Dbl.fin 0⟩) i
        ⟨o, Tuple.make_vector (Dbl.fin (-c)) (Dbl.fin 1) (Dbl.fin 0)⟩).inside = false ∧
    (prepare_hit rnd (fun _ _ => ⟨Dbl.fin a, Dbl.fin b, Dbl.fin 0, Dbl.fin 0⟩) i
        ⟨o, Tuple.make_vector (Dbl.fin (-c)) (Dbl.fin 1) (Dbl.fin 0)⟩).normalv =
      ⟨Dbl.fin a, Dbl.fin b, Dbl.fin 0, Dbl.fin 0⟩ ∧
    Tuple.dot_product
      (prepare_hit rnd (fun _ _ => ⟨Dbl.fin a, Dbl.fin b, Dbl.fin 0, Dbl.fin 0⟩) i
        ⟨o, Tuple.make_vector (Dbl.fin (-c)) (Dbl.fin 1) (Dbl.fin 0)⟩).normalv
      (prepare_hit rnd (fun _ _ => ⟨Dbl.fin a, Dbl.fin b, Dbl.fin 0, Dbl.fin 0⟩) i
        ⟨o, Tuple.make_vector (Dbl.fin (-c)) (Dbl.fin 1) (Dbl.fin 0)⟩).eyev =
      Dbl.fin (a * c - b) := by
  have hdot : Tuple.dot_productR rnd ⟨Dbl.fin a, Dbl.fin b, Dbl.fin 0, Dbl.fin 0⟩
      (Tuple.neg (Tuple.make_vector (Dbl.fin (-c)) (Dbl.fin 1) (Dbl.fin 0))) = Dbl.fin 0 := by
    simp [Tuple.dot_productR, Tuple.neg, Tuple.make_vector, Dbl.mulR, Dbl.addR,
      Dbl.roundWith_fin, hac, hmb, h0]
  have hins : (prepare_hit rnd (fun _ _ => ⟨Dbl.fin a, Dbl.fin b, Dbl.fin 0, Dbl.fin 0⟩) i
        ⟨o, Tuple.make_vector (Dbl.fin (-c)) (Dbl.fin 1) (Dbl.fin 0)⟩).inside = false := by
    simp only [prepare_hit, hdot]
    simp
  have hnv : (prepare_hit rnd (fun _ _ => ⟨Dbl.fin a, Dbl.fin b, Dbl.fin 0, Dbl.fin 0⟩) i
        ⟨o, Tuple.make_vector (Dbl.fin (-c)) (Dbl.fin 1) (Dbl.fin 0)⟩).normalv =
      ⟨Dbl.fin a, Dbl.fin b, Dbl.fin 0, Dbl.fin 0⟩ := by
    simp only [prepare_hit, hdot]
    simp [Tuple.smulR, Dbl.mulR, Dbl.roundWith_fin, ha, hb, h0]
  refine ⟨hins, hnv, ?_⟩
  rw [hnv]
  simp only [prepare_hit, Tuple.neg, Tuple.make_vector, Tuple.dot_product, Dbl.neg_fin,
    Dbl.mul_fin, Dbl.add_fin]
  congr 1
  ring

end Intersection

end Rounded

namespace Dbl

/-- The doubles of the two evaluations of `prepare_hit` below. -/
theorem binary64_two_pow_700 : binary64 ((2 : ℚ) ^ 700) = fin ((2 : ℚ) ^ 700) := by
  have h := binary64_dyadic (K := ℚ) 1 700 (by norm_num) (by norm_num)
    (by rw [abs_lt]; constructor <;> norm_num)
  have e : ((1 : Int) : ℚ) * (2 : ℚ) ^ (700 : Int) = (2 : ℚ) ^ 700 := by norm_num
  rw [e] at h
  exact h

theorem binary64_neg_huge_square :
    binary64 (-((2 : ℚ) ^ 700 * (2 : ℚ) ^ 700)) = ninf := by
  rw [binary64_neg, binary64_huge_square]
  rfl

theorem binary64_near_one :
    binary64 (4503599627370499 / 4503599627370496 : ℚ) =
      fin (4503599627370499 / 4503599627370496) := by
  have h := binary64_dyadic (K := ℚ) 4503599627370499 (-52) (by norm_num) (by norm_num)
    (by rw [abs_lt]; constructor <;> norm_num)
  have e : ((4503599627370499 : Int) : ℚ) * (2 : ℚ) ^ (-52 : Int) =
      4503599627370499 / 4503599627370496 := by norm_num
  rw [e] at h
  exact h

theorem binary64_near_five_quarters :
    binary64 (1407374883553281 / 1125899906842624 : ℚ) =
      fin (1407374883553281 / 1125899906842624) := by
  have h := binary64_dyadic (K := ℚ) 1407374883553281 (-50) (by norm_num) (by norm_num)
    (by rw [abs_lt]; constructor <;> norm_num)
  have e : ((1407374883553281 : Int) : ℚ) * (2 : ℚ) ^ (-50 : Int) =
      1407374883553281 / 1125899906842624 := by norm_num
  rw [e] at h
  exact h

theorem binary64_neg_near_five_quarters :
    binary64 (-(1407374883553281 / 1125899906842624) : ℚ) =
      fin (-(1407374883553281 / 1125899906842624)) := by
  rw [binary64_neg, binary64_near_five_quarters]
  rfl

/-- The product `(1 + 3 * 2^-52) * 5/4` is not a double; it rounds up to `5/4 + 4 * 2^-52`. -/
theorem binary64_rounded_product :
    binary64 (4503599627370499 / 4503599627370496 * (5 / 4) : ℚ) =
      fin (1407374883553281 / 1125899906842624) := by
  rw [binary64_eval _ 0 5629499534213124 (by norm_num) (by norm_num) (by norm_num)
    (by norm_num)]
  norm_num

end Dbl

namespace Rounded

namespace Intersection

/-- Counterexample to C13 as stated, in doubles.  With the normal `(2^700, 2^700, 0)` and the
direction `(-2^700, 2^700, 0)` the dot product of the normal and the eye vector is
`∞ - ∞ = NaN`: inside is false, the normal is kept, and `normal · eye >= 0` is false for the
Hit.  With the normal `(1 + 3 * 2^-52, 5/4 + 4 * 2^-52, 0)` and the direction `(-5/4, 1, 0)`
the computed dot product is 0, the normal is kept, and the exact dot product of the stored
normal and the eye vector is `-2^-54 < 0`: the stored normal points away from the eye. -/
theorem prepare_hit_normal_away_counterexample :
    Dbl.le (Dbl.fin 0)
      (Tuple.dot_productR Dbl.binary64
        (prepare_hit Dbl.binary64
          (fun _ _ => ⟨Dbl.fin ((2 : ℚ) ^ 700), Dbl.fin ((2 : ℚ) ^ 700), Dbl.fin 0, Dbl.fin 0⟩)
          ⟨Dbl.fin 1, 3⟩
          ⟨Tuple.zero_point,
           Tuple.make_vector (Dbl.fin (-(2 : ℚ) ^ 700)) (Dbl.fin ((2 : ℚ) ^ 700))
             (Dbl.fin 0)⟩).normalv
        (prepare_hit Dbl.binary64
          (fun _ _ => ⟨Dbl.fin ((2 : ℚ) ^ 700), Dbl.fin ((2 : ℚ) ^ 700), Dbl.fin 0, Dbl.fin 0⟩)
          ⟨Dbl.fin 1, 3⟩
          ⟨Tuple.zero_point,
           Tuple.make_vector (Dbl.fin (-(2 : ℚ) ^ 700)) (Dbl.fin ((2 : ℚ) ^ 700))
             (Dbl.fin 0)⟩).eyev) = false ∧
    Dbl.le (Dbl.fin 0)
      (Tuple.dot_product
        (prepare_hit Dbl.binary64
          (fun _ _ => ⟨Dbl.fin (4503599627370499 / 4503599627370496 : ℚ),
            Dbl.fin (1407374883553281 / 1125899906842624), Dbl.fin 0, Dbl.fin 0⟩)
          ⟨Dbl.fin 1, 3⟩
          ⟨Tuple.zero_point,
           Tuple.make_vector (Dbl.fin (-(5 / 4))) (Dbl.fin 1) (Dbl.fin 0)⟩).normalv
        (prepare_hit Dbl.binary64
          (fun _ _ => ⟨Dbl.fin (4503599627370499 / 4503599627370496 : ℚ),
            Dbl.fin (1407374883553281 / 1125899906842624), Dbl.fin 0, Dbl.fin 0⟩)
          ⟨Dbl.fin 1, 3⟩
          ⟨Tuple.zero_point,
           Tuple.make_vector (Dbl.fin (-(5 / 4))) (Dbl.fin 1) (Dbl.fin 0)⟩).eyev) = false := by
  constructor
  · rw [(overflowing_normal Dbl.binary64 ((2 : ℚ) ^ 700) Dbl.binary64_zero
      Dbl.binary64_two_pow_700 Dbl.binary64_huge_square Dbl.binary64_neg_huge_square
      ⟨Dbl.fin 1, 3⟩ Tuple.zero_point).2.2]
    rfl
  · rw [(cancelling_normal Dbl.binary64 (4503599627370499 / 4503599627370496)
      (1407374883553281 / 1125899906842624) (5 / 4) Dbl.binary64_zero Dbl.binary64_near_one
      Dbl.binary64_near_five_quarters Dbl.binary64_rounded_product
      Dbl.binary64_neg_near_five_quarters ⟨Dbl.fin 1, 3⟩ Tuple.zero_point).2.2]
    norm_num [Dbl.le]

/-- Witness for C13 (amended): binary64 rounding is symmetric; for the normal `(0, 0, 1)`, a
vector of doubles, and the ray from the origin with direction `(0, 0, 1)`, the computed dot
product of the stored normal and the eye vector is not negative. -/
theorem prepare_hit_computed_dot_not_negative_witness :
    Dbl.lt
      (Tuple.dot_productR Dbl.binary64
        (prepare_hit Dbl.binary64
          (fun _ _ => ⟨Dbl.fin (0 : ℚ), Dbl.fin 0, Dbl.fin 1, Dbl.fin 0⟩) ⟨Dbl.fin 1, 3⟩
          ⟨Tuple.zero_point, Tuple.make_vector (Dbl.fin 0) (Dbl.fin 0) (Dbl.fin 1)⟩).normalv
        (prepare_hit Dbl.binary64
          (fun _ _ => ⟨Dbl.fin (0 : ℚ), Dbl.fin 0, Dbl.fin 1, Dbl.fin 0⟩) ⟨Dbl.fin 1, 3⟩
          ⟨Tuple.zero_point, Tuple.make_vector (Dbl.fin 0) (Dbl.fin 0) (Dbl.fin 1)⟩).eyev)
      (Dbl.fin 0) = false :=
  (prepare_hit_computed_dot_not_negative Dbl.binary64 Dbl.binary64_neg
    (fun _ _ => ⟨Dbl.fin (0 : ℚ), Dbl.fin 0, Dbl.fin 1, Dbl.fin 0⟩) ⟨Dbl.fin 1, 3⟩
    ⟨Tuple.zero_point, Tuple.make_vector (Dbl.fin 0) (Dbl.fin 0) (Dbl.fin 1)⟩
    (by simp only [Tuple.roundWith, Dbl.roundWith_fin, Dbl.binary64_zero, Dbl.binary64_one])).1

end Intersection

end Rounded

end raytracer
